import Mathlib

/-!
# Wall marks (`code/cgame/cg_marks.c`)

A shallow embedding of the mark-poly pool of `cg_marks.c` and proofs about it.

Modelling conventions.

* A `markPoly_t *` is a `Ptr`: `NULL`, the address of the list head
  `cg_activeMarkPolys`, or the address of `cg_markPolys[i]`.
* The three file-level statics that make up the pool are the fields of `Pool`.
* C `int` values are `Int`. The sum `mp->time + MARK_TOTAL_TIME` and the product
  `255 * t`, which have a cvar among their operands, are reduced to 32 bits with
  `wrap32` (two's complement wrap-around). The two subtractions `cg.time - mp->time` and
  `mp->time + MARK_TOTAL_TIME - cg.time` are exact: with `cg.time` and the stored times
  in `[0, 2^31)` the first cannot overflow, and the second is only reached when
  `cg.time` is at most the wrapped sum, so it cannot either.
  `byte` values are `Nat` reduced `% 256` on every store.
* C `float` and `double` values are the rationals they denote. Every arithmetic
  operation rounds its exact result to the nearest value of its type (24 or 53
  significant bits, ties to even) with `toFloat` or `toDouble`; the exponent range is
  not bounded, so there is no overflow to infinity and there are no subnormals.
  Conversion to an integer type truncates toward zero.
* Loops whose exit depends on the heap (`while` in `CG_AllocMark`, `for` in
  `CG_AddMarks`) take a fuel argument and return `Fault.outOfFuel` when it runs out.
* `CG_Error` does not return: it is the `Except.error` result.
* `MAX_MARK_POLYS` and `MAX_VERTS_ON_POLY` come from a header and are parameters.
-/

namespace CgMarks

set_option maxRecDepth 8000

/-! ## Data model -/

/-- A `markPoly_t *`. -/
inductive Ptr where
  | null
  | active
  | slot (i : Nat)
  deriving DecidableEq, Repr

/-- A `vec3_t`. -/
structure Vec3 where
  x : ℚ
  y : ℚ
  z : ℚ
  deriving DecidableEq

/-- Four channels, indexed `[0]` to `[3]` in the source. -/
structure Chan4 (α : Type) where
  c0 : α
  c1 : α
  c2 : α
  c3 : α
  deriving DecidableEq

/-- A `polyVert_t`: position, texture coordinate, colour bytes. -/
structure polyVert_t where
  xyz : Vec3
  st0 : ℚ
  st1 : ℚ
  modulate : Chan4 Nat
  deriving DecidableEq

/-- A `markPoly_t`, with the fields `cg_marks.c` reads or writes. -/
structure markPoly_t where
  prevMark : Ptr
  nextMark : Ptr
  time : Int
  markShader : Int
  alphaFade : Bool
  energy : Bool
  color : Chan4 ℚ
  numVerts : Nat
  verts : List polyVert_t
  deriving DecidableEq

/-- A `markFragment_t`: a run of points in the shared point buffer. -/
structure markFragment_t where
  firstPoint : Nat
  numPoints : Nat
  deriving DecidableEq

/-- One call of `trap_R_AddPolyToScene`: shader, vertex count and the vertices read. -/
structure Poly where
  hShader : Int
  numVerts : Nat
  verts : List polyVert_t
  deriving DecidableEq

/-- The statics `cg_activeMarkPolys`, `cg_freeMarkPolys`, `cg_markPolys`. -/
structure Pool where
  cg_activeMarkPolys : markPoly_t
  cg_freeMarkPolys : Ptr
  cg_markPolys : List markPoly_t
  deriving DecidableEq

/-- The pool together with `markTotal` and `cg.lastImpactOrigin`. -/
structure State where
  pool : Pool
  markTotal : Int
  lastImpactOrigin : Vec3
  deriving DecidableEq

/-- Ways a call can fail to return. -/
inductive Fault where
  | notActive
  | badRadius
  | nullDeref
  | divByZero
  | outOfFuel
  deriving DecidableEq, Repr

/-- The globals and cvars read by the module. -/
structure Globals where
  cg_time : Int
  cg_marks : Int
  cg_markTime : Int
  cg_markFadeTime : Int
  cg_debugImpactOrigin : Int

/-- Engine services called by `CG_ImpactMark` whose code is outside this file. -/
structure Engine where
  VectorNormalize2 : Vec3 → Vec3
  PerpendicularVector : Vec3 → Vec3
  RotatePointAroundVector : Vec3 → Vec3 → ℚ → Vec3
  trap_CM_MarkFragments : List Vec3 → Vec3 → Nat → Nat → List Vec3 × List markFragment_t

/-! ## Scalars -/

/-- Conversion of an `int` to `byte`. -/
def toByte (z : Int) : Nat := (z % 256).toNat

/-- Conversion of a floating value to `int`: truncation toward zero. -/
def truncQ (q : ℚ) : Int := if 0 ≤ q then ⌊q⌋ else ⌈q⌉

/-- Conversion of a floating value to `byte`. -/
def floatToByte (q : ℚ) : Nat := toByte (truncQ q)

/-- The number of binary digits of `n`, with fuel. -/
def bitLen : Nat → Nat → Nat
  | 0, _ => 0
  | fuel + 1, n => if n = 0 then 0 else bitLen fuel (n / 2) + 1

/-- The power `2^k` for an integer `k`. -/
def pow2 (k : Int) : ℚ :=
  if 0 ≤ k then ((2 ^ k.toNat : Nat) : ℚ) else 1 / ((2 ^ (-k).toNat : Nat) : ℚ)

/-- The binary exponent of a positive value: the `e` with `2^e ≤ x < 2^(e+1)`. -/
def floorLog2 (x : ℚ) : Int :=
  let k : Int := (bitLen x.num.natAbs x.num.natAbs : Int) - (bitLen x.den x.den : Int)
  if pow2 k ≤ x then k else k - 1

/-- The nearest integer, ties to the even one. -/
def roundHalfEven (x : ℚ) : Int :=
  if x - ⌊x⌋ < 1 / 2 then ⌊x⌋
  else if 1 / 2 < x - ⌊x⌋ then ⌊x⌋ + 1
  else if ⌊x⌋ % 2 = 0 then ⌊x⌋ else ⌊x⌋ + 1

/-- A positive value rounded to `p` significant bits. -/
def roundPos (p : Nat) (x : ℚ) : ℚ :=
  roundHalfEven (x / pow2 (floorLog2 x - ((p : Int) - 1))) * pow2 (floorLog2 x - ((p : Int) - 1))

/-- Round to nearest with `p` significant bits, ties to even. -/
def roundToPrec (p : Nat) (x : ℚ) : ℚ :=
  if 0 < x then roundPos p x else if x < 0 then -roundPos p (-x) else 0

/-- The `float` nearest to a value. -/
def toFloat (x : ℚ) : ℚ := roundToPrec 24 x
/-- The `double` nearest to a value. -/
def toDouble (x : ℚ) : ℚ := roundToPrec 53 x

/-- A `float` product. -/
def fmul (a b : ℚ) : ℚ := toFloat (a * b)

/-- A `float` sum. -/
def fadd (a b : ℚ) : ℚ := toFloat (a + b)

/-- A `float` difference. -/
def fsub (a b : ℚ) : ℚ := toFloat (a - b)

/-- The value of an `int` expression with exact result `x`, reduced to 32 bits. -/
def wrap32 (x : Int) : Int := (x + 2147483648) % 4294967296 - 2147483648

def zeroVec : Vec3 := ⟨0, 0, 0⟩

def zeroVert : polyVert_t := ⟨zeroVec, 0, 0, ⟨0, 0, 0, 0⟩⟩

/-- A `markPoly_t` after `memset( le, 0, sizeof( *le ) )`. -/
def zeroMark (MAX_VERTS_ON_POLY : Nat) : markPoly_t :=
  { prevMark := .null, nextMark := .null, time := 0, markShader := 0,
    alphaFade := false, energy := false, color := ⟨0, 0, 0, 0⟩, numVerts := 0,
    verts := List.replicate MAX_VERTS_ON_POLY zeroVert }

/-! ## Memory access -/

/-- Read `*q`. -/
def Pool.read (p : Pool) : Ptr → Except Fault markPoly_t
  | .null => .error .nullDeref
  | .active => .ok p.cg_activeMarkPolys
  | .slot i =>
    match p.cg_markPolys[i]? with
    | some m => .ok m
    | none => .error .nullDeref

/-- Write `*q = f (*q)`. -/
def Pool.update (p : Pool) (q : Ptr) (f : markPoly_t → markPoly_t) : Except Fault Pool :=
  match q with
  | .null => .error .nullDeref
  | .active => .ok { p with cg_activeMarkPolys := f p.cg_activeMarkPolys }
  | .slot i =>
    match p.cg_markPolys[i]? with
    | some m => .ok { p with cg_markPolys := p.cg_markPolys.set i (f m) }
    | none => .error .nullDeref

/-! ## `CG_InitMarkPolys` -/

/-- The array after the `memset` and the loop that chains slot `i` to slot `i+1`. -/
def initSlots (MAX_MARK_POLYS MAX_VERTS_ON_POLY : Nat) : List markPoly_t :=
  (List.range MAX_MARK_POLYS).map fun i =>
    if i + 1 < MAX_MARK_POLYS then
      { zeroMark MAX_VERTS_ON_POLY with nextMark := .slot (i + 1) }
    else zeroMark MAX_VERTS_ON_POLY

def CG_InitMarkPolys (MAX_MARK_POLYS MAX_VERTS_ON_POLY : Nat) (p : Pool) : Pool :=
  { cg_markPolys := initSlots MAX_MARK_POLYS MAX_VERTS_ON_POLY
    cg_activeMarkPolys := { p.cg_activeMarkPolys with nextMark := .active, prevMark := .active }
    cg_freeMarkPolys := .slot 0 }

/-- The statics as the loader leaves them: all zero. -/
def bootPool (MAX_MARK_POLYS MAX_VERTS_ON_POLY : Nat) : Pool :=
  { cg_activeMarkPolys := zeroMark MAX_VERTS_ON_POLY
    cg_freeMarkPolys := .null
    cg_markPolys := List.replicate MAX_MARK_POLYS (zeroMark MAX_VERTS_ON_POLY) }

/-! ## `CG_FreeMarkPoly` -/

def CG_FreeMarkPoly (p : Pool) (le : Ptr) : Except Fault Pool := do
  let m ← p.read le
  if m.prevMark = .null ∨ m.nextMark = .null then
    throw Fault.notActive
  -- le->prevMark->nextMark = le->nextMark;
  let p1 ← p.update m.prevMark fun x => { x with nextMark := m.nextMark }
  -- le->nextMark->prevMark = le->prevMark;
  let m1 ← p1.read le
  let p2 ← p1.update m1.nextMark fun x => { x with prevMark := m1.prevMark }
  -- le->nextMark = cg_freeMarkPolys; cg_freeMarkPolys = le;
  let p3 ← p2.update le fun x => { x with nextMark := p2.cg_freeMarkPolys }
  pure { p3 with cg_freeMarkPolys := le }

/-! ## `CG_AllocMark` -/

/-- The loop `while (cg_activeMarkPolys.prevMark && time == cg_activeMarkPolys.prevMark->time)`. -/
def evictLoop (time : Int) : Nat → Pool → Except Fault Pool
  | 0, _ => .error .outOfFuel
  | fuel + 1, p =>
    if p.cg_activeMarkPolys.prevMark = .null then .ok p
    else do
      let tail ← p.read p.cg_activeMarkPolys.prevMark
      if time = tail.time then do
        let p1 ← CG_FreeMarkPoly p p.cg_activeMarkPolys.prevMark
        evictLoop time fuel p1
      else pure p

/-- The `if ( !cg_freeMarkPolys )` block. -/
def evictOldest (fuel : Nat) (p : Pool) : Except Fault Pool :=
  if p.cg_freeMarkPolys = .null then do
    let tail ← p.read p.cg_activeMarkPolys.prevMark
    evictLoop tail.time fuel p
  else pure p

/-- The part of `CG_AllocMark` after the eviction block: pop the free list, clear the
mark, link it in front of the active list. -/
def allocLink (MAX_VERTS_ON_POLY : Nat) (p0 : Pool) : Except Fault (Ptr × Pool) := do
  -- le = cg_freeMarkPolys; cg_freeMarkPolys = cg_freeMarkPolys->nextMark;
  let le := p0.cg_freeMarkPolys
  let m ← p0.read le
  let p1 : Pool := { p0 with cg_freeMarkPolys := m.nextMark }
  -- memset( le, 0, sizeof( *le ) );
  let p2 ← p1.update le fun _ => zeroMark MAX_VERTS_ON_POLY
  -- link into the active list
  let p3 ← p2.update le fun x =>
    { x with nextMark := p2.cg_activeMarkPolys.nextMark, prevMark := .active }
  let p4 ← p3.update p3.cg_activeMarkPolys.nextMark fun x => { x with prevMark := le }
  let p5 ← p4.update .active fun x => { x with nextMark := le }
  pure (le, p5)

def CG_AllocMark (MAX_VERTS_ON_POLY : Nat) (fuel : Nat) (p : Pool) :
    Except Fault (Ptr × Pool) := do
  let p0 ← evictOldest fuel p
  allocLink MAX_VERTS_ON_POLY p0

/-! ## `CG_ImpactMark` -/

def MAX_MARK_FRAGMENTS : Nat := 128

def MAX_MARK_POINTS : Nat := 384

/-- The `DotProduct` of `q_shared.h`. -/
def DotProduct (a b : Vec3) : ℚ :=
  fadd (fadd (fmul a.x b.x) (fmul a.y b.y)) (fmul a.z b.z)

/-- The `VectorSubtract` of `q_shared.h`, as a function. -/
def VectorSubtract (a b : Vec3) : Vec3 := ⟨fsub a.x b.x, fsub a.y b.y, fsub a.z b.z⟩

/-- The `VectorScale` of `q_shared.h`, as a function. -/
def VectorScale (v : Vec3) (s : ℚ) : Vec3 := ⟨fmul v.x s, fmul v.y s, fmul v.z s⟩

/-- The `CrossProduct` of `q_shared.h`, as a function. -/
def CrossProduct (a b : Vec3) : Vec3 :=
  ⟨fsub (fmul a.y b.z) (fmul a.z b.y), fsub (fmul a.z b.x) (fmul a.x b.z),
    fsub (fmul a.x b.y) (fmul a.y b.x)⟩

/-- The texture axes `axis[1]`, `axis[2]` built from `dir` and `orientation`. -/
def textureAxes (E : Engine) (dir : Vec3) (orientation : ℚ) : Vec3 × Vec3 :=
  let axis0 := E.VectorNormalize2 dir
  let axis1 := E.PerpendicularVector axis0
  let axis2 := E.RotatePointAroundVector axis0 axis1 orientation
  (CrossProduct axis0 axis2, axis2)

/-- The corners `originalPoints[0..3]`. -/
def originalPoints (origin axis1 axis2 : Vec3) (radius : ℚ) : List Vec3 :=
  [ ⟨fsub (fsub origin.x (fmul radius axis1.x)) (fmul radius axis2.x),
      fsub (fsub origin.y (fmul radius axis1.y)) (fmul radius axis2.y),
      fsub (fsub origin.z (fmul radius axis1.z)) (fmul radius axis2.z)⟩,
    ⟨fsub (fadd origin.x (fmul radius axis1.x)) (fmul radius axis2.x),
      fsub (fadd origin.y (fmul radius axis1.y)) (fmul radius axis2.y),
      fsub (fadd origin.z (fmul radius axis1.z)) (fmul radius axis2.z)⟩,
    ⟨fadd (fadd origin.x (fmul radius axis1.x)) (fmul radius axis2.x),
      fadd (fadd origin.y (fmul radius axis1.y)) (fmul radius axis2.y),
      fadd (fadd origin.z (fmul radius axis1.z)) (fmul radius axis2.z)⟩,
    ⟨fadd (fsub origin.x (fmul radius axis1.x)) (fmul radius axis2.x),
      fadd (fsub origin.y (fmul radius axis1.y)) (fmul radius axis2.y),
      fadd (fsub origin.z (fmul radius axis1.z)) (fmul radius axis2.z)⟩ ]

/-- The bytes `colors[0..3]`. -/
def packColors (red green blue alpha : ℚ) : Chan4 Nat :=
  ⟨floatToByte (fmul red 255), floatToByte (fmul green 255), floatToByte (fmul blue 255),
    floatToByte (fmul alpha 255)⟩

/-- The body of the loop over `j`: one vertex of a fragment. -/
def markVert (origin axis1 axis2 : Vec3) (texCoordScale : ℚ) (colors : Chan4 Nat)
    (pt : Vec3) : polyVert_t :=
  let delta := VectorSubtract pt origin
  { xyz := pt
    st0 := toFloat (toDouble (1 / 2 + fmul (DotProduct delta axis1) texCoordScale))
    st1 := toFloat (toDouble (1 / 2 + fmul (DotProduct delta axis2) texCoordScale))
    modulate := colors }

/-- The local array `verts` of one fragment, after `numPoints` has been capped. -/
def fragmentVerts (origin axis1 axis2 : Vec3) (texCoordScale : ℚ) (colors : Chan4 Nat)
    (markPoints : List Vec3) (mf : markFragment_t) (numPoints : Nat) : List polyVert_t :=
  (List.range numPoints).map fun j =>
    markVert origin axis1 axis2 texCoordScale colors (markPoints.getD (mf.firstPoint + j) zeroVec)

/-- The arguments of `CG_ImpactMark`. -/
structure ImpactArgs where
  markShader : Int
  origin : Vec3
  dir : Vec3
  orientation : ℚ
  red : ℚ
  green : ℚ
  blue : ℚ
  alpha : ℚ
  alphaFade : Bool
  radius : ℚ
  temporary : Bool
  energy : Bool
  debug : Bool

/-- The assignments `mark->time = cg.time; ...; memcpy( mark->verts, verts, ... )`. -/
def stampMark (cg : Globals) (a : ImpactArgs) (numPoints : Nat) (verts : List polyVert_t)
    (m : markPoly_t) : markPoly_t :=
  { m with
    time := cg.cg_time, alphaFade := a.alphaFade, markShader := a.markShader,
    energy := a.energy, numVerts := numPoints,
    color := ⟨a.red, a.green, a.blue, a.alpha⟩,
    verts := verts ++ m.verts.drop numPoints }

/-- The persistent branch of the loop body: `mark = CG_AllocMark();` and the assignments. -/
def storeMark (MAX_VERTS_ON_POLY : Nat) (fuel : Nat) (cg : Globals) (a : ImpactArgs)
    (numPoints : Nat) (verts : List polyVert_t) (p : Pool) : Except Fault Pool := do
  let (mark, p1) ← CG_AllocMark MAX_VERTS_ON_POLY fuel p
  p1.update mark (stampMark cg a numPoints verts)

/-- The loop over the fragments. -/
def impactLoop (MAX_VERTS_ON_POLY : Nat) (fuel : Nat) (cg : Globals) (a : ImpactArgs)
    (axis1 axis2 : Vec3) (texCoordScale : ℚ) (colors : Chan4 Nat) (markPoints : List Vec3) :
    List markFragment_t → State → List Poly → Except Fault (State × List Poly)
  | [], s, out => .ok (s, out)
  | mf :: rest, s, out =>
    let numPoints := if mf.numPoints > MAX_VERTS_ON_POLY then MAX_VERTS_ON_POLY else mf.numPoints
    let verts := fragmentVerts a.origin axis1 axis2 texCoordScale colors markPoints mf numPoints
    if a.temporary then
      impactLoop MAX_VERTS_ON_POLY fuel cg a axis1 axis2 texCoordScale colors markPoints rest s
        (out ++ [⟨a.markShader, numPoints, verts⟩])
    else do
      let p2 ← storeMark MAX_VERTS_ON_POLY fuel cg a numPoints verts s.pool
      impactLoop MAX_VERTS_ON_POLY fuel cg a axis1 axis2 texCoordScale colors markPoints rest
        { s with pool := p2, markTotal := s.markTotal + 1 } out

def CG_ImpactMark (MAX_VERTS_ON_POLY : Nat) (fuel : Nat) (E : Engine) (cg : Globals)
    (a : ImpactArgs) (s : State) : Except Fault (State × List Poly) :=
  let s := if a.debug then { s with lastImpactOrigin := a.origin } else s
  if cg.cg_marks = 0 then .ok (s, [])
  else if a.radius ≤ 0 then .error .badRadius
  else
    let axes := textureAxes E a.dir a.orientation
    let texCoordScale : ℚ := toFloat (toDouble (toDouble (1 / 2 * 1) / a.radius))
    let pts := originalPoints a.origin axes.1 axes.2 a.radius
    let projection := VectorScale a.dir (-20)
    let frags := E.trap_CM_MarkFragments pts projection MAX_MARK_POINTS MAX_MARK_FRAGMENTS
    let colors := packColors a.red a.green a.blue a.alpha
    impactLoop MAX_VERTS_ON_POLY fuel cg a axes.1 axes.2 texCoordScale colors frags.1 frags.2 s []

/-! ## `CG_AddMarks` -/

/-- A loop `for ( j = 0 ; j < n ; j++ )` that rewrites `verts[j]`. -/
def forVerts (n : Nat) (f : polyVert_t → polyVert_t) (verts : List polyVert_t) :
    List polyVert_t :=
  (verts.take n).map f ++ verts.drop n

/-- The energy intensity `450 - 450 * ( (cg.time - mp->time ) / 3000.0 )`, computed in
`double` and stored in an `int`. -/
def energyFade (cg_time : Int) (m : markPoly_t) : Int :=
  truncQ (toDouble (450 - toDouble (450 * toDouble (((cg_time - m.time : Int) : ℚ) / 3000))))

/-- The block `if (mp->energy) ...`. -/
def energyStep (cg_time : Int) (m : markPoly_t) : markPoly_t :=
  if m.energy then
    let fade := energyFade cg_time m
    if fade < 255 then
      let fade := if fade < 0 then 0 else fade
      if (m.verts.headD zeroVert).modulate.c0 ≠ 0 then
        { m with verts := forVerts m.numVerts (fun v =>
            { v with modulate :=
                ⟨floatToByte (fmul m.color.c0 (toFloat fade)),
                  floatToByte (fmul m.color.c1 (toFloat fade)),
                  floatToByte (fmul m.color.c2 (toFloat fade)), v.modulate.c3⟩ }) m.verts }
      else m
    else m
  else m

/-- The block `if ( t < MARK_FADE_TIME ) ...`. -/
def timeFadeStep (cg_time MARK_TOTAL_TIME MARK_FADE_TIME : Int) (m : markPoly_t) :
    Except Fault markPoly_t :=
  let t := wrap32 (m.time + MARK_TOTAL_TIME) - cg_time
  if t < MARK_FADE_TIME then
    if MARK_FADE_TIME = 0 then .error .divByZero
    else
      let fade := Int.tdiv (wrap32 (255 * t)) MARK_FADE_TIME
      if m.alphaFade then
        .ok { m with verts := forVerts m.numVerts (fun v =>
            { v with modulate := { v.modulate with c3 := toByte fade } }) m.verts }
      else if m.energy then
        .ok { m with verts := forVerts m.numVerts (fun v =>
            { v with modulate :=
                ⟨toByte (v.modulate.c0 * fade), toByte (v.modulate.c1 * fade),
                  toByte (v.modulate.c2 * fade), v.modulate.c3⟩ }) m.verts }
      else
        .ok { m with verts := forVerts m.numVerts (fun v =>
            { v with modulate :=
                ⟨floatToByte (fmul m.color.c0 (toFloat fade)),
                  floatToByte (fmul m.color.c1 (toFloat fade)),
                  floatToByte (fmul m.color.c2 (toFloat fade)), v.modulate.c3⟩ }) m.verts }
  else .ok m

/-- What one loop iteration does to a mark that is not removed. -/
def fadeMark (cg_time MARK_TOTAL_TIME MARK_FADE_TIME : Int) (m : markPoly_t) :
    Except Fault markPoly_t :=
  timeFadeStep cg_time MARK_TOTAL_TIME MARK_FADE_TIME (energyStep cg_time m)

/-- The polygon handed to `trap_R_AddPolyToScene` for a mark. -/
def markPoly (m : markPoly_t) : Poly := ⟨m.markShader, m.numVerts, m.verts.take m.numVerts⟩

/-- The loop `for ( ; mp != &cg_activeMarkPolys ; mp = next )`. -/
def addLoop (cg_time MARK_TOTAL_TIME MARK_FADE_TIME : Int) :
    Nat → Ptr → Pool → List Poly → Except Fault (Pool × List Poly)
  | 0, _, _, _ => .error .outOfFuel
  | fuel + 1, mp, p, out =>
    if mp = .active then .ok (p, out)
    else do
      let m ← p.read mp
      let next := m.nextMark
      if cg_time > wrap32 (m.time + MARK_TOTAL_TIME) then do
        let p1 ← CG_FreeMarkPoly p mp
        addLoop cg_time MARK_TOTAL_TIME MARK_FADE_TIME fuel next p1 out
      else do
        let m1 ← fadeMark cg_time MARK_TOTAL_TIME MARK_FADE_TIME m
        let p1 ← p.update mp fun _ => m1
        addLoop cg_time MARK_TOTAL_TIME MARK_FADE_TIME fuel next p1 (out ++ [markPoly m1])

def CG_AddMarks (fuel : Nat) (cg : Globals) (p : Pool) : Except Fault (Pool × List Poly) :=
  if cg.cg_marks = 0 then .ok (p, [])
  else addLoop cg.cg_time cg.cg_markTime cg.cg_markFadeTime fuel p.cg_activeMarkPolys.nextMark p []

/-! ## Reading the two lists off the heap -/

/-- The value of `q->nextMark` (`NULL` when `q` cannot be read). -/
def nextOf (p : Pool) (q : Ptr) : Ptr :=
  match p.read q with
  | .ok m => m.nextMark
  | .error _ => .null

/-- The value of `q->prevMark` (`NULL` when `q` cannot be read). -/
def prevOf (p : Pool) (q : Ptr) : Ptr :=
  match p.read q with
  | .ok m => m.prevMark
  | .error _ => .null

/-- Following `f` from `a` visits exactly the nodes of `l`, in order, and then arrives at `b`. -/
def Seg (f : Ptr → Ptr) : Ptr → List Ptr → Ptr → Prop
  | a, [], b => a = b
  | a, x :: l, b => a = x ∧ Seg f (f x) l b

instance Seg.decide (f : Ptr → Ptr) : (a : Ptr) → (l : List Ptr) → (b : Ptr) →
    Decidable (Seg f a l b)
  | a, [], b => inferInstanceAs (Decidable (a = b))
  | a, x :: l, b =>
    have := Seg.decide f (f x) l b
    inferInstanceAs (Decidable (a = x ∧ Seg f (f x) l b))

/-- The heap holds the active list `act` (head first) and the free list `fr` (head first),
both given as slot numbers: `nextMark` from the list head runs through `act` back to the
head, `prevMark` runs through it backwards, `nextMark` from `cg_freeMarkPolys` runs through
`fr` to `NULL`, and no slot occurs twice. -/
structure Linked (p : Pool) (act fr : List Nat) : Prop where
  fwd : Seg (nextOf p) .active (.active :: act.map .slot) .active
  bwd : Seg (prevOf p) .active (.active :: act.reverse.map .slot) .active
  free : Seg (nextOf p) p.cg_freeMarkPolys (fr.map .slot) .null
  nodup : (act ++ fr).Nodup
  bound : ∀ i ∈ act ++ fr, i < p.cg_markPolys.length

instance Linked.decide (p : Pool) (act fr : List Nat) : Decidable (Linked p act fr) :=
  decidable_of_iff
    (Seg (nextOf p) .active (.active :: act.map .slot) .active ∧
      Seg (prevOf p) .active (.active :: act.reverse.map .slot) .active ∧
      Seg (nextOf p) p.cg_freeMarkPolys (fr.map .slot) .null ∧
      (act ++ fr).Nodup ∧ ∀ i ∈ act ++ fr, i < p.cg_markPolys.length)
    ⟨fun h => ⟨h.1, h.2.1, h.2.2.1, h.2.2.2.1, h.2.2.2.2⟩,
      fun h => ⟨h.fwd, h.bwd, h.free, h.nodup, h.bound⟩⟩

/-- The data fields of a mark: everything but the two links. -/
def markPoly_t.data (m : markPoly_t) : markPoly_t :=
  { m with prevMark := .null, nextMark := .null }

/-- The pool invariant: the two lists are well linked, each of the `MAX_MARK_POLYS`
slots is on exactly one of them, and the list head holds no mark data (its data fields
are still the zeros of static storage). -/
structure PoolInv (MAX_MARK_POLYS MAX_VERTS_ON_POLY : Nat) (p : Pool) (act fr : List Nat) :
    Prop where
  linked : Linked p act fr
  size : p.cg_markPolys.length = MAX_MARK_POLYS
  perm : (act ++ fr).Perm (List.range MAX_MARK_POLYS)
  headData : p.cg_activeMarkPolys.data = (zeroMark MAX_VERTS_ON_POLY).data

/-- Two pools hold the same mark data: every pointer reads the same data fields in both. -/
def SameData (p p' : Pool) : Prop :=
  ∀ q, (p'.read q).map markPoly_t.data = (p.read q).map markPoly_t.data

/-- A pointer that can be dereferenced: the list head or a slot of the array. -/
def Valid (p : Pool) : Ptr → Prop
  | .null => False
  | .active => True
  | .slot i => i < p.cg_markPolys.length

/-- The `time` field read through a pointer (`0` when it cannot be read). -/
def timeOf (p : Pool) (q : Ptr) : Int :=
  match p.read q with
  | .ok m => m.time
  | .error _ => 0

/-- The pointer `cg_activeMarkPolys.prevMark` of a pool whose active list is `act`:
the last mark, or the list head itself when the list is empty. -/
def tailPtr (act : List Nat) : Ptr := (act.reverse.map Ptr.slot).headD .active

/-- The state the loop of `CG_AllocMark` is in once it has reached the list head and the
head's own `time` equals the `time` being evicted: the head is its own `prevMark`. -/
def Stuck (t : Int) (p : Pool) : Prop :=
  p.cg_activeMarkPolys.prevMark = .active ∧ p.cg_activeMarkPolys.time = t ∧
    Valid p p.cg_activeMarkPolys.nextMark ∧ Valid p p.cg_freeMarkPolys

/-- The data fields read through a pointer. -/
def dataOf (p : Pool) (q : Ptr) : Except Fault markPoly_t := (p.read q).map markPoly_t.data

/-- The data of a mark as `CG_ImpactMark` stores it: stamped with `cg.time`, the flags,
the shader and the base colour, its first `numVerts` vertices all coloured `colors`. -/
def Stamped (V : Nat) (cg : Globals) (a : ImpactArgs) (colors : Chan4 Nat) (d : markPoly_t) :
    Prop :=
  ∃ n verts, verts.length = n ∧ (∀ v ∈ verts, v.modulate = colors) ∧
    d = (stampMark cg a n verts (zeroMark V)).data

/-- The mark in slot `i` has not outlived `MARK_TOTAL_TIME` at time `T`. -/
def aliveIn (T L : Int) (p : Pool) (i : Nat) : Bool :=
  decide (¬ T > wrap32 (timeOf p (.slot i) + L))

/-- The data of slot `i` after the fade of one pass at time `T`. -/
def fadedData (T L F : Int) (p : Pool) (i : Nat) : markPoly_t :=
  match dataOf p (.slot i) with
  | .ok d =>
    match fadeMark T L F d with
    | .ok d' => d'
    | .error _ => d
  | .error _ => zeroMark 0

/-- The module state as the loader leaves it. -/
def bootState (MAX_MARK_POLYS MAX_VERTS_ON_POLY : Nat) : State :=
  ⟨bootPool MAX_MARK_POLYS MAX_VERTS_ON_POLY, 0, zeroVec⟩

/-- The states reachable from `CG_InitMarkPolys` by calls of `CG_ImpactMark`,
`CG_AddMarks` and `CG_InitMarkPolys` that return, with any arguments, globals and fuel. -/
inductive Reachable (MAX_MARK_POLYS MAX_VERTS_ON_POLY : Nat) : State → Prop where
  | init : Reachable MAX_MARK_POLYS MAX_VERTS_ON_POLY
      { bootState MAX_MARK_POLYS MAX_VERTS_ON_POLY with
        pool := CG_InitMarkPolys MAX_MARK_POLYS MAX_VERTS_ON_POLY
          (bootPool MAX_MARK_POLYS MAX_VERTS_ON_POLY) }
  | reinit {s : State} : Reachable MAX_MARK_POLYS MAX_VERTS_ON_POLY s →
      Reachable MAX_MARK_POLYS MAX_VERTS_ON_POLY
        { s with pool := CG_InitMarkPolys MAX_MARK_POLYS MAX_VERTS_ON_POLY s.pool }
  | impact {s s' : State} {out : List Poly} (fuel : Nat) (E : Engine) (cg : Globals)
      (a : ImpactArgs) : Reachable MAX_MARK_POLYS MAX_VERTS_ON_POLY s →
      CG_ImpactMark MAX_VERTS_ON_POLY fuel E cg a s = .ok (s', out) →
      Reachable MAX_MARK_POLYS MAX_VERTS_ON_POLY s'
  | addMarks {s : State} {p' : Pool} {out : List Poly} (fuel : Nat) (cg : Globals) :
      Reachable MAX_MARK_POLYS MAX_VERTS_ON_POLY s →
      CG_AddMarks fuel cg s.pool = .ok (p', out) →
      Reachable MAX_MARK_POLYS MAX_VERTS_ON_POLY { s with pool := p' }

/-- The states reachable as in `Reachable` when `cg.time` never decreases from one call
to the next; the index is the `cg.time` of the last call. -/
inductive ReachableMono (MAX_MARK_POLYS MAX_VERTS_ON_POLY : Nat) : Int → State → Prop where
  | init (t : Int) : ReachableMono MAX_MARK_POLYS MAX_VERTS_ON_POLY t
      { bootState MAX_MARK_POLYS MAX_VERTS_ON_POLY with
        pool := CG_InitMarkPolys MAX_MARK_POLYS MAX_VERTS_ON_POLY
          (bootPool MAX_MARK_POLYS MAX_VERTS_ON_POLY) }
  | reinit {t : Int} {s : State} : ReachableMono MAX_MARK_POLYS MAX_VERTS_ON_POLY t s →
      ReachableMono MAX_MARK_POLYS MAX_VERTS_ON_POLY t
        { s with pool := CG_InitMarkPolys MAX_MARK_POLYS MAX_VERTS_ON_POLY s.pool }
  | impact {t : Int} {s s' : State} {out : List Poly} (fuel : Nat) (E : Engine) (cg : Globals)
      (a : ImpactArgs) : ReachableMono MAX_MARK_POLYS MAX_VERTS_ON_POLY t s →
      t ≤ cg.cg_time →
      CG_ImpactMark MAX_VERTS_ON_POLY fuel E cg a s = .ok (s', out) →
      ReachableMono MAX_MARK_POLYS MAX_VERTS_ON_POLY cg.cg_time s'
  | addMarks {t : Int} {s : State} {p' : Pool} {out : List Poly} (fuel : Nat) (cg : Globals) :
      ReachableMono MAX_MARK_POLYS MAX_VERTS_ON_POLY t s →
      t ≤ cg.cg_time →
      CG_AddMarks fuel cg s.pool = .ok (p', out) →
      ReachableMono MAX_MARK_POLYS MAX_VERTS_ON_POLY cg.cg_time { s with pool := p' }

/-- The creation times along a list of slots. -/
def timesOf (p : Pool) (l : List Nat) : List Int := l.map fun i => timeOf p (.slot i)

/-- Runs `n` calls of `CG_AllocMark` in a row. -/
def allocSeq (MAX_VERTS_ON_POLY : Nat) (fuel : Nat) : Nat → Pool → Except Fault Pool
  | 0, p => .ok p
  | n + 1, p => do
    let (_, p1) ← CG_AllocMark MAX_VERTS_ON_POLY fuel p
    allocSeq MAX_VERTS_ON_POLY fuel n p1

/-- A full pool of two slots, both marks stamped at time 0: what two stored fragments
leave behind when `cg.time` is 0. -/
def fullPool2 : Pool :=
  { cg_activeMarkPolys := { zeroMark 1 with nextMark := .slot 1, prevMark := .slot 0 }
    cg_freeMarkPolys := .null
    cg_markPolys :=
      [ { zeroMark 1 with nextMark := .active, prevMark := .slot 1 },
        { zeroMark 1 with nextMark := .slot 0, prevMark := .active } ] }

/-- A pool of three slots after two allocations and the release of slot 0: slot 1 is
active, slots 0 and 2 are free, and slot 0 still holds its old `prevMark`. -/
def usedPool3 : Pool :=
  { cg_activeMarkPolys := { zeroMark 1 with nextMark := .slot 1, prevMark := .slot 1 }
    cg_freeMarkPolys := .slot 0
    cg_markPolys :=
      [ { zeroMark 1 with nextMark := .slot 2, prevMark := .slot 1 },
        { zeroMark 1 with nextMark := .active, prevMark := .active },
        zeroMark 1 ] }

/-- What `CG_FreeMarkPoly` makes of `usedPool3` when handed the free slot 0 again. -/
def usedPool3After : Pool :=
  { cg_activeMarkPolys := { zeroMark 1 with nextMark := .slot 1, prevMark := .slot 1 }
    cg_freeMarkPolys := .slot 0
    cg_markPolys :=
      [ { zeroMark 1 with nextMark := .slot 0, prevMark := .slot 1 },
        { zeroMark 1 with nextMark := .slot 2, prevMark := .active },
        { zeroMark 1 with prevMark := .slot 1 } ] }

/-- A clipper that hands the quad back as one fragment of four points, with fixed
texture axes. -/
def flatEngine : Engine :=
  { VectorNormalize2 := fun v => v
    PerpendicularVector := fun _ => ⟨1, 0, 0⟩
    RotatePointAroundVector := fun _ _ _ => ⟨0, 1, 0⟩
    trap_CM_MarkFragments := fun pts _ _ _ => (pts, [⟨0, 4⟩]) }

/-- A white energy mark that fades its alpha, of radius 4, on the plane `z = 0`. -/
def energyAlphaArgs : ImpactArgs :=
  { markShader := 7, origin := ⟨0, 0, 0⟩, dir := ⟨0, 0, 1⟩, orientation := 0
    red := 1, green := 1, blue := 1, alpha := 1
    alphaFade := true, radius := 4, temporary := false, energy := true, debug := false }

/-- The colour bytes of the polygons submitted by a pass at time 2500 for the mark
`energyAlphaArgs` stored at time 1000 in a fresh pool of two slots. -/
def energyAlphaRun : Except Fault (List (List (Chan4 Nat))) := do
  let (s1, _) ← CG_ImpactMark 4 0 flatEngine ⟨1000, 1, 10000, 1000, 0⟩ energyAlphaArgs
    { bootState 2 4 with pool := CG_InitMarkPolys 2 4 (bootPool 2 4) }
  let (_, out) ← CG_AddMarks 2 ⟨2500, 1, 10000, 1000, 0⟩ s1.pool
  pure (out.map fun q => q.verts.map fun v => v.modulate)

/-- Every vertex submitted for the mark carries the R, G, B bytes packed from the mark's
base colour. -/
def KeepsColour (d : markPoly_t) : Prop :=
  ∀ v ∈ (markPoly d).verts,
    v.modulate.c0 = floatToByte (fmul d.color.c0 255) ∧
    v.modulate.c1 = floatToByte (fmul d.color.c1 255) ∧
    v.modulate.c2 = floatToByte (fmul d.color.c2 255)

/-- A vertex with its alpha byte blanked. -/
def eraseAlpha (v : polyVert_t) : polyVert_t :=
  { v with modulate := { v.modulate with c3 := 0 } }

/-- Every active alpha-fade mark that is not an energy mark still carries, on every
vertex it will submit, the R, G, B bytes packed from its base colour. -/
def ColourInv (p : Pool) (act : List Nat) : Prop :=
  ∀ i ∈ act, ∀ d, dataOf p (.slot i) = .ok d → d.alphaFade = true → d.energy = false →
    KeepsColour d

/-- The transient polygon `CG_ImpactMark` submits for one fragment. -/
def fragmentPoly (V : Nat) (a : ImpactArgs) (axis1 axis2 : Vec3) (tcs : ℚ)
    (colors : Chan4 Nat) (mpts : List Vec3) (mf : markFragment_t) : Poly :=
  ⟨a.markShader, if mf.numPoints > V then V else mf.numPoints,
    fragmentVerts a.origin axis1 axis2 tcs colors mpts mf
      (if mf.numPoints > V then V else mf.numPoints)⟩

/-- A temporary white mark of radius 4 on the plane `z = 0`. -/
def shadowArgs : ImpactArgs :=
  { markShader := 3, origin := ⟨0, 0, 0⟩, dir := ⟨0, 0, 1⟩, orientation := 0
    red := 1, green := 1, blue := 1, alpha := 1
    alphaFade := false, radius := 4, temporary := true, energy := false, debug := false }

/-- An orange mark of one vertex stored at time 1000, neither energy nor alpha-fade. -/
def plainMark : markPoly_t :=
  { zeroMark 1 with
    time := 1000, color := ⟨1, 1 / 2, 0, 1⟩, numVerts := 1,
    verts := [{ zeroVert with modulate := ⟨255, 127, 0, 255⟩ }] }

/-- A persistent white mark of radius 4 on the plane `z = 0`. -/
def bulletArgs : ImpactArgs :=
  { markShader := 5, origin := ⟨0, 0, 0⟩, dir := ⟨0, 0, 1⟩, orientation := 0
    red := 1, green := 1, blue := 1, alpha := 1
    alphaFade := false, radius := 4, temporary := false, energy := false, debug := false }

/-- The state after `CG_InitMarkPolys` on a pool of two slots and two calls of
`CG_ImpactMark` while `cg.time` is 0, each storing one fragment. -/
def stateAtTimeZero : State :=
  match (do
    let (s1, _) ← CG_ImpactMark 4 0 flatEngine ⟨0, 1, 10000, 1000, 0⟩ bulletArgs
      { bootState 2 4 with pool := CG_InitMarkPolys 2 4 (bootPool 2 4) }
    CG_ImpactMark 4 0 flatEngine ⟨0, 1, 10000, 1000, 0⟩ bulletArgs s1) with
  | .ok (s2, _) => s2
  | .error _ => bootState 2 4

/-- A call with radius 0. -/
def zeroRadiusArgs : ImpactArgs :=
  { markShader := 5, origin := ⟨1, 2, 3⟩, dir := ⟨0, 0, 1⟩, orientation := 0
    red := 1, green := 1, blue := 1, alpha := 1
    alphaFade := false, radius := 0, temporary := false, energy := false, debug := false }

/-- The data `CG_ImpactMark` stores for the fragment `mf`. -/
def storedData (V : Nat) (cg : Globals) (a : ImpactArgs) (axis1 axis2 : Vec3) (tcs : ℚ)
    (colors : Chan4 Nat) (mpts : List Vec3) (mf : markFragment_t) : markPoly_t :=
  (stampMark cg a (if mf.numPoints > V then V else mf.numPoints)
    (fragmentVerts a.origin axis1 axis2 tcs colors mpts mf
      (if mf.numPoints > V then V else mf.numPoints)) (zeroMark V)).data

/-- The state right after `CG_InitMarkPolys` on a pool of two slots. -/
def freshState2 : State :=
  { bootState 2 4 with pool := CG_InitMarkPolys 2 4 (bootPool 2 4) }

/-- An energy mark with no red in its base colour, fading alpha. -/
def cyanEnergyArgs : ImpactArgs :=
  { markShader := 7, origin := ⟨0, 0, 0⟩, dir := ⟨0, 0, 1⟩, orientation := 0
    red := 0, green := 1, blue := 1, alpha := 1
    alphaFade := true, radius := 4, temporary := false, energy := true, debug := false }

/-- The colour bytes of the polygons submitted by a pass at time 4000 for the mark
`cyanEnergyArgs` stored at time 1000 in a fresh pool of two slots. -/
def cyanEnergyRun : Except Fault (List (List (Chan4 Nat))) := do
  let (s1, _) ← CG_ImpactMark 4 0 flatEngine ⟨1000, 1, 10000, 1000, 0⟩ cyanEnergyArgs
    { bootState 2 4 with pool := CG_InitMarkPolys 2 4 (bootPool 2 4) }
  let (_, out) ← CG_AddMarks 2 ⟨4000, 1, 10000, 1000, 0⟩ s1.pool
  pure (out.map fun q => q.verts.map fun v => v.modulate)

/-- A white energy mark of one vertex stored at time 1000, fading alpha. -/
def energyMark : markPoly_t :=
  { zeroMark 1 with
    time := 1000, energy := true, alphaFade := true, color := ⟨1, 1, 1, 1⟩, numVerts := 1,
    verts := [{ zeroVert with modulate := ⟨255, 255, 255, 255⟩ }] }

/-- Modelled from the spec: the variant of the energy block that the design notes allow,
with an explicit boolean "already faded to zero" on the record in place of the test of
the first vertex's red byte. The rewrite is skipped once the flag is set; the flag is set
when the intensity applied is 0. -/
def energyStepFlag (cg_time : Int) (m : markPoly_t) (faded : Bool) : markPoly_t × Bool :=
  if m.energy then
    let fade := energyFade cg_time m
    if fade < 255 then
      let fade := if fade < 0 then 0 else fade
      if faded = false then
        ({ m with verts := forVerts m.numVerts (fun v =>
            { v with modulate :=
                ⟨floatToByte (fmul m.color.c0 (toFloat fade)),
                  floatToByte (fmul m.color.c1 (toFloat fade)),
                  floatToByte (fmul m.color.c2 (toFloat fade)), v.modulate.c3⟩ }) m.verts },
          decide (fade = 0))
      else (m, faded)
    else (m, faded)
  else (m, faded)

/-- One loop iteration of the flag variant on a mark that is not removed. -/
def fadeMarkFlag (cg_time MARK_TOTAL_TIME MARK_FADE_TIME : Int) (m : markPoly_t)
    (faded : Bool) : Except Fault (markPoly_t × Bool) :=
  (timeFadeStep cg_time MARK_TOTAL_TIME MARK_FADE_TIME (energyStepFlag cg_time m faded).1).map
    fun m1 => (m1, (energyStepFlag cg_time m faded).2)

/-- The polygons `CG_AddMarks` submits for one mark over a sequence of frames, each frame
with its own globals, until the mark expires. -/
def runGuard : List Globals → markPoly_t → Except Fault (List Poly)
  | [], _ => .ok []
  | cg :: rest, m =>
    if cg.cg_marks = 0 then runGuard rest m
    else if cg.cg_time > wrap32 (m.time + cg.cg_markTime) then .ok []
    else do
      let m1 ← fadeMark cg.cg_time cg.cg_markTime cg.cg_markFadeTime m
      let outs ← runGuard rest m1
      pure (markPoly m1 :: outs)

/-- The polygons the flag variant submits for one mark over a sequence of frames. -/
def runFlag : List Globals → markPoly_t → Bool → Except Fault (List Poly)
  | [], _, _ => .ok []
  | cg :: rest, m, faded =>
    if cg.cg_marks = 0 then runFlag rest m faded
    else if cg.cg_time > wrap32 (m.time + cg.cg_markTime) then .ok []
    else do
      let r ← fadeMarkFlag cg.cg_time cg.cg_markTime cg.cg_markFadeTime m faded
      let outs ← runFlag rest r.1 r.2
      pure (markPoly r.1 :: outs)

/-- The marks on which the guard and the flag agree: marks that are not energy marks, and
energy marks that fade alpha and either have no vertex or have full red in their base
colour, at least one vertex, and a first red byte that is 0 exactly when the flag is set. -/
def Lockstep (m : markPoly_t) (faded : Bool) : Prop :=
  m.energy = false ∨
    (m.energy = true ∧ m.alphaFade = true ∧
      (m.numVerts = 0 ∨
        (m.color.c0 = 1 ∧ 0 < m.numVerts ∧ m.verts ≠ [] ∧
          (faded = true ↔ (m.verts.headD zeroVert).modulate.c0 = 0))))

instance (m : markPoly_t) (faded : Bool) : Decidable (Lockstep m faded) := by
  unfold Lockstep
  infer_instance

/-- The mark `CG_ImpactMark` stores for `cyanEnergyArgs` at time 1000 in a fresh pool of
two slots, read back from the head of the active list. -/
def cyanMark : markPoly_t :=
  match (do
    let (s1, _) ← CG_ImpactMark 4 0 flatEngine ⟨1000, 1, 10000, 1000, 0⟩ cyanEnergyArgs
      freshState2
    s1.pool.read s1.pool.cg_activeMarkPolys.nextMark) with
  | .ok m => m
  | .error _ => zeroMark 4

/-- The polygons submitted by a pass of `CG_AddMarks` at time 2500 over the pool that
holds `cyanMark`. -/
def cyanGuardRun : Except Fault (List Poly) := do
  let (s1, _) ← CG_ImpactMark 4 0 flatEngine ⟨1000, 1, 10000, 1000, 0⟩ cyanEnergyArgs
    freshState2
  let (_, out) ← CG_AddMarks 2 ⟨2500, 1, 10000, 1000, 0⟩ s1.pool
  pure out

/-- The rewrite of the energy block: R, G, B of the first `numVerts` vertices become
`color * fade`. -/
def energyRewrite (m : markPoly_t) (fade : Int) : markPoly_t :=
  { m with verts := forVerts m.numVerts (fun v =>
      { v with modulate :=
          ⟨floatToByte (fmul m.color.c0 (toFloat fade)),
            floatToByte (fmul m.color.c1 (toFloat fade)),
            floatToByte (fmul m.color.c2 (toFloat fade)), v.modulate.c3⟩ }) m.verts }

/-- The intensity the energy block applies: clamped at 0. -/
def clampFade (fade : Int) : Int := if fade < 0 then 0 else fade

/-- The vertex `CG_ImpactMark` stores for `energyAlphaArgs` at the corner (4, 4, 0). -/
def whiteVert : polyVert_t :=
  markVert energyAlphaArgs.origin ⟨1, 0, 0⟩ ⟨0, 1, 0⟩ (1 / 8) (packColors 1 1 1 1) ⟨4, 4, 0⟩

/-- A white energy mark that does not fade alpha, of radius 4, on the plane `z = 0`. -/
def whiteEnergyArgs : ImpactArgs :=
  { markShader := 7, origin := ⟨0, 0, 0⟩, dir := ⟨0, 0, 1⟩, orientation := 0
    red := 1, green := 1, blue := 1, alpha := 1
    alphaFade := false, radius := 4, temporary := false, energy := true, debug := false }

/-- The state after `whiteEnergyArgs` is stored at time 1000 in a fresh pool of two
slots, with `cg_markTime` 2985 and `cg_markFadeTime` 1000. -/
def whiteEnergyState : Except Fault State :=
  (CG_ImpactMark 4 0 flatEngine ⟨1000, 1, 2985, 1000, 0⟩ whiteEnergyArgs
    { bootState 2 4 with pool := CG_InitMarkPolys 2 4 (bootPool 2 4) }).map fun r => r.1

/-- The colour bytes the mark of `whiteEnergyState` carries after the energy block of a
pass at time 3975, before the general fade of that pass. -/
def whiteEnergyDimmed : Except Fault (List (Chan4 Nat)) := do
  let s1 ← whiteEnergyState
  let m ← s1.pool.read s1.pool.cg_activeMarkPolys.nextMark
  pure (((energyStep 3975 m).verts.take m.numVerts).map fun v => v.modulate)

/-- The colour bytes of the polygons submitted by the pass at time 3975. -/
def whiteEnergyRun : Except Fault (List (List (Chan4 Nat))) := do
  let s1 ← whiteEnergyState
  let (_, out) ← CG_AddMarks 2 ⟨3975, 1, 2985, 1000, 0⟩ s1.pool
  pure (out.map fun q => q.verts.map fun v => v.modulate)

/-- The value of `q->energy` (false when `q` cannot be read). -/
def energyOf (p : Pool) (q : Ptr) : Bool :=
  match p.read q with
  | .ok m => m.energy
  | .error _ => false

/-- The pool after `bulletArgs` is stored at time 1000 in a fresh pool of two slots. -/
def bulletPool : Pool :=
  match CG_ImpactMark 4 0 flatEngine ⟨1000, 1, 10000, 1000, 0⟩ bulletArgs freshState2 with
  | .ok (s1, _) => s1.pool
  | .error _ => freshState2.pool

/-- The value fits a 32-bit `int`. -/
def fitsInt32 (x : Int) : Prop := -2147483648 ≤ x ∧ x ≤ 2147483647

instance (x : Int) : Decidable (fitsInt32 x) := by
  unfold fitsInt32
  infer_instance

/-- The state after `bulletArgs` is stored twice in a fresh pool of two slots, at time
1000 and at time 5000. -/
def twoMarkState : State :=
  match (do
    let (s1, _) ← CG_ImpactMark 4 0 flatEngine ⟨1000, 1, 10000, 1000, 0⟩ bulletArgs freshState2
    let (s2, _) ← CG_ImpactMark 4 0 flatEngine ⟨5000, 1, 10000, 1000, 0⟩ bulletArgs s1
    pure s2) with
  | .ok s => s
  | .error _ => freshState2

/-- The state after `bulletArgs` is stored at time 1000 in a fresh pool of two slots. -/
def bulletState : State :=
  match CG_ImpactMark 4 0 flatEngine ⟨1000, 1, 10000, 1000, 0⟩ bulletArgs freshState2 with
  | .ok (s1, _) => s1
  | .error _ => freshState2

/-- What `CG_AllocMark` returns on the pool of `twoMarkState`. -/
def twoMarkAlloc : Ptr × Pool :=
  match CG_AllocMark 4 3 twoMarkState.pool with
  | .ok r => r
  | .error _ => (.null, twoMarkState.pool)

/-- The general fade of a mark that is neither an energy mark nor an alpha-fade mark,
for the factor `fade`: R, G, B of the first `numVerts` vertices become `color * fade`. -/
def plainFade (m : markPoly_t) (fade : Int) : markPoly_t :=
  { m with verts := forVerts m.numVerts (fun v =>
      { v with modulate :=
          ⟨floatToByte (fmul m.color.c0 (toFloat fade)),
            floatToByte (fmul m.color.c1 (toFloat fade)),
            floatToByte (fmul m.color.c2 (toFloat fade)), v.modulate.c3⟩ }) m.verts }

/-- A persistent orange mark that fades its alpha and is not an energy mark, of radius 4,
on the plane `z = 0`. -/
def alphaArgs : ImpactArgs :=
  { markShader := 9, origin := ⟨0, 0, 0⟩, dir := ⟨0, 0, 1⟩, orientation := 0
    red := 1, green := 1 / 2, blue := 0, alpha := 1
    alphaFade := true, radius := 4, temporary := false, energy := false, debug := false }

/-- The state after `alphaArgs` is stored at time 1000 in a fresh pool of two slots. -/
def alphaState : State :=
  match CG_ImpactMark 4 0 flatEngine ⟨1000, 1, 10000, 1000, 0⟩ alphaArgs freshState2 with
  | .ok (s1, _) => s1
  | .error _ => freshState2

/-- The rewrite of the block `if ( t < MARK_FADE_TIME )` for the factor `fade`: the alpha
byte on an alpha-fade mark, the R, G, B bytes times `fade` on an energy mark, the R, G, B
bytes `color * fade` on any other mark. -/
def generalFade (fade : Int) (m : markPoly_t) : markPoly_t :=
  if m.alphaFade then
    { m with verts := forVerts m.numVerts (fun v =>
        { v with modulate := { v.modulate with c3 := toByte fade } }) m.verts }
  else if m.energy then
    { m with verts := forVerts m.numVerts (fun v =>
        { v with modulate :=
            ⟨toByte (v.modulate.c0 * fade), toByte (v.modulate.c1 * fade),
              toByte (v.modulate.c2 * fade), v.modulate.c3⟩ }) m.verts }
  else plainFade m fade

/-- The mark of `whiteEnergyState`, read back from the head of the active list. -/
def whiteEnergyMark : markPoly_t :=
  match (do
    let s1 ← whiteEnergyState
    s1.pool.read s1.pool.cg_activeMarkPolys.nextMark) with
  | .ok m => m
  | .error _ => zeroMark 4

/-- The value is `m * 2^k` for an integer `m` of magnitude at most `B`. -/
def Grid (k : Int) (B : Nat) (x : ℚ) : Prop := ∃ m : Int, |m| ≤ B ∧ x = (m : ℚ) * pow2 k

theorem bitLen_spec : ∀ (fuel n : Nat), n ≤ fuel →
    n < 2 ^ bitLen fuel n ∧ (0 < n → 2 ^ (bitLen fuel n - 1) ≤ n ∧ 0 < bitLen fuel n)
  | 0, n, h => by
    have : n = 0 := by omega
    subst this
    simp [bitLen]
  | fuel + 1, n, h => by
    unfold bitLen
    by_cases hn : n = 0
    · subst hn
      simp
    · rw [if_neg hn]
      obtain ⟨h1, h2⟩ := bitLen_spec fuel (n / 2) (by omega)
      refine ⟨?_, fun _ => ⟨?_, Nat.succ_pos _⟩⟩
      · rw [pow_succ]
        omega
      · rw [Nat.add_sub_cancel]
        by_cases h0 : n / 2 = 0
        · rw [h0]
          cases fuel <;> simp [bitLen] <;> omega
        · obtain ⟨h3, h4⟩ := h2 (Nat.pos_of_ne_zero h0)
          have : 2 ^ bitLen fuel (n / 2) = 2 ^ (bitLen fuel (n / 2) - 1) * 2 := by
            rw [← pow_succ]
            congr 1
            omega
          rw [this]
          omega

theorem pow2_eq (k : Int) : pow2 k = (2 : ℚ) ^ k := by
  unfold pow2
  split
  · rename_i h
    obtain ⟨n, rfl⟩ := Int.eq_ofNat_of_zero_le h
    simp
  · rename_i h
    obtain ⟨n, hn⟩ := Int.eq_ofNat_of_zero_le (show 0 ≤ -k by omega)
    have hk : k = -(n : Int) := by omega
    subst hk
    simp

theorem pow2_pos (k : Int) : 0 < pow2 k := by
  rw [pow2_eq]
  positivity

theorem pow2_add (a b : Int) : pow2 (a + b) = pow2 a * pow2 b := by
  rw [pow2_eq, pow2_eq, pow2_eq, zpow_add₀ (by norm_num)]

theorem pow2_le {a b : Int} (h : a ≤ b) : pow2 a ≤ pow2 b := by
  rw [pow2_eq, pow2_eq]
  exact zpow_le_zpow_right₀ (by norm_num) h

theorem pow2_lt_iff {a b : Int} : pow2 a < pow2 b ↔ a < b := by
  rw [pow2_eq, pow2_eq]
  exact zpow_lt_zpow_iff_right₀ (by norm_num)

/-- The exponent found for a positive rational brackets it. -/
theorem floorLog2_spec {x : ℚ} (hx : 0 < x) :
    pow2 (floorLog2 x) ≤ x ∧ x < pow2 (floorLog2 x + 1) := by
  have hnum : 0 < x.num := Rat.num_pos.2 hx
  obtain ⟨n, hn⟩ := Int.eq_ofNat_of_zero_le hnum.le
  have hn0 : 0 < n := by omega
  have hd0 : 0 < x.den := x.den_pos
  have hxe : x = (n : ℚ) / (x.den : ℚ) := by
    conv_lhs => rw [← Rat.num_div_den x, hn]
    simp
  have hna : x.num.natAbs = n := by rw [hn]; rfl
  obtain ⟨a1, a2⟩ := bitLen_spec n n le_rfl
  obtain ⟨a2, a3⟩ := a2 hn0
  obtain ⟨b1, b2⟩ := bitLen_spec x.den x.den le_rfl
  obtain ⟨b2, b3⟩ := b2 hd0
  set A := bitLen n n with hA
  set B := bitLen x.den x.den with hB
  have hdq : (0 : ℚ) < (x.den : ℚ) := by exact_mod_cast hd0
  -- bounds in ℚ
  have qa1 : (n : ℚ) < (2 : ℚ) ^ (A : Int) := by
    rw [zpow_natCast]; exact_mod_cast a1
  have qa2 : (2 : ℚ) ^ ((A : Int) - 1) ≤ (n : ℚ) := by
    have : ((A : Int) - 1) = ((A - 1 : Nat) : Int) := by omega
    rw [this, zpow_natCast]; exact_mod_cast a2
  have qb1 : (x.den : ℚ) < (2 : ℚ) ^ (B : Int) := by
    rw [zpow_natCast]; exact_mod_cast b1
  have qb2 : (2 : ℚ) ^ ((B : Int) - 1) ≤ (x.den : ℚ) := by
    have : ((B : Int) - 1) = ((B - 1 : Nat) : Int) := by omega
    rw [this, zpow_natCast]; exact_mod_cast b2
  have hlo : (2 : ℚ) ^ ((A : Int) - B - 1) < x := by
    rw [hxe, lt_div_iff₀ hdq]
    calc (2 : ℚ) ^ ((A : Int) - B - 1) * x.den
        < (2 : ℚ) ^ ((A : Int) - B - 1) * (2 : ℚ) ^ (B : Int) :=
          mul_lt_mul_of_pos_left qb1 (by positivity)
      _ = (2 : ℚ) ^ ((A : Int) - 1) := by
          rw [← zpow_add₀ (by norm_num)]; congr 1; ring
      _ ≤ n := qa2
  have hhi : x < (2 : ℚ) ^ ((A : Int) - B + 1) := by
    rw [hxe, div_lt_iff₀ hdq]
    calc (n : ℚ) < (2 : ℚ) ^ (A : Int) := qa1
      _ = (2 : ℚ) ^ ((A : Int) - B + 1) * (2 : ℚ) ^ ((B : Int) - 1) := by
          rw [← zpow_add₀ (by norm_num)]; congr 1; ring
      _ ≤ (2 : ℚ) ^ ((A : Int) - B + 1) * x.den :=
          mul_le_mul_of_nonneg_left qb2 (by positivity)
  unfold floorLog2
  simp only [hna, ← hA, ← hB]
  split
  · rename_i h
    exact ⟨h, by rw [pow2_eq]; exact hhi⟩
  · rename_i h
    refine ⟨by rw [pow2_eq]; exact hlo.le, ?_⟩
    have : (A : Int) - B - 1 + 1 = (A : Int) - B := by ring
    rw [this]
    exact not_le.1 h

theorem floorLog2_unique {x : ℚ} {e : Int} (h1 : pow2 e ≤ x) (h2 : x < pow2 (e + 1)) :
    floorLog2 x = e := by
  have hx : 0 < x := lt_of_lt_of_le (pow2_pos e) h1
  obtain ⟨s1, s2⟩ := floorLog2_spec hx
  have c1 : floorLog2 x < e + 1 := pow2_lt_iff.1 (lt_of_le_of_lt s1 h2)
  have c2 : e < floorLog2 x + 1 := pow2_lt_iff.1 (lt_of_le_of_lt h1 s2)
  omega

theorem floorLog2_mono {x y : ℚ} (hx : 0 < x) (h : x ≤ y) : floorLog2 x ≤ floorLog2 y := by
  obtain ⟨s1, -⟩ := floorLog2_spec hx
  obtain ⟨-, t2⟩ := floorLog2_spec (lt_of_lt_of_le hx h)
  have := pow2_lt_iff.1 (lt_of_le_of_lt (s1.trans h) t2)
  omega

theorem roundHalfEven_bounds (x : ℚ) :
    (roundHalfEven x = ⌊x⌋ ∧ x - ⌊x⌋ ≤ 1 / 2) ∨ (roundHalfEven x = ⌊x⌋ + 1 ∧ 1 / 2 ≤ x - ⌊x⌋) := by
  unfold roundHalfEven
  split_ifs with h1 h2 h3
  · exact Or.inl ⟨rfl, h1.le⟩
  · exact Or.inr ⟨rfl, h2.le⟩
  · exact Or.inl ⟨rfl, not_lt.1 h2⟩
  · exact Or.inr ⟨rfl, not_lt.1 h1⟩

theorem roundHalfEven_intCast (n : Int) : roundHalfEven (n : ℚ) = n := by
  unfold roundHalfEven
  rw [Int.floor_intCast, sub_self, if_pos (by norm_num)]

theorem roundHalfEven_mono {x y : ℚ} (h : x ≤ y) : roundHalfEven x ≤ roundHalfEven y := by
  have hf : ⌊x⌋ ≤ ⌊y⌋ := Int.floor_mono h
  rcases lt_or_eq_of_le hf with hlt | heq
  · rcases roundHalfEven_bounds x with ⟨e, -⟩ | ⟨e, -⟩ <;>
      rcases roundHalfEven_bounds y with ⟨e', -⟩ | ⟨e', -⟩ <;> omega
  · unfold roundHalfEven
    rw [heq]
    have hxy : x - ⌊y⌋ ≤ y - ⌊y⌋ := by linarith
    split_ifs <;> first | omega | (exfalso; linarith)

theorem roundHalfEven_le {x : ℚ} {n : Int} (h : x ≤ n) : roundHalfEven x ≤ n := by
  have := roundHalfEven_mono h
  rwa [roundHalfEven_intCast] at this

theorem le_roundHalfEven {x : ℚ} {n : Int} (h : (n : ℚ) ≤ x) : n ≤ roundHalfEven x := by
  have := roundHalfEven_mono h
  rwa [roundHalfEven_intCast] at this

/-- A positive value rounds to a value in the closed binade it lies in. -/
theorem roundPos_bounds {p : Nat} (hp : 0 < p) {x : ℚ} (hx : 0 < x) :
    pow2 (floorLog2 x) ≤ roundPos p x ∧ roundPos p x ≤ pow2 (floorLog2 x + 1) := by
  obtain ⟨s1, s2⟩ := floorLog2_spec hx
  set e := floorLog2 x with he
  unfold roundPos
  rw [← he]
  set u := pow2 (e - ((p : Int) - 1)) with hu
  have hu0 : 0 < u := pow2_pos _
  have e1 : pow2 e = ((2 ^ (p - 1) : Nat) : Int) * u := by
    have : pow2 ((p : Int) - 1) = (((2 ^ (p - 1) : Nat) : Int) : ℚ) := by
      rw [pow2_eq]
      have : ((p : Int) - 1) = ((p - 1 : Nat) : Int) := by omega
      rw [this, zpow_natCast]
      push_cast
      rfl
    rw [← this, hu, ← pow2_add]
    congr 1
    ring
  have e2 : pow2 (e + 1) = ((2 ^ p : Nat) : Int) * u := by
    have : pow2 (p : Int) = (((2 ^ p : Nat) : Int) : ℚ) := by
      rw [pow2_eq, zpow_natCast]
      push_cast
      rfl
    rw [← this, hu, ← pow2_add]
    congr 1
    ring
  constructor
  · rw [e1]
    refine mul_le_mul_of_nonneg_right ?_ hu0.le
    have : (((2 ^ (p - 1) : Nat) : Int) : ℚ) ≤ x / u := by
      rw [le_div_iff₀ hu0, ← e1]
      exact s1
    exact_mod_cast le_roundHalfEven this
  · rw [e2]
    refine mul_le_mul_of_nonneg_right ?_ hu0.le
    have : x / u ≤ (((2 ^ p : Nat) : Int) : ℚ) := by
      rw [div_le_iff₀ hu0, ← e2]
      exact s2.le
    exact_mod_cast roundHalfEven_le this

theorem roundPos_pos {p : Nat} (hp : 0 < p) {x : ℚ} (hx : 0 < x) : 0 < roundPos p x :=
  lt_of_lt_of_le (pow2_pos _) (roundPos_bounds hp hx).1

theorem roundPos_mono {p : Nat} (hp : 0 < p) {x y : ℚ} (hx : 0 < x) (h : x ≤ y) :
    roundPos p x ≤ roundPos p y := by
  have hy : 0 < y := lt_of_lt_of_le hx h
  rcases lt_or_eq_of_le (floorLog2_mono hx h) with hlt | heq
  · calc roundPos p x ≤ pow2 (floorLog2 x + 1) := (roundPos_bounds hp hx).2
      _ ≤ pow2 (floorLog2 y) := pow2_le (by omega)
      _ ≤ roundPos p y := (roundPos_bounds hp hy).1
  · unfold roundPos
    rw [heq]
    have hu0 := pow2_pos (floorLog2 y - ((p : Int) - 1))
    refine mul_le_mul_of_nonneg_right ?_ hu0.le
    exact_mod_cast roundHalfEven_mono (div_le_div_of_nonneg_right h hu0.le)

theorem roundToPrec_zero (p : Nat) : roundToPrec p 0 = 0 := by
  simp [roundToPrec]

theorem roundToPrec_of_pos {p : Nat} {x : ℚ} (hx : 0 < x) : roundToPrec p x = roundPos p x := by
  simp [roundToPrec, hx]

theorem roundToPrec_of_neg {p : Nat} {x : ℚ} (hx : x < 0) :
    roundToPrec p x = -roundPos p (-x) := by
  simp [roundToPrec, hx, not_lt.2 hx.le]

theorem roundToPrec_neg (p : Nat) (x : ℚ) : roundToPrec p (-x) = -roundToPrec p x := by
  rcases lt_trichotomy x 0 with h | h | h
  · rw [roundToPrec_of_neg h, roundToPrec_of_pos (by linarith), neg_neg]
  · subst h
    simp [roundToPrec_zero]
  · rw [roundToPrec_of_pos h, roundToPrec_of_neg (by linarith), neg_neg]

theorem roundToPrec_nonneg {p : Nat} (hp : 0 < p) {x : ℚ} (hx : 0 ≤ x) : 0 ≤ roundToPrec p x := by
  rcases lt_or_eq_of_le hx with h | h
  · rw [roundToPrec_of_pos h]
    exact (roundPos_pos hp h).le
  · rw [← h, roundToPrec_zero]

theorem roundToPrec_nonpos {p : Nat} (hp : 0 < p) {x : ℚ} (hx : x ≤ 0) : roundToPrec p x ≤ 0 := by
  have := roundToPrec_nonneg hp (show 0 ≤ -x by linarith)
  rw [roundToPrec_neg] at this
  linarith

/-- Rounding to a precision is monotone. -/
theorem roundToPrec_mono {p : Nat} (hp : 0 < p) {x y : ℚ} (h : x ≤ y) :
    roundToPrec p x ≤ roundToPrec p y := by
  rcases lt_trichotomy 0 x with hx | hx | hx
  · rw [roundToPrec_of_pos hx, roundToPrec_of_pos (lt_of_lt_of_le hx h)]
    exact roundPos_mono hp hx h
  · subst hx
    rw [roundToPrec_zero]
    exact roundToPrec_nonneg hp h
  · rcases lt_or_le y 0 with hy | hy
    · rw [roundToPrec_of_neg hx, roundToPrec_of_neg hy]
      exact neg_le_neg (roundPos_mono hp (by linarith) (by linarith))
    · exact (roundToPrec_nonpos hp hx.le).trans (roundToPrec_nonneg hp hy)

/-- A value `m * 2^k` with `0 < m < 2^p` is not changed by rounding to precision `p`. -/
theorem roundPos_exact {p : Nat} {m : Nat} (k : Int) (hm0 : 0 < m)
    (hm : m < 2 ^ p) : roundPos p ((m : ℚ) * pow2 k) = (m : ℚ) * pow2 k := by
  have hx : 0 < (m : ℚ) * pow2 k := mul_pos (by exact_mod_cast hm0) (pow2_pos k)
  obtain ⟨s1, -⟩ := floorLog2_spec hx
  set e := floorLog2 ((m : ℚ) * pow2 k) with he
  have hlt : (m : ℚ) * pow2 k < pow2 ((p : Int) + k) := by
    rw [pow2_add]
    refine mul_lt_mul_of_pos_right ?_ (pow2_pos k)
    rw [pow2_eq, zpow_natCast]
    exact_mod_cast hm
  have hek : e < (p : Int) + k := pow2_lt_iff.1 (lt_of_le_of_lt s1 hlt)
  obtain ⟨j, hj⟩ := Int.eq_ofNat_of_zero_le (show 0 ≤ k - (e - ((p : Int) - 1)) by omega)
  unfold roundPos
  rw [← he]
  have hu0 := pow2_pos (e - ((p : Int) - 1))
  have hk : pow2 k = ((2 ^ j : Nat) : ℚ) * pow2 (e - ((p : Int) - 1)) := by
    have : pow2 (j : Int) = ((2 ^ j : Nat) : ℚ) := by
      rw [pow2_eq, zpow_natCast]
      push_cast
      rfl
    rw [← this, ← pow2_add]
    congr 1
    omega
  have hdiv : (m : ℚ) * pow2 k / pow2 (e - ((p : Int) - 1)) = (((m * 2 ^ j : Nat) : Int) : ℚ) := by
    rw [hk]
    field_simp
    ring
  rw [hdiv, roundHalfEven_intCast, hk]
  push_cast
  ring

theorem roundToPrec_exact {p : Nat} (m k : Int) (hm : |m| < 2 ^ p) :
    roundToPrec p ((m : ℚ) * pow2 k) = (m : ℚ) * pow2 k := by
  rcases lt_trichotomy m 0 with h | h | h
  · obtain ⟨n, hn⟩ := Int.eq_ofNat_of_zero_le (show 0 ≤ -m by omega)
    have hm' : m = -(n : Int) := by omega
    subst hm'
    have hn0 : 0 < n := by omega
    have hnp : n < 2 ^ p := by
      have : |(-(n : Int))| = n := by simp
      rw [this] at hm
      exact_mod_cast hm
    have hneg : ((-(n : Int) : Int) : ℚ) * pow2 k = -((n : ℚ) * pow2 k) := by
      push_cast
      ring
    rw [hneg, roundToPrec_neg,
      roundToPrec_of_pos (mul_pos (by exact_mod_cast hn0) (pow2_pos k)),
      roundPos_exact k hn0 hnp]
  · subst h
    simp [roundToPrec_zero]
  · obtain ⟨n, hn⟩ := Int.eq_ofNat_of_zero_le h.le
    subst hn
    have hn0 : 0 < n := by omega
    have hnp : n < 2 ^ p := by
      have : |(n : Int)| = n := by simp
      rw [this] at hm
      exact_mod_cast hm
    have : (((n : Int) : Int) : ℚ) = (n : ℚ) := rfl
    rw [this, roundToPrec_of_pos (mul_pos (by exact_mod_cast hn0) (pow2_pos k)),
      roundPos_exact k hn0 hnp]

theorem roundToPrec_intCast {p : Nat} (m : Int) (hm : |m| < 2 ^ p) :
    roundToPrec p (m : ℚ) = m := by
  have := roundToPrec_exact m 0 hm
  have h0 : pow2 0 = 1 := by simp [pow2]
  rwa [h0, mul_one] at this

theorem toFloat_mono {x y : ℚ} (h : x ≤ y) : toFloat x ≤ toFloat y :=
  roundToPrec_mono (by norm_num) h

theorem toDouble_mono {x y : ℚ} (h : x ≤ y) : toDouble x ≤ toDouble y :=
  roundToPrec_mono (by norm_num) h

theorem toFloat_intCast (m : Int) (hm : |m| < 16777216) : toFloat (m : ℚ) = m :=
  roundToPrec_intCast m (by norm_num; exact hm)

theorem toDouble_intCast (m : Int) (hm : |m| < 9007199254740992) : toDouble (m : ℚ) = m :=
  roundToPrec_intCast m (by norm_num; exact hm)

theorem toFloat_nonneg {x : ℚ} (h : 0 ≤ x) : 0 ≤ toFloat x := roundToPrec_nonneg (by norm_num) h

theorem toFloat_zero : toFloat 0 = 0 := roundToPrec_zero 24

theorem toDouble_zero : toDouble 0 = 0 := roundToPrec_zero 53

/-! ## Segments -/

@[simp] theorem seg_nil {f : Ptr → Ptr} {a b : Ptr} : Seg f a [] b ↔ a = b := Iff.rfl

@[simp] theorem seg_cons {f : Ptr → Ptr} {a x b : Ptr} {l : List Ptr} :
    Seg f a (x :: l) b ↔ a = x ∧ Seg f (f x) l b := Iff.rfl

theorem seg_append {f : Ptr → Ptr} {l1 l2 : List Ptr} {a b : Ptr} :
    Seg f a (l1 ++ l2) b ↔ ∃ c, Seg f a l1 c ∧ Seg f c l2 b := by
  induction l1 generalizing a with
  | nil => simp
  | cons x l1 ih =>
    rw [List.cons_append, seg_cons, ih]
    constructor
    · rintro ⟨h, c, h1, h2⟩
      exact ⟨c, ⟨h, h1⟩, h2⟩
    · rintro ⟨c, ⟨h, h1⟩, h2⟩
      exact ⟨h, c, h1, h2⟩

theorem seg_congr {f f' : Ptr → Ptr} {l : List Ptr} {a b : Ptr}
    (h : ∀ x ∈ l, f' x = f x) : Seg f' a l b ↔ Seg f a l b := by
  induction l generalizing a with
  | nil => simp
  | cons x l ih =>
    rw [seg_cons, seg_cons, h x (List.mem_cons_self _ _), ih fun y hy => h y (List.mem_cons_of_mem _ hy)]

/-- Taking `i` out of a segment by redirecting its predecessor `a`. -/
theorem seg_unlink {f f' : Ptr → Ptr} {r1 r2 : List Ptr} {s a i e : Ptr}
    (h : Seg f s (r1 ++ a :: i :: r2) e)
    (h1 : ∀ x ∈ r1, f' x = f x) (h2 : ∀ x ∈ r2, f' x = f x) (ha : f' a = f i) :
    Seg f' s (r1 ++ a :: r2) e := by
  rw [seg_append] at h ⊢
  obtain ⟨c, hc, hca, -, hi⟩ := h
  exact ⟨c, (seg_congr h1).2 hc, hca, by rw [ha]; exact (seg_congr h2).2 hi⟩

/-- Putting `i` in front of a segment. -/
theorem seg_push {f f' : Ptr → Ptr} {l : List Ptr} {a i e : Ptr}
    (h : Seg f a l e) (h1 : ∀ x ∈ l, f' x = f x) (hi : f' i = a) :
    Seg f' i (i :: l) e :=
  ⟨rfl, by rw [hi]; exact (seg_congr h1).2 h⟩

/-- The first node of a non-empty segment is where it starts. -/
theorem seg_last {f : Ptr → Ptr} {l : List Ptr} {a x e : Ptr}
    (h : Seg f a (l ++ [x]) e) : f x = e := by
  rw [seg_append] at h
  obtain ⟨c, -, -, h⟩ := h
  exact h

/-! ## Reads and writes -/

theorem read_of_valid {p : Pool} {q : Ptr} (h : Valid p q) : ∃ m, p.read q = .ok m := by
  cases q with
  | null => exact absurd h (by simp [Valid])
  | active => exact ⟨_, rfl⟩
  | slot i =>
    have hi : i < p.cg_markPolys.length := h
    exact ⟨p.cg_markPolys[i], by simp [Pool.read, List.getElem?_eq_getElem hi]⟩

theorem valid_of_read {p : Pool} {q : Ptr} {m : markPoly_t} (h : p.read q = .ok m) :
    Valid p q := by
  cases q with
  | null => simp [Pool.read] at h
  | active => trivial
  | slot i =>
    show i < p.cg_markPolys.length
    by_contra hi
    simp [Pool.read, List.getElem?_eq_none (not_lt.1 hi)] at h

/-- A write through a valid pointer succeeds and changes only what that pointer reads. -/
theorem update_spec {p : Pool} {q : Ptr} {m : markPoly_t} (f : markPoly_t → markPoly_t)
    (h : p.read q = .ok m) :
    ∃ p', p.update q f = .ok p' ∧ p'.cg_freeMarkPolys = p.cg_freeMarkPolys ∧
      p'.cg_markPolys.length = p.cg_markPolys.length ∧
      p'.read q = .ok (f m) ∧ ∀ r, r ≠ q → p'.read r = p.read r := by
  cases q with
  | null => simp [Pool.read] at h
  | active =>
    simp only [Pool.read, Except.ok.injEq] at h
    subst h
    refine ⟨_, rfl, rfl, rfl, rfl, ?_⟩
    intro r hr
    cases r with
    | null => rfl
    | active => exact absurd rfl hr
    | slot j => rfl
  | slot i =>
    have hv : i < p.cg_markPolys.length := valid_of_read h
    have hm : p.cg_markPolys[i]? = some m := by
      simp only [Pool.read, List.getElem?_eq_getElem hv, Except.ok.injEq] at h
      simp [List.getElem?_eq_getElem hv, h]
    refine ⟨{ p with cg_markPolys := p.cg_markPolys.set i (f m) }, ?_, rfl, ?_, ?_, ?_⟩
    · simp [Pool.update, hm]
    · simp
    · simp [Pool.read, List.getElem?_set, hv]
    · intro r hr
      cases r with
      | null => rfl
      | active => rfl
      | slot j =>
        have hij : i ≠ j := fun e => hr (by rw [e])
        simp [Pool.read, List.getElem?_set, hij]

theorem valid_congr {p p' : Pool} (h : p'.cg_markPolys.length = p.cg_markPolys.length)
    (q : Ptr) : Valid p' q ↔ Valid p q := by
  cases q <;> simp [Valid, h]

theorem read_setFree (p : Pool) (v : Ptr) (r : Ptr) :
    ({ p with cg_freeMarkPolys := v } : Pool).read r = p.read r := by
  cases r <;> rfl

theorem nextOf_of_read {p : Pool} {q : Ptr} {m : markPoly_t} (h : p.read q = .ok m) :
    nextOf p q = m.nextMark := by simp [nextOf, h]

theorem prevOf_of_read {p : Pool} {q : Ptr} {m : markPoly_t} (h : p.read q = .ok m) :
    prevOf p q = m.prevMark := by simp [prevOf, h]

theorem free_spec {p : Pool} {le : Ptr} {m : markPoly_t} (hm : p.read le = .ok m)
    (ha : m.prevMark ≠ .null) (hb : m.nextMark ≠ .null)
    (hva : Valid p m.prevMark) (hvb : Valid p m.nextMark)
    (hale : m.prevMark ≠ le) (hble : m.nextMark ≠ le) :
    ∃ p', CG_FreeMarkPoly p le = .ok p' ∧ p'.cg_freeMarkPolys = le ∧
      p'.cg_markPolys.length = p.cg_markPolys.length ∧
      (∀ r, nextOf p' r = if r = le then p.cg_freeMarkPolys
        else if r = m.prevMark then m.nextMark else nextOf p r) ∧
      (∀ r, prevOf p' r = if r = m.nextMark then m.prevMark else prevOf p r) ∧
      SameData p p' := by
  obtain ⟨ma, hma⟩ := read_of_valid hva
  obtain ⟨p1, hu1, hf1, hl1, hr1, ho1⟩ :=
    update_spec (fun x => { x with nextMark := m.nextMark }) hma
  have hle1 : p1.read le = .ok m := by rw [ho1 le (Ne.symm hale), hm]
  obtain ⟨mb, hmb⟩ := read_of_valid ((valid_congr hl1 _).2 hvb)
  obtain ⟨p2, hu2, hf2, hl2, hr2, ho2⟩ :=
    update_spec (fun x => { x with prevMark := m.prevMark }) hmb
  have hle2 : p2.read le = .ok m := by rw [ho2 le (Ne.symm hble), hle1]
  obtain ⟨p3, hu3, hf3, hl3, hr3, ho3⟩ :=
    update_spec (fun x => { x with nextMark := p2.cg_freeMarkPolys }) hle2
  refine ⟨{ p3 with cg_freeMarkPolys := le }, ?_, rfl, ?_, ?_, ?_, ?_⟩
  · simp [CG_FreeMarkPoly, bind, Except.bind, hm, ha, hb, hu1, hle1, hu2, hu3, pure, Except.pure]
  · simp [hl3, hl2, hl1]
  · intro r
    by_cases h1 : r = le
    · subst h1
      simp [nextOf, read_setFree, hr3, hf2, hf1]
    · rw [if_neg h1]
      by_cases h2 : r = m.nextMark
      · subst h2
        by_cases h3 : m.nextMark = m.prevMark
        · rw [if_pos h3]
          have e : p1.read m.nextMark = .ok { ma with nextMark := m.nextMark } := by
            conv_lhs => rw [h3]
            exact hr1
          have : mb = { ma with nextMark := m.nextMark } :=
            Except.ok.inj (hmb.symm.trans e)
          simp [nextOf, read_setFree, ho3 _ h1, hr2, this]
        · rw [if_neg h3]
          rw [ho1 _ h3] at hmb
          simp [nextOf, read_setFree, ho3 _ h1, hr2, hmb]
      · by_cases h3 : r = m.prevMark
        · subst h3
          simp [nextOf, read_setFree, ho3 _ h1, ho2 _ h2, hr1]
        · simp [nextOf, read_setFree, ho3 _ h1, ho2 _ h2, ho1 _ h3, h3]
  · intro r
    by_cases h1 : r = le
    · subst h1
      simp [prevOf, read_setFree, hr3, hm, (Ne.symm hble)]
    · by_cases h2 : r = m.nextMark
      · subst h2
        simp [prevOf, read_setFree, ho3 _ h1, hr2]
      · rw [if_neg h2]
        by_cases h3 : r = m.prevMark
        · subst h3
          simp [prevOf, read_setFree, ho3 _ h1, ho2 _ h2, hr1, hma]
        · simp [prevOf, read_setFree, ho3 _ h1, ho2 _ h2, ho1 _ h3]
  · intro r
    rw [read_setFree]
    by_cases h1 : r = le
    · subst h1
      simp [hr3, hm, Except.map, markPoly_t.data]
    · rw [ho3 _ h1]
      by_cases h2 : r = m.nextMark
      · subst h2
        rw [hr2]
        by_cases h3 : m.nextMark = m.prevMark
        · have e : p1.read m.nextMark = .ok { ma with nextMark := m.nextMark } := by
            conv_lhs => rw [h3]
            exact hr1
          have e1 : mb = { ma with nextMark := m.nextMark } :=
            Except.ok.inj (hmb.symm.trans e)
          have e2 : p.read m.nextMark = .ok ma := by rw [h3]; exact hma
          rw [e2, e1]
          simp [Except.map, markPoly_t.data]
        · rw [ho1 _ h3] at hmb
          rw [hmb]
          simp [Except.map, markPoly_t.data]
      · rw [ho2 _ h2]
        by_cases h3 : r = m.prevMark
        · subst h3
          rw [hr1, hma]
          simp [Except.map, markPoly_t.data]
        · rw [ho1 _ h3]

theorem seg_headD {f : Ptr → Ptr} {l : List Ptr} {c e : Ptr} (h : Seg f c l e) :
    c = l.headD e := by
  cases l with
  | nil => exact h
  | cons x l => exact h.1

theorem cons_reverse_eq_concat (x : Ptr) (L : List Ptr) :
    ∃ r, x :: L.reverse = r ++ [L.headD x] := by
  cases L with
  | nil => exact ⟨[], rfl⟩
  | cons y L => exact ⟨x :: L.reverse, by simp⟩

theorem slot_mem_map {i : Nat} {l : List Nat} : Ptr.slot i ∈ l.map Ptr.slot ↔ i ∈ l := by
  simp

theorem ring_mem {p : Pool} {l : List Nat} {x : Ptr} (hx : x ∈ Ptr.active :: l.map Ptr.slot)
    (hl : ∀ j ∈ l, j < p.cg_markPolys.length) :
    x ≠ .null ∧ Valid p x ∧ ∀ k, k ∉ l → x ≠ .slot k := by
  rcases List.mem_cons.1 hx with rfl | hx
  · exact ⟨by simp, trivial, by simp⟩
  · obtain ⟨j, hj, rfl⟩ := List.mem_map.1 hx
    exact ⟨by simp, hl j hj, fun k hk e => hk (by cases e; exact hj)⟩

theorem ring_nodup {l : List Nat} (hl : l.Nodup) : (Ptr.active :: l.map Ptr.slot).Nodup := by
  refine List.nodup_cons.2 ⟨by simp, hl.map ?_⟩
  intro a b e
  cases e
  rfl

theorem not_mem_of_concat_nodup {r : List Ptr} {a x : Ptr} (h : (r ++ [a]).Nodup)
    (hx : x ∈ r) : x ≠ a := by
  rintro rfl
  simp [List.nodup_append] at h
  exact h.2 hx

/-- Unlinking an active mark: `CG_FreeMarkPoly` succeeds, takes the mark out of the active
list, keeps the order of the others and puts the mark at the head of the free list. -/
theorem free_linked {p : Pool} {l1 l2 fr : List Nat} {i : Nat}
    (h : Linked p (l1 ++ i :: l2) fr) :
    ∃ p', CG_FreeMarkPoly p (.slot i) = .ok p' ∧ Linked p' (l1 ++ l2) (i :: fr) ∧
      SameData p p' ∧ p'.cg_markPolys.length = p.cg_markPolys.length := by
  have hnd := h.nodup
  simp [List.nodup_append, List.nodup_cons] at hnd
  obtain ⟨hn1, ⟨⟨hil2, hif⟩, hn2, hnf, hd2f⟩, hil1, hd12, hd1f⟩ := hnd
  have hi : i < p.cg_markPolys.length := h.bound i (by simp)
  obtain ⟨m, hm⟩ := read_of_valid (show Valid p (.slot i) from hi)
  have hnx := nextOf_of_read hm
  have hpv := prevOf_of_read hm
  -- the neighbours of `i`
  have hf := h.fwd
  rw [show Ptr.active :: (l1 ++ i :: l2).map Ptr.slot =
      (Ptr.active :: l1.map Ptr.slot) ++ Ptr.slot i :: l2.map Ptr.slot by simp, seg_append] at hf
  obtain ⟨c, hf1, hc, hf2⟩ := hf
  subst hc
  have hb := h.bwd
  rw [show Ptr.active :: (l1 ++ i :: l2).reverse.map Ptr.slot =
      (Ptr.active :: l2.reverse.map Ptr.slot) ++ Ptr.slot i :: l1.reverse.map Ptr.slot by simp,
    seg_append] at hb
  obtain ⟨c, hb1, hc, hb2⟩ := hb
  subst hc
  rw [hnx] at hf2
  rw [hpv] at hb2
  obtain ⟨r1, hr1⟩ := cons_reverse_eq_concat .active (l1.reverse.map Ptr.slot)
  rw [← seg_headD hb2] at hr1
  obtain ⟨r2, hr2⟩ := cons_reverse_eq_concat .active (l2.map Ptr.slot)
  rw [← seg_headD hf2] at hr2
  simp only [List.map_reverse, List.reverse_reverse] at hr1
  rw [← List.map_reverse] at hr2
  have hAm : m.prevMark ∈ Ptr.active :: l1.map Ptr.slot := by rw [hr1]; simp
  have hBm : m.nextMark ∈ Ptr.active :: l2.reverse.map Ptr.slot := by rw [hr2]; simp
  obtain ⟨hA0, hAv, hAs⟩ := ring_mem (p := p) hAm fun j hj => h.bound j (by simp [hj])
  obtain ⟨hB0, hBv, hBs⟩ := ring_mem (p := p) hBm fun j hj =>
    h.bound j (by simp [List.mem_reverse.1 hj])
  have hAi : m.prevMark ≠ .slot i := hAs i hil1
  have hBi : m.nextMark ≠ .slot i := hBs i (by simpa using hil2)
  obtain ⟨p', hfree, hfr, hlen, hnext, hprev, hdata⟩ := free_spec hm hA0 hB0 hAv hBv hAi hBi
  refine ⟨p', hfree, ⟨?_, ?_, ?_, ?_, ?_⟩, hdata, hlen⟩
  · -- forward ring
    have hf := h.fwd
    rw [show Ptr.active :: (l1 ++ i :: l2).map Ptr.slot =
      (Ptr.active :: l1.map Ptr.slot) ++ Ptr.slot i :: l2.map Ptr.slot by simp, hr1,
      List.append_assoc, List.singleton_append] at hf
    rw [show Ptr.active :: (l1 ++ l2).map Ptr.slot =
      (Ptr.active :: l1.map Ptr.slot) ++ l2.map Ptr.slot by simp, hr1,
      List.append_assoc, List.singleton_append]
    have hnd1 : (r1 ++ [m.prevMark]).Nodup := hr1 ▸ ring_nodup hn1
    refine seg_unlink hf ?_ ?_ ?_
    · intro x hx
      have hxm : x ∈ Ptr.active :: l1.map Ptr.slot := by rw [hr1]; simp [hx]
      have hxi := (ring_mem (p := p) hxm fun j hj => h.bound j (by simp [hj])).2.2 i hil1
      rw [hnext, if_neg hxi, if_neg (not_mem_of_concat_nodup hnd1 hx)]
    · intro x hx
      obtain ⟨j, hj, rfl⟩ := List.mem_map.1 hx
      have hji : Ptr.slot j ≠ Ptr.slot i := fun e => hil2 (by cases e; exact hj)
      have hjA : Ptr.slot j ≠ m.prevMark := fun e => hAs j (fun hj1 => hd12 hj1 hj) e.symm
      rw [hnext, if_neg hji, if_neg hjA]
    · rw [hnext, if_neg hAi, if_pos rfl, hnx]
  · -- backward ring
    have hb := h.bwd
    rw [show Ptr.active :: (l1 ++ i :: l2).reverse.map Ptr.slot =
      (Ptr.active :: l2.reverse.map Ptr.slot) ++ Ptr.slot i :: l1.reverse.map Ptr.slot by simp,
      hr2, List.append_assoc, List.singleton_append] at hb
    rw [show Ptr.active :: (l1 ++ l2).reverse.map Ptr.slot =
      (Ptr.active :: l2.reverse.map Ptr.slot) ++ l1.reverse.map Ptr.slot by simp, hr2,
      List.append_assoc, List.singleton_append]
    have hnd2 : (r2 ++ [m.nextMark]).Nodup := hr2 ▸ ring_nodup (List.nodup_reverse.2 hn2)
    refine seg_unlink hb ?_ ?_ ?_
    · intro x hx
      rw [hprev, if_neg (not_mem_of_concat_nodup hnd2 hx)]
    · intro x hx
      obtain ⟨j, hj, rfl⟩ := List.mem_map.1 hx
      have hjB : Ptr.slot j ≠ m.nextMark := fun e =>
        hBs j (fun hj2 => hd12 (List.mem_reverse.1 hj) (List.mem_reverse.1 hj2)) e.symm
      rw [hprev, if_neg hjB]
    · rw [hprev, if_pos rfl, hpv]
  · -- free chain
    rw [hfr]
    refine seg_push h.free ?_ ?_
    · intro x hx
      obtain ⟨j, hj, rfl⟩ := List.mem_map.1 hx
      have hji : Ptr.slot j ≠ Ptr.slot i := fun e => hif (by cases e; exact hj)
      have hjA : Ptr.slot j ≠ m.prevMark := fun e => hAs j (fun hj1 => hd1f hj1 hj) e.symm
      rw [hnext, if_neg hji, if_neg hjA]
    · rw [hnext, if_pos rfl]
  · have hp : ((l1 ++ i :: l2) ++ fr).Perm ((l1 ++ l2) ++ i :: fr) := by
      simp only [List.append_assoc, List.cons_append]
      exact (List.perm_append_left_iff l1).2 List.perm_middle.symm
    exact hp.nodup_iff.1 h.nodup
  · intro j hj
    rw [hlen]
    refine h.bound j ?_
    simp only [List.mem_append, List.mem_cons] at hj ⊢
    tauto

/-! ## The eviction loop -/

theorem tailPtr_nil : tailPtr [] = .active := rfl

theorem tailPtr_concat (l : List Nat) (j : Nat) : tailPtr (l ++ [j]) = .slot j := by
  simp [tailPtr]

theorem SameData.refl (p : Pool) : SameData p p := fun _ => rfl

theorem SameData.trans {p q r : Pool} (h1 : SameData p q) (h2 : SameData q r) :
    SameData p r := fun x => (h2 x).trans (h1 x)

theorem SameData.time {p p' : Pool} (h : SameData p p') (q : Ptr) :
    timeOf p' q = timeOf p q := by
  have := h q
  unfold timeOf
  cases h1 : p'.read q <;> cases h2 : p.read q <;> simp [h1, h2, Except.map] at this ⊢
  have := congrArg markPoly_t.time this
  simpa [markPoly_t.data] using this

theorem SameData.headTime {p p' : Pool} (h : SameData p p') :
    p'.cg_activeMarkPolys.time = p.cg_activeMarkPolys.time := h.time .active

theorem Linked.prev_head {p : Pool} {act fr : List Nat} (h : Linked p act fr) :
    p.cg_activeMarkPolys.prevMark = tailPtr act := by
  have := h.bwd
  rw [seg_cons] at this
  exact seg_headD this.2

theorem Linked.next_head {p : Pool} {act fr : List Nat} (h : Linked p act fr) :
    p.cg_activeMarkPolys.nextMark = (act.map Ptr.slot).headD .active := by
  have := h.fwd
  rw [seg_cons] at this
  exact seg_headD this.2

theorem tailPtr_ne_null (act : List Nat) : tailPtr act ≠ .null := by
  rcases List.eq_nil_or_concat act with rfl | ⟨l, j, rfl⟩
  · simp [tailPtr]
  · simp [tailPtr_concat]

theorem Linked.tail_valid {p : Pool} {act fr : List Nat} (h : Linked p act fr) :
    Valid p (tailPtr act) := by
  rcases List.eq_nil_or_concat act with rfl | ⟨l, j, rfl⟩
  · trivial
  · rw [List.concat_eq_append] at h ⊢
    rw [tailPtr_concat]
    exact h.bound j (by simp)

/-- The loop of `CG_AllocMark` on a pool whose active list ends in the marks `suf`, all
stamped `time`, before which comes a mark (or, when there is none, the list head) with
another `time`: with more fuel than `suf` is long it returns, having moved exactly `suf`
to the free list. -/
theorem evict_ok {t : Int} {suf : List Nat} : ∀ {p : Pool} {pre fr : List Nat},
    Linked p (pre ++ suf) fr → (∀ i ∈ suf, timeOf p (.slot i) = t) →
    timeOf p (tailPtr pre) ≠ t →
    ∃ p', (∀ fuel, evictLoop t fuel p =
        if suf.length < fuel then .ok p' else .error .outOfFuel) ∧
      Linked p' pre (suf ++ fr) ∧ SameData p p' ∧
      p'.cg_markPolys.length = p.cg_markPolys.length := by
  induction suf using List.reverseRecOn with
  | nil =>
    intro p pre fr h _ hstop
    rw [List.append_nil] at h
    refine ⟨p, ?_, by simpa using h, SameData.refl p, rfl⟩
    intro fuel
    cases fuel with
    | zero => rfl
    | succ n =>
      have hp := h.prev_head
      have hne : ¬ t = timeOf p (tailPtr pre) := fun e => hstop e.symm
      unfold timeOf at hne
      obtain ⟨m, hr⟩ := read_of_valid h.tail_valid
      rw [hr] at hne
      simp [evictLoop, hp, tailPtr_ne_null, hr, bind, Except.bind, hne, pure, Except.pure]
  | append_singleton s j ih =>
    intro p pre fr h hs hstop
    rw [← List.append_assoc] at h
    have hp := h.prev_head
    rw [tailPtr_concat] at hp
    have hj : timeOf p (.slot j) = t := hs j (by simp)
    have h' : Linked p ((pre ++ s) ++ j :: []) fr := h
    obtain ⟨p1, hfree, hl1, hd1, hlen1⟩ := free_linked h'
    rw [List.append_nil] at hl1
    obtain ⟨p', hloop, hl', hd', hlen'⟩ := ih hl1
      (fun i hi => by rw [hd1.time]; exact hs i (by simp [hi]))
      (by rw [hd1.time]; exact hstop)
    refine ⟨p', ?_, by simpa using hl', hd1.trans hd', hlen'.trans hlen1⟩
    intro fuel
    cases fuel with
    | zero => rfl
    | succ n =>
      obtain ⟨m, hr⟩ := read_of_valid (show Valid p (.slot j) from h.bound j (by simp))
      have hjt : t = m.time := by
        rw [← hj]; simp [timeOf, hr]
      simp [evictLoop, hp, hr, bind, Except.bind, ← hjt, hfree, hloop]

/-- Freeing the list head in a stuck state succeeds and leaves the state stuck. -/
theorem stuck_step {t : Int} {p : Pool} (h : Stuck t p) :
    ∃ p', CG_FreeMarkPoly p .active = .ok p' ∧ Stuck t p' := by
  obtain ⟨hp, ht, hn, hf⟩ := h
  obtain ⟨a, f, ms⟩ := p
  simp only at hp ht hn hf
  cases hx : a.nextMark with
  | null => rw [hx] at hn; exact absurd hn (by simp [Valid])
  | active =>
    refine ⟨_, by simp [CG_FreeMarkPoly, Pool.read, Pool.update, bind, Except.bind, hp, hx,
      pure, Except.pure]; rfl, ?_⟩
    exact ⟨by simp [hp], by simpa using ht, by simpa [Valid] using hf, trivial⟩
  | slot k =>
    rw [hx] at hn
    have hk : k < ms.length := hn
    refine ⟨_, by simp [CG_FreeMarkPoly, Pool.read, Pool.update, bind, Except.bind, hp, hx,
      pure, Except.pure, List.getElem?_eq_getElem hk]; rfl, ?_⟩
    refine ⟨by simp [hp], by simpa using ht, ?_, trivial⟩
    cases f <;> simp_all [Valid]

theorem evict_stuck {t : Int} : ∀ (fuel : Nat) {p : Pool}, Stuck t p →
    evictLoop t fuel p = .error .outOfFuel
  | 0, _, _ => rfl
  | n + 1, p, h => by
    obtain ⟨p', hfree, h'⟩ := stuck_step h
    have ih := evict_stuck n h'
    obtain ⟨hp, ht, -, -⟩ := h
    simp [evictLoop, hp, Pool.read, bind, Except.bind, ht, hfree, ih]

/-- When every active mark carries the `time` being evicted and the list head's own
`time` field equals it too, the loop of `CG_AllocMark` never exits: it frees every mark,
then frees the list head over and over. -/
theorem evict_diverges {t : Int} {suf : List Nat} : ∀ {p : Pool} {fr : List Nat},
    Linked p suf fr → (∀ i ∈ suf, timeOf p (.slot i) = t) →
    p.cg_activeMarkPolys.time = t → suf ++ fr ≠ [] →
    ∀ fuel, evictLoop t fuel p = .error .outOfFuel := by
  induction suf using List.reverseRecOn with
  | nil =>
    intro p fr h _ ht hne fuel
    refine evict_stuck fuel ⟨?_, ht, ?_, ?_⟩
    · rw [h.prev_head]; rfl
    · rw [h.next_head]; trivial
    · cases fr with
      | nil => exact absurd rfl hne
      | cons k fr =>
        have := h.free
        rw [List.map_cons, seg_cons] at this
        rw [this.1]
        exact h.bound k (by simp)
  | append_singleton s j ih =>
    intro p fr h hs ht _ fuel
    have hp := h.prev_head
    rw [tailPtr_concat] at hp
    have hj : timeOf p (.slot j) = t := hs j (by simp)
    have h' : Linked p (s ++ j :: []) fr := h
    obtain ⟨p1, hfree, hl1, hd1, hlen1⟩ := free_linked h'
    rw [List.append_nil] at hl1
    have ih' := ih hl1 (fun i hi => by rw [hd1.time]; exact hs i (by simp [hi]))
      (by rw [hd1.headTime]; exact ht) (by simp)
    cases fuel with
    | zero => rfl
    | succ n =>
      obtain ⟨m, hr⟩ := read_of_valid (show Valid p (.slot j) from h.bound j (by simp))
      have hjt : t = m.time := by
        rw [← hj]; simp [timeOf, hr]
      simp [evictLoop, hp, hr, bind, Except.bind, ← hjt, hfree, ih' n]

/-! ## Linking a free mark into the active list -/

theorem seg_insert_last {f f' : Ptr → Ptr} {r : List Ptr} {s a i e : Ptr}
    (h : Seg f s (r ++ [a]) e) (h1 : ∀ x ∈ r, f' x = f x) (ha : f' a = i) (hi : f' i = e) :
    Seg f' s (r ++ [a, i]) e := by
  rw [seg_append] at h ⊢
  obtain ⟨c, hc, hca, -⟩ := h
  exact ⟨c, (seg_congr h1).2 hc, hca, by rw [ha]; exact ⟨rfl, hi⟩⟩

theorem read_active (p : Pool) : p.read .active = .ok p.cg_activeMarkPolys := rfl

theorem link_spec {V : Nat} {p0 : Pool} {k : Nat} {m : markPoly_t}
    (hfree : p0.cg_freeMarkPolys = .slot k) (hm : p0.read (.slot k) = .ok m)
    (hH : Valid p0 p0.cg_activeMarkPolys.nextMark)
    (hHk : p0.cg_activeMarkPolys.nextMark ≠ .slot k) :
    ∃ p', allocLink V p0 = .ok (.slot k, p') ∧ p'.cg_freeMarkPolys = m.nextMark ∧
      p'.cg_markPolys.length = p0.cg_markPolys.length ∧
      (∀ r, nextOf p' r = if r = .active then .slot k
        else if r = .slot k then p0.cg_activeMarkPolys.nextMark else nextOf p0 r) ∧
      (∀ r, prevOf p' r = if r = .slot k then .active
        else if r = p0.cg_activeMarkPolys.nextMark then .slot k else prevOf p0 r) ∧
      (p'.read (.slot k)).map markPoly_t.data = .ok (zeroMark V).data ∧
      (∀ r, r ≠ .slot k → (p'.read r).map markPoly_t.data = (p0.read r).map markPoly_t.data) := by
  obtain ⟨a, f, ms⟩ := p0
  simp only at hfree hH hHk
  subst hfree
  have hk : k < ms.length := valid_of_read hm
  have hmk : ms[k]? = some m := by
    simp only [Pool.read, List.getElem?_eq_getElem hk, Except.ok.injEq] at hm
    simp [List.getElem?_eq_getElem hk, hm]
  cases hx : a.nextMark with
  | null => rw [hx] at hH; exact absurd hH (by simp [Valid])
  | active =>
    refine ⟨_, by simp [allocLink, Pool.read, Pool.update, bind, Except.bind, hx, hmk,
      pure, Except.pure, List.getElem?_set, hk]; rfl, rfl, by simp, ?_, ?_, ?_, ?_⟩
    · intro r
      rcases r with _ | _ | j
      · simp [nextOf, Pool.read]
      · simp [nextOf, Pool.read]
      · by_cases hj : j = k
        · subst hj; simp [nextOf, Pool.read, List.getElem?_set, hk]
        · simp [nextOf, Pool.read, List.getElem?_set, hj, Ne.symm hj]
    · intro r
      rcases r with _ | _ | j
      · simp [prevOf, Pool.read]
      · simp [prevOf, Pool.read]
      · by_cases hj : j = k
        · subst hj; simp [prevOf, Pool.read, List.getElem?_set, hk]
        · simp [prevOf, Pool.read, List.getElem?_set, hj, Ne.symm hj]
    · simp [Pool.read, List.getElem?_set, hk, Except.map, markPoly_t.data]
    · intro r hr
      rcases r with _ | _ | j
      · rfl
      · simp [Pool.read, Except.map, markPoly_t.data]
      · have hj : j ≠ k := fun e => hr (by rw [e])
        simp [Pool.read, List.getElem?_set, hj, Ne.symm hj]
  | slot h =>
    rw [hx] at hH hHk
    have hh : h < ms.length := hH
    have hhk : h ≠ k := fun e => hHk (by rw [e])
    refine ⟨_, by simp [allocLink, Pool.read, Pool.update, bind, Except.bind, hx, hmk,
      pure, Except.pure, List.getElem?_set, hk, hh, hhk, Ne.symm hhk,
      List.getElem?_eq_getElem hh]; rfl, rfl, by simp, ?_, ?_, ?_, ?_⟩
    · intro r
      rcases r with _ | _ | j
      · simp [nextOf, Pool.read]
      · simp [nextOf, Pool.read]
      · by_cases hj : j = k
        · subst hj; simp [nextOf, Pool.read, List.getElem?_set, hk, hhk]
        · by_cases hj2 : j = h
          · subst hj2; simp [nextOf, Pool.read, List.getElem?_set, hj, hh]
          · simp [nextOf, Pool.read, List.getElem?_set, hj, Ne.symm hj, Ne.symm hj2]
    · intro r
      rcases r with _ | _ | j
      · simp [prevOf, Pool.read]
      · simp [prevOf, Pool.read]
      · by_cases hj : j = k
        · subst hj; simp [prevOf, Pool.read, List.getElem?_set, hk, hhk]
        · by_cases hj2 : j = h
          · subst hj2; simp [prevOf, Pool.read, List.getElem?_set, hj, hh]
          · simp [prevOf, Pool.read, List.getElem?_set, hj, Ne.symm hj, Ne.symm hj2, hj2]
    · simp [Pool.read, List.getElem?_set, hk, hhk, Except.map, markPoly_t.data]
    · intro r hr
      rcases r with _ | _ | j
      · rfl
      · simp [Pool.read, Except.map, markPoly_t.data]
      · have hj : j ≠ k := fun e => hr (by rw [e])
        by_cases hj2 : j = h
        · subst hj2
          simp [Pool.read, List.getElem?_set, hj, hh, List.getElem?_eq_getElem hh,
            Except.map, markPoly_t.data]
        · simp [Pool.read, List.getElem?_set, hj, Ne.symm hj, Ne.symm hj2]

/-- The second half of `CG_AllocMark` on a well-linked pool with a non-empty free list:
it returns the head `k` of the free list, cleared, now at the head of the active list,
with the rest of both lists as before. -/
theorem link_linked {V : Nat} {p0 : Pool} {act fr : List Nat} {k : Nat}
    (h : Linked p0 act (k :: fr)) :
    ∃ p', allocLink V p0 = .ok (.slot k, p') ∧ Linked p' (k :: act) fr ∧
      p'.cg_markPolys.length = p0.cg_markPolys.length ∧
      (p'.read (.slot k)).map markPoly_t.data = .ok (zeroMark V).data ∧
      (∀ r, r ≠ .slot k → (p'.read r).map markPoly_t.data = (p0.read r).map markPoly_t.data) := by
  have hnd := h.nodup
  simp [List.nodup_append, List.nodup_cons] at hnd
  obtain ⟨hna, ⟨hkf, hnf⟩, hka, hdaf⟩ := hnd
  have hfree := h.free
  rw [List.map_cons, seg_cons] at hfree
  obtain ⟨hf0, hf1⟩ := hfree
  have hk : k < p0.cg_markPolys.length := h.bound k (by simp)
  obtain ⟨m, hm⟩ := read_of_valid (show Valid p0 (.slot k) from hk)
  rw [nextOf_of_read hm] at hf1
  have hH := h.next_head
  have hfw := h.fwd
  rw [seg_cons, nextOf_of_read (read_active p0)] at hfw
  obtain ⟨r, hr⟩ := cons_reverse_eq_concat .active (act.map Ptr.slot)
  rw [← hH, ← List.map_reverse] at hr
  have hHm : p0.cg_activeMarkPolys.nextMark ∈ Ptr.active :: act.reverse.map Ptr.slot := by
    rw [hr]; simp
  obtain ⟨-, hHv, hHs⟩ := ring_mem (p := p0) hHm fun j hj =>
    h.bound j (by simp [List.mem_reverse.1 hj])
  have hHk : p0.cg_activeMarkPolys.nextMark ≠ .slot k := hHs k (by simpa using hka)
  obtain ⟨p', hal, hfr, hlen, hnext, hprev, hdk, hdo⟩ := link_spec (V := V) hf0 hm hHv hHk
  refine ⟨p', hal, ⟨?_, ?_, ?_, ?_, ?_⟩, hlen, hdk, hdo⟩
  · rw [List.map_cons, seg_cons, seg_cons]
    refine ⟨rfl, by rw [hnext, if_pos rfl], ?_⟩
    rw [hnext, if_neg (by simp), if_pos rfl]
    refine (seg_congr ?_).2 hfw.2
    intro x hx
    obtain ⟨j, hj, rfl⟩ := List.mem_map.1 hx
    have hjk : Ptr.slot j ≠ Ptr.slot k := fun e => hka (by cases e; exact hj)
    rw [hnext, if_neg (by simp), if_neg hjk]
  · have hb := h.bwd
    rw [hr] at hb
    rw [show Ptr.active :: (k :: act).reverse.map Ptr.slot =
      (Ptr.active :: act.reverse.map Ptr.slot) ++ [Ptr.slot k] by simp, hr,
      List.append_assoc, List.singleton_append]
    have hnd2 : (r ++ [p0.cg_activeMarkPolys.nextMark]).Nodup :=
      hr ▸ ring_nodup (List.nodup_reverse.2 hna)
    refine seg_insert_last hb ?_ ?_ ?_
    · intro x hx
      have hxm : x ∈ Ptr.active :: act.reverse.map Ptr.slot := by rw [hr]; simp [hx]
      have hxk := (ring_mem (p := p0) hxm fun j hj =>
        h.bound j (by simp [List.mem_reverse.1 hj])).2.2 k (by simpa using hka)
      rw [hprev, if_neg hxk, if_neg (not_mem_of_concat_nodup hnd2 hx)]
    · rw [hprev, if_neg hHk, if_pos rfl]
    · rw [hprev, if_pos rfl]
  · rw [hfr]
    refine (seg_congr ?_).2 hf1
    intro x hx
    obtain ⟨j, hj, rfl⟩ := List.mem_map.1 hx
    have hjk : Ptr.slot j ≠ Ptr.slot k := fun e => hkf (by cases e; exact hj)
    rw [hnext, if_neg (by simp), if_neg hjk]
  · have hp : (act ++ k :: fr).Perm ((k :: act) ++ fr) := by
      simp
    exact hp.nodup_iff.1 h.nodup
  · intro j hj
    rw [hlen]
    refine h.bound j ?_
    simp only [List.mem_append, List.mem_cons] at hj ⊢
    tauto

/-! ## `CG_AllocMark` on a well-linked pool -/

theorem Linked.free_head {p : Pool} {act fr : List Nat} (h : Linked p act fr) :
    p.cg_freeMarkPolys = (fr.map Ptr.slot).headD .null := seg_headD h.free

/-- With a non-empty free list `CG_AllocMark` skips the eviction block. -/
theorem alloc_of_free {V : Nat} {p : Pool} {act fr : List Nat} {k : Nat}
    (h : Linked p act (k :: fr)) (fuel : Nat) :
    CG_AllocMark V fuel p = allocLink V p := by
  have hf := h.free_head
  simp only [List.map_cons, List.headD_cons] at hf
  simp [CG_AllocMark, evictOldest, hf, bind, Except.bind, pure, Except.pure]

/-- With an empty free list `CG_AllocMark` runs the eviction loop for the `time` of the
last active mark. -/
theorem alloc_of_full {V : Nat} {p : Pool} {act : List Nat} {j : Nat}
    (h : Linked p (act ++ [j]) []) (fuel : Nat) :
    CG_AllocMark V fuel p =
      (evictLoop (timeOf p (.slot j)) fuel p).bind (allocLink V) := by
  have hf := h.free_head
  simp only [List.map_nil, List.headD_nil] at hf
  have hp := h.prev_head
  rw [tailPtr_concat] at hp
  obtain ⟨m, hr⟩ := read_of_valid (show Valid p (.slot j) from h.bound j (by simp))
  simp [CG_AllocMark, evictOldest, hf, hp, hr, timeOf, bind, Except.bind]

/-- Batch eviction. The free list is empty and the active list is `pre ++ k :: rest`,
where the marks `k :: rest` all carry the `time` `t` and the mark before them (the list
head when `pre` is empty) carries another: with more fuel than there are such marks,
`CG_AllocMark` returns `k`, leaves `pre` behind it on the active list and `rest` on the
free list; with less it runs out of fuel. -/
theorem alloc_evict {V : Nat} {t : Int} {p : Pool} {pre rest : List Nat} {k : Nat}
    (h : Linked p (pre ++ k :: rest) [])
    (hs : ∀ i ∈ k :: rest, timeOf p (.slot i) = t)
    (hstop : timeOf p (tailPtr pre) ≠ t) :
    ∃ p', (∀ fuel, CG_AllocMark V fuel p =
        if (k :: rest).length < fuel then .ok (.slot k, p') else .error .outOfFuel) ∧
      Linked p' (k :: pre) rest ∧
      p'.cg_markPolys.length = p.cg_markPolys.length ∧
      (p'.read (.slot k)).map markPoly_t.data = .ok (zeroMark V).data ∧
      (∀ r, r ≠ .slot k → (p'.read r).map markPoly_t.data = (p.read r).map markPoly_t.data) := by
  obtain ⟨p0, hloop, hl0, hd0, hlen0⟩ := evict_ok h hs hstop
  rw [List.append_nil] at hl0
  obtain ⟨p', hal, hl', hlen', hdk, hdo⟩ := link_linked (V := V) hl0
  refine ⟨p', ?_, hl', hlen'.trans hlen0, hdk, fun r hr => (hdo r hr).trans (hd0 r)⟩
  intro fuel
  obtain ⟨l, j, hlj⟩ : ∃ l j, pre ++ k :: rest = l ++ [j] := by
    rcases List.eq_nil_or_concat (pre ++ k :: rest) with e | ⟨l, j, e⟩
    · simp at e
    · exact ⟨l, j, by rw [e, List.concat_eq_append]⟩
  have hj : j ∈ k :: rest := by
    have e := congrArg List.getLast? hlj
    rw [List.getLast?_append_cons, List.getLast?_concat] at e
    exact List.mem_of_getLast?_eq_some e
  rw [hlj] at h
  rw [alloc_of_full h, hs j hj, hloop]
  split
  · exact hal
  · rfl

/-- The failure of `CG_AllocMark`. The free list is empty and every active mark carries
the same `time` as the list head's own `time` field: the call never returns. -/
theorem alloc_diverges {V : Nat} {p : Pool} {act : List Nat} (h : Linked p act [])
    (hne : act ≠ []) (hs : ∀ i ∈ act, timeOf p (.slot i) = p.cg_activeMarkPolys.time)
    (fuel : Nat) : CG_AllocMark V fuel p = .error .outOfFuel := by
  rcases List.eq_nil_or_concat act with e | ⟨l, j, e⟩
  · exact absurd e hne
  · rw [List.concat_eq_append] at e
    subst e
    rw [alloc_of_full h, hs j (by simp), evict_diverges h hs rfl (by simp)]
    rfl

theorem split_run (P : Nat → Prop) [DecidablePred P] (l : List Nat) :
    ∃ pre suf, l = pre ++ suf ∧ (∀ i ∈ suf, P i) ∧ ∀ j ∈ pre.getLast?, ¬ P j := by
  induction l using List.reverseRecOn with
  | nil => exact ⟨[], [], rfl, by simp, by simp⟩
  | append_singleton l a ih =>
    by_cases ha : P a
    · obtain ⟨pre, suf, e, h1, h2⟩ := ih
      refine ⟨pre, suf ++ [a], by rw [e, List.append_assoc], ?_, h2⟩
      intro i hi
      rcases List.mem_append.1 hi with hi | hi
      · exact h1 i hi
      · rw [List.mem_singleton.1 hi]; exact ha
    · refine ⟨l ++ [a], [], by simp, by simp, ?_⟩
      intro j hj
      rw [List.getLast?_concat] at hj
      cases hj
      exact ha

/-- What `CG_AllocMark` has done whenever it returns, on a well-linked pool with at least
one slot: the returned pointer is a slot `k`, cleared, at the head of the active list;
behind it is a prefix `act'` of the old active list; every slot is still on one of the
two lists; the data of the other slots is untouched. -/
theorem alloc_returns {V fuel : Nat} {p p' : Pool} {act fr : List Nat} {le : Ptr}
    (h : Linked p act fr) (hne : act ++ fr ≠ [])
    (hal : CG_AllocMark V fuel p = .ok (le, p')) :
    ∃ k act' fr', le = .slot k ∧ Linked p' (k :: act') fr' ∧
      act ++ fr = act' ++ k :: fr' ∧ act' <+: act ∧
      p'.cg_markPolys.length = p.cg_markPolys.length ∧
      (p'.read (.slot k)).map markPoly_t.data = .ok (zeroMark V).data ∧
      (∀ r, r ≠ .slot k → (p'.read r).map markPoly_t.data = (p.read r).map markPoly_t.data) := by
  cases fr with
  | cons k fr =>
    obtain ⟨q, hq, hl, hlen, hdk, hdo⟩ := link_linked (V := V) h
    rw [alloc_of_free h, hq] at hal
    cases hal
    exact ⟨k, act, fr, rfl, hl, rfl, List.prefix_refl _, hlen, hdk, hdo⟩
  | nil =>
    rw [List.append_nil] at hne
    obtain ⟨l, j, e⟩ : ∃ l j, act = l ++ [j] := by
      rcases List.eq_nil_or_concat act with e | ⟨l, j, e⟩
      · exact absurd e hne
      · exact ⟨l, j, by rw [e, List.concat_eq_append]⟩
    obtain ⟨pre, suf, e2, hs, hpre⟩ :=
      split_run (fun i => timeOf p (.slot i) = timeOf p (.slot j)) act
    cases suf with
    | nil =>
      rw [List.append_nil] at e2
      rw [← e2, e, List.getLast?_concat] at hpre
      exact absurd rfl (hpre j rfl)
    | cons k rest =>
      by_cases hstop : timeOf p (tailPtr pre) = timeOf p (.slot j)
      · rcases List.eq_nil_or_concat pre with e3 | ⟨l', j', e3⟩
        · subst e3
          rw [List.nil_append] at e2
          have hall : ∀ i ∈ act, timeOf p (.slot i) = p.cg_activeMarkPolys.time := by
            intro i hi
            rw [e2] at hi
            rw [hs i hi, ← hstop]
            rfl
          rw [alloc_diverges h hne hall] at hal
          cases hal
        · rw [List.concat_eq_append] at e3
          subst e3
          rw [tailPtr_concat] at hstop
          rw [List.getLast?_concat] at hpre
          exact absurd hstop (hpre j' rfl)
      · rw [List.append_nil]
        subst e2
        obtain ⟨q, hq, hl, hlen, hdk, hdo⟩ := alloc_evict (V := V) h hs hstop
        rw [hq] at hal
        split at hal
        · cases hal
          exact ⟨k, pre, rest, rfl, hl, rfl, List.prefix_append _ _, hlen, hdk, hdo⟩
        · cases hal

/-! ## Writes that leave the links alone -/

theorem linked_congr {p p' : Pool} {act fr : List Nat} (h : Linked p act fr)
    (hn : ∀ r, nextOf p' r = nextOf p r) (hp : ∀ r, prevOf p' r = prevOf p r)
    (hf : p'.cg_freeMarkPolys = p.cg_freeMarkPolys)
    (hl : p'.cg_markPolys.length = p.cg_markPolys.length) : Linked p' act fr :=
  ⟨(seg_congr fun x _ => hn x).2 h.fwd, (seg_congr fun x _ => hp x).2 h.bwd,
    hf ▸ (seg_congr fun x _ => hn x).2 h.free, h.nodup, fun i hi => hl ▸ h.bound i hi⟩

/-- Overwriting the data fields of a slot keeps both lists as they are. -/
theorem update_data_linked {p : Pool} {act fr : List Nat} {k : Nat} {m : markPoly_t}
    (h : Linked p act fr) (hm : p.read (.slot k) = .ok m) (f : markPoly_t → markPoly_t)
    (hfn : (f m).nextMark = m.nextMark) (hfp : (f m).prevMark = m.prevMark) :
    ∃ p', p.update (.slot k) f = .ok p' ∧ Linked p' act fr ∧
      p'.cg_markPolys.length = p.cg_markPolys.length ∧
      p'.read (.slot k) = .ok (f m) ∧ (∀ r, r ≠ .slot k → p'.read r = p.read r) ∧
      p'.cg_freeMarkPolys = p.cg_freeMarkPolys := by
  obtain ⟨p', hu, hf, hl, hr, ho⟩ := update_spec f hm
  refine ⟨p', hu, linked_congr h ?_ ?_ hf hl, hl, hr, ho, hf⟩
  · intro r
    by_cases e : r = .slot k
    · subst e; rw [nextOf_of_read hr, nextOf_of_read hm, hfn]
    · unfold nextOf; rw [ho r e]
  · intro r
    by_cases e : r = .slot k
    · subst e; rw [prevOf_of_read hr, prevOf_of_read hm, hfp]
    · unfold prevOf; rw [ho r e]

/-! ## `CG_ImpactMark` on a well-linked pool -/

theorem timeOf_of_read {p : Pool} {q : Ptr} {m : markPoly_t} (h : p.read q = .ok m) :
    timeOf p q = m.time := by simp [timeOf, h]

theorem timeOf_congr {p p' : Pool} {q : Ptr} (h : dataOf p' q = dataOf p q) :
    timeOf p' q = timeOf p q := by
  unfold dataOf at h
  unfold timeOf
  cases h1 : p'.read q <;> cases h2 : p.read q <;> simp [h1, h2, Except.map] at h ⊢
  have := congrArg markPoly_t.time h
  simpa [markPoly_t.data] using this

/-- Storing one fragment: whenever it returns, the new mark `k` is at the head of the
active list and holds the stamped data, a prefix of the old active list is behind it,
no slot is lost, and no other slot's data has changed. -/
theorem storeMark_spec {V fuel : Nat} {cg : Globals} {a : ImpactArgs} {n : Nat}
    {verts : List polyVert_t} {p p2 : Pool} {act fr : List Nat}
    (h : Linked p act fr) (hne : act ++ fr ≠ [])
    (hst : storeMark V fuel cg a n verts p = .ok p2) :
    ∃ k act' fr', Linked p2 (k :: act') fr' ∧ act ++ fr = act' ++ k :: fr' ∧ act' <+: act ∧
      p2.cg_markPolys.length = p.cg_markPolys.length ∧
      dataOf p2 (.slot k) = .ok (stampMark cg a n verts (zeroMark V)).data ∧
      (∀ r, r ≠ .slot k → dataOf p2 r = dataOf p r) := by
  unfold storeMark at hst
  cases hal : CG_AllocMark V fuel p with
  | error e => simp [hal, bind, Except.bind] at hst
  | ok r =>
    obtain ⟨le, p1⟩ := r
    obtain ⟨k, act', fr', rfl, hl, hperm, hpre, hlen, hdk, hdo⟩ := alloc_returns h hne hal
    simp only [hal, bind, Except.bind] at hst
    obtain ⟨m, hm⟩ := read_of_valid (show Valid p1 (.slot k) from hl.bound k (by simp))
    obtain ⟨q, hu, hl2, hlen2, hr2, ho2, -⟩ :=
      update_data_linked hl hm (stampMark cg a n verts) rfl rfl
    rw [hu] at hst
    cases hst
    refine ⟨k, act', fr', hl2, hperm, hpre, hlen2.trans hlen, ?_, ?_⟩
    · rw [hm] at hdk
      simp only [Except.map, Except.ok.injEq] at hdk
      have hv : m.verts = (zeroMark V).verts := by
        have := congrArg markPoly_t.verts hdk
        simpa [markPoly_t.data] using this
      simp [dataOf, hr2, Except.map, markPoly_t.data, stampMark, hv]
    · intro r hr
      unfold dataOf
      rw [ho2 r hr]
      exact hdo r hr

theorem timeOf_of_dataOf {p : Pool} {q : Ptr} {d : markPoly_t} (h : dataOf p q = .ok d) :
    timeOf p q = d.time := by
  unfold dataOf at h
  unfold timeOf
  cases h1 : p.read q <;> simp [h1, Except.map] at h ⊢
  rw [← h]
  rfl

theorem prefix_split {A new act : List Nat} (h : A <+: new ++ act) :
    ∃ new1 act1, A = new1 ++ act1 ∧ new1 <+: new ∧ act1 <+: act ∧ (act1 ≠ [] → new1 = new) := by
  rcases Nat.le_total A.length new.length with hle | hle
  · exact ⟨A, [], by simp, List.prefix_of_prefix_length_le h (List.prefix_append _ _) hle,
      List.nil_prefix, fun e => absurd rfl e⟩
  · obtain ⟨t, rfl⟩ := List.prefix_of_prefix_length_le (List.prefix_append _ _) h hle
    exact ⟨new, t, rfl, List.prefix_refl _, (List.prefix_append_right_inj new).1 h, fun _ => rfl⟩

theorem fragmentVerts_length (origin axis1 axis2 : Vec3) (tcs : ℚ) (colors : Chan4 Nat)
    (mpts : List Vec3) (mf : markFragment_t) (n : Nat) :
    (fragmentVerts origin axis1 axis2 tcs colors mpts mf n).length = n := by
  simp [fragmentVerts]

theorem fragmentVerts_modulate {origin axis1 axis2 : Vec3} {tcs : ℚ} {colors : Chan4 Nat}
    {mpts : List Vec3} {mf : markFragment_t} {n : Nat} {v : polyVert_t}
    (hv : v ∈ fragmentVerts origin axis1 axis2 tcs colors mpts mf n) : v.modulate = colors := by
  simp only [fragmentVerts, List.mem_map] at hv
  obtain ⟨j, -, rfl⟩ := hv
  rfl

/-- The fragment loop of `CG_ImpactMark`, whenever it returns. The active list then is
`new' ++ act'`: marks stamped with the current time, in front of a prefix `act'` of the
old active list whose data is untouched; no slot is lost. -/
theorem impactLoop_spec {V fuel : Nat} {cg : Globals} {a : ImpactArgs} {axis1 axis2 : Vec3}
    {tcs : ℚ} {colors : Chan4 Nat} {mpts : List Vec3} :
    ∀ (frags : List markFragment_t) {s s' : State} {out out' : List Poly}
      {new act fr : List Nat},
      Linked s.pool (new ++ act) fr → new ++ act ++ fr ≠ [] →
      (∀ i ∈ new, ∃ d, dataOf s.pool (.slot i) = .ok d ∧ Stamped V cg a colors d) →
      impactLoop V fuel cg a axis1 axis2 tcs colors mpts frags s out = .ok (s', out') →
      ∃ new' act' fr', Linked s'.pool (new' ++ act') fr' ∧ act' <+: act ∧
        (new' ++ act' ++ fr').Perm (new ++ act ++ fr) ∧
        (∀ i ∈ new', ∃ d, dataOf s'.pool (.slot i) = .ok d ∧ Stamped V cg a colors d) ∧
        (∀ i ∈ act', dataOf s'.pool (.slot i) = dataOf s.pool (.slot i)) ∧
        dataOf s'.pool .active = dataOf s.pool .active ∧
        s'.pool.cg_markPolys.length = s.pool.cg_markPolys.length := by
  intro frags
  induction frags with
  | nil =>
    intro s s' out out' new act fr h _ hnew hrun
    simp only [impactLoop, Except.ok.injEq, Prod.mk.injEq] at hrun
    obtain ⟨rfl, -⟩ := hrun
    exact ⟨new, act, fr, h, List.prefix_refl _, List.Perm.refl _, hnew, fun _ _ => rfl, rfl, rfl⟩
  | cons mf rest ih =>
    intro s s' out out' new act fr h hne hnew hrun
    rw [impactLoop] at hrun
    by_cases htmp : a.temporary = true
    · simp only [htmp, if_true] at hrun
      exact ih h hne hnew hrun
    · simp only [htmp] at hrun
      generalize hn : (if mf.numPoints > V then V else mf.numPoints) = n at hrun
      generalize hvs : fragmentVerts a.origin axis1 axis2 tcs colors mpts mf n = verts at hrun
      cases hst : storeMark V fuel cg a n verts s.pool with
      | error e => simp [hst, bind, Except.bind] at hrun
      | ok p2 =>
        simp only [hst, bind, Except.bind] at hrun
        obtain ⟨k, A, fr1, hl2, hcat, hpre, hlen2, hdk, hdo⟩ :=
          storeMark_spec h (by simpa using hne) hst
        obtain ⟨new1, act1, rfl, hn1, ha1, -⟩ := prefix_split hpre
        have hnd := hl2.nodup
        have hkA : k ∉ new1 ++ act1 := by
          simp [List.nodup_append, List.nodup_cons] at hnd
          simp; tauto
        have hne' : ∀ i ∈ new1 ++ act1, Ptr.slot i ≠ Ptr.slot k := by
          intro i hi e
          cases e
          exact hkA hi
        have hl2' : Linked p2 ((k :: new1) ++ act1) fr1 := by simpa using hl2
        obtain ⟨new', act', fr', hl', hpre', hperm', hnew', hdata', hhead', hlen'⟩ :=
          ih (s := { s with pool := p2, markTotal := s.markTotal + 1 }) hl2' (by simp) (by
            intro i hi
            rcases List.mem_cons.1 hi with rfl | hi
            · exact ⟨_, hdk, n, verts, by rw [← hvs, fragmentVerts_length],
                fun v hv => fragmentVerts_modulate (hvs ▸ hv), rfl⟩
            · rw [hdo _ (hne' i (by simp [hi]))]
              exact hnew i (hn1.subset hi)) hrun
        refine ⟨new', act', fr', hl', hpre'.trans ha1, hperm'.trans ?_, hnew', ?_, ?_, ?_⟩
        · rw [hcat]
          have e1 : k :: new1 ++ act1 ++ fr1 = k :: ((new1 ++ act1) ++ fr1) := by simp
          rw [e1]
          exact List.perm_middle.symm
        · intro i hi
          rw [hdata' i hi]
          exact hdo _ (hne' i (by simp [hpre'.subset hi]))
        · rw [hhead']
          exact hdo _ (by simp)
        · exact hlen'.trans hlen2

/-- What `CG_ImpactMark` has done, whenever it returns, on a well-linked pool. -/
theorem impact_spec {V fuel : Nat} {E : Engine} {cg : Globals} {a : ImpactArgs}
    {s s' : State} {out : List Poly} {act fr : List Nat}
    (h : Linked s.pool act fr) (hne : act ++ fr ≠ [])
    (hrun : CG_ImpactMark V fuel E cg a s = .ok (s', out)) :
    ∃ new' act' fr', Linked s'.pool (new' ++ act') fr' ∧ act' <+: act ∧
      (new' ++ act' ++ fr').Perm (act ++ fr) ∧
      (∀ i ∈ new', timeOf s'.pool (.slot i) = cg.cg_time) ∧
      (∀ i ∈ act', dataOf s'.pool (.slot i) = dataOf s.pool (.slot i)) ∧
      dataOf s'.pool .active = dataOf s.pool .active ∧
      s'.pool.cg_markPolys.length = s.pool.cg_markPolys.length ∧
      ∀ i ∈ new', ∃ d, dataOf s'.pool (.slot i) = .ok d ∧
        Stamped V cg a (packColors a.red a.green a.blue a.alpha) d := by
  unfold CG_ImpactMark at hrun
  simp only at hrun
  split at hrun
  · simp only [Except.ok.injEq, Prod.mk.injEq] at hrun
    obtain ⟨rfl, -⟩ := hrun
    refine ⟨[], act, fr, ?_, List.prefix_refl _, List.Perm.refl _, by simp, ?_, ?_, ?_, by simp⟩
    · split <;> simpa using h
    · intro i _; split <;> rfl
    · split <;> rfl
    · split <;> rfl
  · split at hrun
    · cases hrun
    · have h' : Linked (if a.debug = true then { s with lastImpactOrigin := a.origin } else s).pool
          ([] ++ act) fr := by split <;> simpa using h
      obtain ⟨new', act', fr', hl, hpre, hperm, hnew, hdata, hhead, hlen⟩ :=
        impactLoop_spec _ h' (by simpa using hne) (by simp) hrun
      refine ⟨new', act', fr', hl, hpre, by simpa using hperm, ?_, ?_, ?_, ?_, hnew⟩
      · intro i hi
        obtain ⟨d, hd, n, verts, -, -, rfl⟩ := hnew i hi
        rw [timeOf_of_dataOf hd]
        rfl
      · intro i hi; rw [hdata i hi]; split <;> rfl
      · rw [hhead]; split <;> rfl
      · rw [hlen]; split <;> rfl

/-! ## The fade of one mark -/

theorem forVerts_length (n : Nat) (f : polyVert_t → polyVert_t) (vs : List polyVert_t) :
    (forVerts n f vs).length = vs.length := by
  simp [forVerts]
  omega

theorem energyStep_fields (T : Int) (m : markPoly_t) :
    energyStep T m = { m with verts := (energyStep T m).verts } := by
  unfold energyStep
  split <;> [skip; rfl]
  simp only
  split <;> [skip; rfl]
  split <;> rfl

theorem timeFadeStep_fields {T L F : Int} {m m' : markPoly_t}
    (h : timeFadeStep T L F m = .ok m') : m' = { m with verts := m'.verts } := by
  unfold timeFadeStep at h
  simp only at h
  split at h
  · split at h
    · cases h
    · split at h
      · cases h; rfl
      · split at h <;> (cases h; rfl)
  · cases h; rfl

/-- The fade changes nothing but the vertex array. -/
theorem fadeMark_fields {T L F : Int} {m m' : markPoly_t}
    (h : fadeMark T L F m = .ok m') : m' = { m with verts := m'.verts } := by
  unfold fadeMark at h
  have h1 := timeFadeStep_fields h
  rw [energyStep_fields] at h1
  exact h1

/-- The fade of a mark that has not expired never divides by zero. -/
theorem fadeMark_ok {T L F : Int} (m : markPoly_t) (h : ¬ T > wrap32 (m.time + L)) :
    ∃ m', fadeMark T L F m = .ok m' := by
  unfold fadeMark
  have ht : (energyStep T m).time = m.time := by rw [energyStep_fields]
  unfold timeFadeStep
  simp only [ht]
  split
  · split
    · omega
    · split
      · exact ⟨_, rfl⟩
      · split <;> exact ⟨_, rfl⟩
  · exact ⟨_, rfl⟩

theorem energyStep_setLinks (T : Int) (m : markPoly_t) (a b : Ptr) :
    energyStep T { m with prevMark := a, nextMark := b } =
      { energyStep T m with prevMark := a, nextMark := b } := by
  unfold energyStep energyFade
  simp only
  split_ifs <;> rfl

theorem timeFadeStep_setLinks (T L F : Int) (m : markPoly_t) (a b : Ptr) :
    timeFadeStep T L F { m with prevMark := a, nextMark := b } =
      (timeFadeStep T L F m).map fun x => { x with prevMark := a, nextMark := b } := by
  unfold timeFadeStep
  simp only
  split_ifs <;> rfl

/-- The fade does not look at the links. -/
theorem fadeMark_setLinks (T L F : Int) (m : markPoly_t) (a b : Ptr) :
    fadeMark T L F { m with prevMark := a, nextMark := b } =
      (fadeMark T L F m).map fun x => { x with prevMark := a, nextMark := b } := by
  unfold fadeMark
  rw [energyStep_setLinks, timeFadeStep_setLinks]

theorem fadeMark_data (T L F : Int) (m : markPoly_t) :
    fadeMark T L F m.data = (fadeMark T L F m).map markPoly_t.data :=
  fadeMark_setLinks T L F m .null .null

/-! ## `CG_AddMarks` on a well-linked pool -/

theorem aliveIn_congr {T L : Int} {p p' : Pool} {i : Nat}
    (h : dataOf p' (.slot i) = dataOf p (.slot i)) : aliveIn T L p' i = aliveIn T L p i := by
  unfold aliveIn
  rw [timeOf_congr h]

theorem fadedData_congr {T L F : Int} {p p' : Pool} {i : Nat}
    (h : dataOf p' (.slot i) = dataOf p (.slot i)) :
    fadedData T L F p' i = fadedData T L F p i := by
  unfold fadedData
  rw [h]

theorem fadedData_of_read {T L F : Int} {p : Pool} {i : Nat} {m m1 : markPoly_t}
    (hm : p.read (.slot i) = .ok m) (hf : fadeMark T L F m = .ok m1) :
    fadedData T L F p i = m1.data := by
  simp [fadedData, dataOf, hm, Except.map, fadeMark_data, hf]

theorem markPoly_data (m : markPoly_t) : markPoly m.data = markPoly m := rfl

theorem Linked.next_at {p : Pool} {l1 l2 fr : List Nat} {i : Nat}
    (h : Linked p (l1 ++ i :: l2) fr) : nextOf p (.slot i) = (l2.map Ptr.slot).headD .active := by
  have hf := h.fwd
  rw [show Ptr.active :: (l1 ++ i :: l2).map Ptr.slot =
      (Ptr.active :: l1.map Ptr.slot) ++ Ptr.slot i :: l2.map Ptr.slot by simp, seg_append] at hf
  obtain ⟨c, -, -, hf2⟩ := hf
  exact seg_headD hf2

/-- One pass of the loop of `CG_AddMarks` over the rest `todo` of the active list. With more
fuel than `todo` is long it returns: the expired marks of `todo` have moved to the free
list, the others stay in order, hold their faded data and have been submitted once each,
in order; nothing else has changed. With less fuel it runs out. -/
theorem addLoop_spec {T L F : Int} : ∀ (todo : List Nat) {p : Pool} {done fr : List Nat}
    {out : List Poly}, Linked p (done ++ todo) fr →
    ∃ p', (∀ fuel, addLoop T L F fuel ((todo.map Ptr.slot).headD .active) p out =
        if todo.length < fuel then
          .ok (p', out ++ (todo.filter (aliveIn T L p)).map fun i => markPoly (fadedData T L F p i))
        else .error .outOfFuel) ∧
      Linked p' (done ++ todo.filter (aliveIn T L p))
        ((todo.filter fun i => !aliveIn T L p i).reverse ++ fr) ∧
      (∀ i ∈ todo, aliveIn T L p i = true → dataOf p' (.slot i) = .ok (fadedData T L F p i)) ∧
      (∀ r, (∀ i ∈ todo, aliveIn T L p i = true → r ≠ .slot i) → dataOf p' r = dataOf p r) ∧
      p'.cg_markPolys.length = p.cg_markPolys.length := by
  intro todo
  induction todo with
  | nil =>
    intro p done fr out h
    refine ⟨p, ?_, by simpa using h, by simp, fun _ _ => rfl, rfl⟩
    intro fuel
    cases fuel with
    | zero => rfl
    | succ n => simp [addLoop]
  | cons i rest ih =>
    intro p done fr out h
    have hnd := h.nodup
    simp [List.nodup_append, List.nodup_cons] at hnd
    obtain ⟨-, ⟨⟨hir, hif⟩, -, -, -⟩, hid, -, -⟩ := hnd
    obtain ⟨m, hm⟩ := read_of_valid (show Valid p (.slot i) from h.bound i (by simp))
    have hnext : m.nextMark = (rest.map Ptr.slot).headD .active := by
      rw [← nextOf_of_read hm]; exact h.next_at
    have htime := timeOf_of_read hm
    have hne : ∀ j ∈ rest, Ptr.slot j ≠ Ptr.slot i := by
      intro j hj e
      cases e
      exact hir hj
    by_cases hal : aliveIn T L p i = true
    · -- the mark stays: fade it, submit it, go on
      have hnx : ¬ T > wrap32 (m.time + L) := by simpa [aliveIn, htime] using hal
      obtain ⟨m1, hf⟩ := fadeMark_ok (F := F) m hnx
      have hfl := fadeMark_fields hf
      obtain ⟨p1, hu, hl1, hlen1, hr1, ho1, -⟩ :=
        update_data_linked h hm (fun _ => m1) (by rw [hfl]) (by rw [hfl])
      have hd1 : ∀ j ∈ rest, dataOf p1 (.slot j) = dataOf p (.slot j) := by
        intro j hj
        unfold dataOf
        rw [ho1 _ (hne j hj)]
      have hl1' : Linked p1 ((done ++ [i]) ++ rest) fr := by simpa using hl1
      obtain ⟨p', hloop, hl', hda', hdo', hlen'⟩ := @ih p1 (done ++ [i]) fr (out ++ [markPoly m1]) hl1'
      have hfa : rest.filter (aliveIn T L p1) = rest.filter (aliveIn T L p) :=
        List.filter_congr fun j hj => aliveIn_congr (hd1 j hj)
      have hfe : (rest.filter fun j => !aliveIn T L p1 j) =
          rest.filter fun j => !aliveIn T L p j :=
        List.filter_congr fun j hj => by rw [aliveIn_congr (hd1 j hj)]
      have hfd : ∀ j ∈ rest, fadedData T L F p1 j = fadedData T L F p j :=
        fun j hj => fadedData_congr (hd1 j hj)
      have hfi : fadedData T L F p i = m1.data := fadedData_of_read hm hf
      refine ⟨p', ?_, ?_, ?_, ?_, hlen'.trans hlen1⟩
      · intro fuel
        cases fuel with
        | zero => rfl
        | succ n =>
          have hmap : (rest.filter (aliveIn T L p)).map (fun j => markPoly (fadedData T L F p1 j))
              = (rest.filter (aliveIn T L p)).map fun j => markPoly (fadedData T L F p j) :=
            List.map_congr_left fun j hj => by rw [hfd j (List.mem_filter.1 hj).1]
          have step : addLoop T L F (n + 1) (.slot i) p out =
              addLoop T L F n ((rest.map Ptr.slot).headD .active) p1 (out ++ [markPoly m1]) := by
            simp [addLoop, hm, bind, Except.bind, hnx, hf, hu, hnext]
          rw [List.map_cons, List.headD_cons, step, hloop n, hfa, hmap]
          simp [List.filter_cons, hal, hfi, markPoly_data]
      · rw [hfa, hfe] at hl'
        simpa [List.filter_cons, hal] using hl'
      · intro j hj hja
        rcases List.mem_cons.1 hj with rfl | hj
        · rw [hdo' _ fun k hk _ => (hne k hk).symm, hfi]
          simp [dataOf, hr1, Except.map]
        · rw [hda' j hj (by rw [aliveIn_congr (hd1 j hj)]; exact hja), hfd j hj]
      · intro r hr
        have hri : r ≠ .slot i := hr i (by simp) hal
        rw [hdo' r fun k hk hka => hr k (by simp [hk]) (by rw [← aliveIn_congr (hd1 k hk)]; exact hka)]
        unfold dataOf
        rw [ho1 r hri]
    · -- the mark has expired: free it, go on
      have hx : T > wrap32 (m.time + L) := by simpa [aliveIn, htime] using hal
      obtain ⟨p1, hfree, hl1, hsd, hlen1⟩ := free_linked h
      have hd1 : ∀ r, dataOf p1 r = dataOf p r := hsd
      obtain ⟨p', hloop, hl', hda', hdo', hlen'⟩ := @ih p1 done (i :: fr) out hl1
      have hfa : rest.filter (aliveIn T L p1) = rest.filter (aliveIn T L p) :=
        List.filter_congr fun j _ => aliveIn_congr (hd1 _)
      have hfe : (rest.filter fun j => !aliveIn T L p1 j) =
          rest.filter fun j => !aliveIn T L p j :=
        List.filter_congr fun j _ => by rw [aliveIn_congr (hd1 _)]
      have hfd : ∀ j, fadedData T L F p1 j = fadedData T L F p j :=
        fun j => fadedData_congr (hd1 _)
      refine ⟨p', ?_, ?_, ?_, ?_, hlen'.trans hlen1⟩
      · intro fuel
        cases fuel with
        | zero => rfl
        | succ n =>
          have step : addLoop T L F (n + 1) (.slot i) p out =
              addLoop T L F n ((rest.map Ptr.slot).headD .active) p1 out := by
            simp [addLoop, hm, bind, Except.bind, hx, hfree, hnext]
          rw [List.map_cons, List.headD_cons, step, hloop n, hfa]
          simp [List.filter_cons, hal, hfd]
      · rw [hfa, hfe] at hl'
        simpa [List.filter_cons, hal] using hl'
      · intro j hj hja
        rcases List.mem_cons.1 hj with rfl | hj
        · exact absurd hja hal
        · rw [hda' j hj (by rw [aliveIn_congr (hd1 _)]; exact hja), hfd j]
      · intro r hr
        rw [hdo' r fun k hk hka => hr k (by simp [hk]) (by rw [← aliveIn_congr (hd1 _)]; exact hka)]
        exact hd1 r

/-- One call of `CG_AddMarks` with marks enabled on a well-linked pool. -/
theorem addMarks_spec {cg : Globals} {p : Pool} {act fr : List Nat}
    (h : Linked p act fr) (hon : cg.cg_marks ≠ 0) :
    ∃ p', (∀ fuel, CG_AddMarks fuel cg p =
        if act.length < fuel then
          .ok (p', (act.filter (aliveIn cg.cg_time cg.cg_markTime p)).map fun i =>
            markPoly (fadedData cg.cg_time cg.cg_markTime cg.cg_markFadeTime p i))
        else .error .outOfFuel) ∧
      Linked p' (act.filter (aliveIn cg.cg_time cg.cg_markTime p))
        ((act.filter fun i => !aliveIn cg.cg_time cg.cg_markTime p i).reverse ++ fr) ∧
      (∀ i ∈ act, aliveIn cg.cg_time cg.cg_markTime p i = true →
        dataOf p' (.slot i) =
          .ok (fadedData cg.cg_time cg.cg_markTime cg.cg_markFadeTime p i)) ∧
      (∀ r, (∀ i ∈ act, aliveIn cg.cg_time cg.cg_markTime p i = true → r ≠ .slot i) →
        dataOf p' r = dataOf p r) ∧
      p'.cg_markPolys.length = p.cg_markPolys.length := by
  have h' : Linked p ([] ++ act) fr := by simpa using h
  obtain ⟨p', hloop, hl, hda, hdo, hlen⟩ :=
    @addLoop_spec cg.cg_time cg.cg_markTime cg.cg_markFadeTime act p [] fr [] h'
  refine ⟨p', ?_, by simpa using hl, hda, hdo, hlen⟩
  intro fuel
  unfold CG_AddMarks
  rw [if_neg hon, h.next_head, hloop fuel]
  simp

/-! ## `CG_InitMarkPolys` builds a well-linked pool -/

theorem init_read {N V : Nat} (p : Pool) {i : Nat} (hi : i < N) :
    (CG_InitMarkPolys N V p).read (.slot i) =
      .ok (if i + 1 < N then { zeroMark V with nextMark := .slot (i + 1) } else zeroMark V) := by
  simp [Pool.read, CG_InitMarkPolys, initSlots, hi]

theorem init_next {N V : Nat} (p : Pool) {i : Nat} (hi : i < N) :
    nextOf (CG_InitMarkPolys N V p) (.slot i) = if i + 1 < N then .slot (i + 1) else .null := by
  rw [nextOf_of_read (init_read p hi)]
  split <;> rfl

theorem init_seg {N V : Nat} (p : Pool) : ∀ (n j : Nat), j + n = N →
    Seg (nextOf (CG_InitMarkPolys N V p)) (if j < N then .slot j else .null)
      ((List.range' j n).map Ptr.slot) .null
  | 0, j, h => by
    have : ¬ j < N := by omega
    simp [this]
  | n + 1, j, h => by
    have hj : j < N := by omega
    rw [List.range'_succ, List.map_cons, seg_cons, if_pos hj, init_next p hj]
    exact ⟨rfl, init_seg p n (j + 1) (by omega)⟩

/-- After `CG_InitMarkPolys` the active list is empty and the free list is the chain
slot 0, slot 1, ..., slot `MAX_MARK_POLYS - 1`. -/
theorem init_linked {N V : Nat} (hN : 0 < N) (p : Pool) :
    Linked (CG_InitMarkPolys N V p) [] (List.range N) := by
  refine ⟨⟨rfl, rfl⟩, ⟨rfl, rfl⟩, ?_, by simpa using List.nodup_range N, ?_⟩
  · have := init_seg (N := N) (V := V) p N 0 (by omega)
    rw [if_pos hN] at this
    rw [List.range_eq_range']
    exact this
  · intro i hi
    simpa [CG_InitMarkPolys, initSlots] using hi

/-! ## Reachable states -/

theorem perm_range_ne_nil {N : Nat} (hN : 0 < N) {l : List Nat} (h : l.Perm (List.range N)) :
    l ≠ [] := by
  intro e
  have := h.length_eq
  simp [e] at this
  omega

theorem data_eq_of_dataOf_active {p p' : Pool} (h : dataOf p' .active = dataOf p .active) :
    p'.cg_activeMarkPolys.data = p.cg_activeMarkPolys.data := by
  simpa [dataOf, Pool.read, Except.map] using h

theorem inv_init {N V : Nat} (hN : 0 < N) (p : Pool)
    (hd : p.cg_activeMarkPolys.data = (zeroMark V).data) :
    PoolInv N V (CG_InitMarkPolys N V p) [] (List.range N) :=
  ⟨init_linked hN p, by simp [CG_InitMarkPolys, initSlots], by simp,
    by simpa [CG_InitMarkPolys, markPoly_t.data] using hd⟩

theorem inv_impact {N V fuel : Nat} {E : Engine} {cg : Globals} {a : ImpactArgs}
    {s s' : State} {out : List Poly} {act fr : List Nat} (hN : 0 < N)
    (h : PoolInv N V s.pool act fr)
    (hrun : CG_ImpactMark V fuel E cg a s = .ok (s', out)) :
    ∃ new' act' fr', PoolInv N V s'.pool (new' ++ act') fr' ∧ act' <+: act ∧
      (∀ i ∈ new', timeOf s'.pool (.slot i) = cg.cg_time) ∧
      (∀ i ∈ act', dataOf s'.pool (.slot i) = dataOf s.pool (.slot i)) := by
  obtain ⟨new', act', fr', hl, hpre, hperm, hnew, hdata, hhead, hlen, -⟩ :=
    impact_spec h.linked (perm_range_ne_nil hN h.perm) hrun
  exact ⟨new', act', fr', ⟨hl, hlen.trans h.size, hperm.trans h.perm,
    (data_eq_of_dataOf_active hhead).trans h.headData⟩, hpre, hnew, hdata⟩

theorem fadedData_time {T L F : Int} {p : Pool} {i : Nat} :
    (fadedData T L F p i).time = timeOf p (.slot i) := by
  unfold fadedData dataOf timeOf
  cases hr : p.read (.slot i) with
  | error e => simp [Except.map, zeroMark]
  | ok m =>
    simp only [Except.map]
    cases hf : fadeMark T L F m.data with
    | error e => rfl
    | ok d =>
      simp only
      rw [fadeMark_fields hf]
      rfl

theorem inv_addMarks {N V fuel : Nat} {cg : Globals} {p p' : Pool} {out : List Poly}
    {act fr : List Nat} (h : PoolInv N V p act fr)
    (hrun : CG_AddMarks fuel cg p = .ok (p', out)) :
    ∃ act' fr', PoolInv N V p' act' fr' ∧ act'.Sublist act ∧
      ∀ i ∈ act', timeOf p' (.slot i) = timeOf p (.slot i) := by
  by_cases hon : cg.cg_marks = 0
  · simp only [CG_AddMarks, hon, if_true, Except.ok.injEq, Prod.mk.injEq] at hrun
    obtain ⟨rfl, -⟩ := hrun
    exact ⟨act, fr, h, List.Sublist.refl _, fun _ _ => rfl⟩
  · obtain ⟨q, hq, hl, hda, hdo, hlen⟩ := addMarks_spec h.linked hon
    rw [hq] at hrun
    split at hrun <;> [skip; cases hrun]
    simp only [Except.ok.injEq, Prod.mk.injEq] at hrun
    obtain ⟨rfl, -⟩ := hrun
    refine ⟨_, _, ⟨hl, hlen.trans h.size, ?_, ?_⟩, List.filter_sublist _, ?_⟩
    · refine List.Perm.trans ?_ h.perm
      rw [← List.append_assoc]
      refine List.Perm.append_right fr ?_
      refine (List.Perm.append_left _ (List.reverse_perm _)).trans ?_
      exact List.filter_append_perm _ _
    · exact (data_eq_of_dataOf_active (hdo .active fun _ _ _ => by simp)).trans h.headData
    · intro i hi
      obtain ⟨hia, hal⟩ := List.mem_filter.1 hi
      rw [timeOf_of_dataOf (hda i hia hal), fadedData_time]

theorem reachable_inv {N V : Nat} (hN : 0 < N) {s : State} (h : Reachable N V s) :
    ∃ act fr, PoolInv N V s.pool act fr := by
  induction h with
  | init => exact ⟨[], List.range N, inv_init hN _ rfl⟩
  | reinit _ ih =>
    obtain ⟨act, fr, hi⟩ := ih
    exact ⟨[], List.range N, inv_init hN _ hi.headData⟩
  | impact fuel E cg a _ hrun ih =>
    obtain ⟨act, fr, hi⟩ := ih
    obtain ⟨new', act', fr', hi', -⟩ := inv_impact hN hi hrun
    exact ⟨_, _, hi'⟩
  | addMarks fuel cg _ hrun ih =>
    obtain ⟨act, fr, hi⟩ := ih
    obtain ⟨act', fr', hi', -⟩ := inv_addMarks hi hrun
    exact ⟨_, _, hi'⟩

theorem mono_inv {N V : Nat} (hN : 0 < N) {t : Int} {s : State}
    (h : ReachableMono N V t s) :
    ∃ act fr, PoolInv N V s.pool act fr ∧ (timesOf s.pool act).Pairwise (· ≥ ·) ∧
      ∀ i ∈ act, timeOf s.pool (.slot i) ≤ t := by
  induction h with
  | init t => exact ⟨[], List.range N, inv_init hN _ rfl, by simp [timesOf], by simp⟩
  | reinit _ ih =>
    obtain ⟨act, fr, hi, -⟩ := ih
    exact ⟨[], List.range N, inv_init hN _ hi.headData, by simp [timesOf], by simp⟩
  | @impact t s s' out fuel E cg a _ hle hrun ih =>
    obtain ⟨act, fr, hi, hs, hb⟩ := ih
    obtain ⟨new', act', fr', hi', hpre, hnew, hdata⟩ := inv_impact hN hi hrun
    have htime : ∀ i ∈ act', timeOf s'.pool (.slot i) = timeOf s.pool (.slot i) :=
      fun i hi => timeOf_congr (hdata i hi)
    refine ⟨_, _, hi', ?_, ?_⟩
    · unfold timesOf
      rw [List.map_append, List.pairwise_append]
      refine ⟨?_, ?_, ?_⟩
      · rw [List.pairwise_map]
        exact List.pairwise_of_forall_mem_list fun i hi j hj => by
          rw [hnew i hi, hnew j hj]
      · have e : act'.map (fun i => timeOf s'.pool (.slot i)) = timesOf s.pool act' :=
          List.map_congr_left fun i hi => htime i hi
        rw [e]
        exact hs.sublist (hpre.sublist.map _)
      · intro x hx y hy
        obtain ⟨i, hi, rfl⟩ := List.mem_map.1 hx
        obtain ⟨j, hj, rfl⟩ := List.mem_map.1 hy
        rw [hnew i hi, htime j hj]
        exact (hb j (hpre.subset hj)).trans hle
    · intro i hi
      rcases List.mem_append.1 hi with hi | hi
      · exact le_of_eq (hnew i hi)
      · rw [htime i hi]
        exact (hb i (hpre.subset hi)).trans hle
  | @addMarks t s p' out fuel cg _ hle hrun ih =>
    obtain ⟨act, fr, hi, hs, hb⟩ := ih
    obtain ⟨act', fr', hi', hsub, htime⟩ := inv_addMarks hi hrun
    refine ⟨_, _, hi', ?_, ?_⟩
    · have e : timesOf p' act' = timesOf s.pool act' :=
        List.map_congr_left fun i hi => htime i hi
      show (timesOf p' act').Pairwise (· ≥ ·)
      rw [e]
      exact hs.sublist (hsub.map _)
    · intro i hi
      show timeOf p' (.slot i) ≤ cg.cg_time
      rw [htime i hi]
      exact (hb i (hsub.subset hi)).trans hle

/-! ## Properties of the specification -/

/-- C1 (pool invariant). In every state reachable from `CG_InitMarkPolys` by calls of
`CG_ImpactMark` and `CG_AddMarks` that return, with any clock values and configuration,
there are an active list `act` and a free list `fr` of slot numbers such that the heap
links them as `Linked` says, each of the `MAX_MARK_POLYS` slots occurs exactly once in
`act ++ fr`, the two lists hold `MAX_MARK_POLYS` slots together, the list head
`cg_activeMarkPolys` is not on the free list, and whatever `CG_AllocMark` returns from
such a state is a slot of the array, never the list head. -/
theorem C1_pool_invariant {N V : Nat} (hN : 0 < N) {s : State} (h : Reachable N V s) :
    ∃ act fr, Linked s.pool act fr ∧ (act ++ fr).Perm (List.range N) ∧
      (act ++ fr).Nodup ∧ act.length + fr.length = N ∧
      s.pool.cg_markPolys.length = N ∧ Ptr.active ∉ fr.map Ptr.slot ∧
      ∀ fuel le p', CG_AllocMark V fuel s.pool = .ok (le, p') →
        le ≠ .active ∧ ∃ k, k < N ∧ le = .slot k := by
  obtain ⟨act, fr, hi⟩ := reachable_inv hN h
  refine ⟨act, fr, hi.linked, hi.perm, hi.linked.nodup, ?_, hi.size, by simp, ?_⟩
  · have := hi.perm.length_eq
    simpa using this
  · intro fuel le p' hal
    obtain ⟨k, act', fr', rfl, hl, -, -, hlen, -⟩ :=
      alloc_returns hi.linked (perm_range_ne_nil hN hi.perm) hal
    refine ⟨by simp, k, ?_, rfl⟩
    have := hl.bound k (by simp)
    rw [hlen, hi.size] at this
    exact this

/-- C1, at the pool of two slots right after `CG_InitMarkPolys`. -/
theorem C1_pool_invariant_witness :
    0 < 2 ∧ Reachable 2 1 { bootState 2 1 with pool := CG_InitMarkPolys 2 1 (bootPool 2 1) } ∧
    ∃ act fr, Linked (CG_InitMarkPolys 2 1 (bootPool 2 1)) act fr ∧
      (act ++ fr).Perm (List.range 2) ∧ (act ++ fr).Nodup ∧ act.length + fr.length = 2 ∧
      (CG_InitMarkPolys 2 1 (bootPool 2 1)).cg_markPolys.length = 2 ∧
      Ptr.active ∉ fr.map Ptr.slot ∧
      ∀ fuel le p', CG_AllocMark 1 fuel (CG_InitMarkPolys 2 1 (bootPool 2 1)) = .ok (le, p') →
        le ≠ .active ∧ ∃ k, k < 2 ∧ le = .slot k :=
  ⟨by decide, Reachable.init, C1_pool_invariant (by decide) Reachable.init⟩

/-- When `CG_AllocMark` returns. On a well-linked pool whose list head has `time` 0, with
a non-empty free list or an active mark whose `time` is not 0, the call returns a slot
with more fuel than there are active marks; with an empty free list, at least one active
mark and every active mark of `time` 0 it never returns. -/
theorem alloc_total {V : Nat} {p : Pool} {act fr : List Nat} (h : Linked p act fr)
    (hne : act ++ fr ≠ []) (hh : p.cg_activeMarkPolys.time = 0) :
    ((fr ≠ [] ∨ ∃ i ∈ act, timeOf p (.slot i) ≠ 0) →
      ∃ k p', ∀ fuel, act.length < fuel → CG_AllocMark V fuel p = .ok (.slot k, p')) ∧
    (¬ (fr ≠ [] ∨ ∃ i ∈ act, timeOf p (.slot i) ≠ 0) →
      ∀ fuel, CG_AllocMark V fuel p = .error .outOfFuel) := by
  constructor
  · intro hc
    cases fr with
    | cons k fr =>
      obtain ⟨q, hq, -⟩ := link_linked (V := V) h
      exact ⟨k, q, fun fuel _ => by rw [alloc_of_free h, hq]⟩
    | nil =>
      obtain ⟨i0, hi0, ht0⟩ : ∃ i ∈ act, timeOf p (.slot i) ≠ 0 := by
        rcases hc with hc | hc
        · exact absurd rfl hc
        · exact hc
      obtain ⟨l, j, e⟩ : ∃ l j, act = l ++ [j] := by
        rcases List.eq_nil_or_concat act with e | ⟨l, j, e⟩
        · rw [e] at hi0
          cases hi0
        · exact ⟨l, j, by rw [e, List.concat_eq_append]⟩
      obtain ⟨pre, suf, e2, hs, hpre⟩ :=
        split_run (fun i => timeOf p (.slot i) = timeOf p (.slot j)) act
      cases suf with
      | nil =>
        rw [List.append_nil] at e2
        rw [← e2, e, List.getLast?_concat] at hpre
        exact absurd rfl (hpre j rfl)
      | cons k rest =>
        have hstop : timeOf p (tailPtr pre) ≠ timeOf p (.slot j) := by
          rcases List.eq_nil_or_concat pre with e3 | ⟨l', j', e3⟩
          · subst e3
            rw [List.nil_append] at e2
            rw [e2] at hi0
            rw [← hs i0 hi0]
            intro hx
            apply ht0
            rw [← hx]
            exact hh
          · rw [List.concat_eq_append] at e3
            subst e3
            rw [tailPtr_concat]
            rw [List.getLast?_concat] at hpre
            exact hpre j' rfl
        subst e2
        obtain ⟨q, hq, -⟩ := alloc_evict (V := V) h hs hstop
        refine ⟨k, q, fun fuel hf => ?_⟩
        rw [hq, if_pos]
        rw [List.length_append] at hf
        omega
  · intro hc fuel
    rw [not_or, not_not] at hc
    obtain ⟨hfr, hall⟩ := hc
    subst hfr
    rw [List.append_nil] at hne
    refine alloc_diverges h hne (fun i hi => ?_) fuel
    rw [hh]
    by_contra hx
    exact hall ⟨i, hi, hx⟩

/-- C4 (LIFO active ordering). Whenever `CG_AllocMark` returns from a reachable state the
returned mark is the head of the active list. It does return, for every fuel above
`MAX_MARK_POLYS`, from every reachable state whose free list is not empty or that holds
an active mark of a `time` other than 0, and it never returns from the others. And when
`cg.time` never decreases from one call to the next, in every reachable state the
creation times read along the active list from the head are non-increasing. -/
theorem C4_lifo_order {N V : Nat} (hN : 0 < N) :
    (∀ s fuel le p', Reachable N V s → CG_AllocMark V fuel s.pool = .ok (le, p') →
      p'.cg_activeMarkPolys.nextMark = le ∧
        ∃ k act' fr', le = .slot k ∧ Linked p' (k :: act') fr') ∧
    (∀ s, Reachable N V s → ∃ act fr, Linked s.pool act fr ∧
      ((fr ≠ [] ∨ ∃ i ∈ act, timeOf s.pool (.slot i) ≠ 0) →
        ∃ k p', (∀ fuel, N < fuel → CG_AllocMark V fuel s.pool = .ok (.slot k, p')) ∧
          p'.cg_activeMarkPolys.nextMark = .slot k ∧
          ∃ act' fr', Linked p' (k :: act') fr') ∧
      (¬ (fr ≠ [] ∨ ∃ i ∈ act, timeOf s.pool (.slot i) ≠ 0) →
        ∀ fuel, CG_AllocMark V fuel s.pool = .error .outOfFuel)) ∧
    ∀ t s, ReachableMono N V t s →
      ∃ act fr, Linked s.pool act fr ∧ (timesOf s.pool act).Pairwise (· ≥ ·) := by
  have post : ∀ s fuel le p', Reachable N V s → CG_AllocMark V fuel s.pool = .ok (le, p') →
      p'.cg_activeMarkPolys.nextMark = le ∧
        ∃ k act' fr', le = .slot k ∧ Linked p' (k :: act') fr' := by
    intro s fuel le p' h hal
    obtain ⟨act, fr, hi⟩ := reachable_inv hN h
    obtain ⟨k, act', fr', rfl, hl, -⟩ :=
      alloc_returns hi.linked (perm_range_ne_nil hN hi.perm) hal
    exact ⟨by rw [hl.next_head]; rfl, k, act', fr', rfl, hl⟩
  refine ⟨post, ?_, ?_⟩
  · intro s h
    obtain ⟨act, fr, hi⟩ := reachable_inv hN h
    have hh : s.pool.cg_activeMarkPolys.time = 0 := by
      have e : s.pool.cg_activeMarkPolys.time = s.pool.cg_activeMarkPolys.data.time := rfl
      rw [e, hi.headData]
      rfl
    obtain ⟨hret, hdiv⟩ :=
      alloc_total (V := V) hi.linked (perm_range_ne_nil hN hi.perm) hh
    refine ⟨act, fr, hi.linked, ?_, hdiv⟩
    intro hc
    obtain ⟨k, p', hal⟩ := hret hc
    have hlen : act.length ≤ N := by
      have := hi.perm.length_eq
      simp at this
      omega
    have hal' : ∀ fuel, N < fuel → CG_AllocMark V fuel s.pool = .ok (.slot k, p') :=
      fun fuel hf => hal fuel (lt_of_le_of_lt hlen hf)
    obtain ⟨hhead, k', act', fr', hk, hl⟩ := post s (N + 1) _ _ h (hal' _ (Nat.lt_succ_self N))
    cases hk
    exact ⟨k, p', hal', hhead, act', fr', hl⟩
  · intro t s h
    obtain ⟨act, fr, hi, hs, -⟩ := mono_inv hN h
    exact ⟨act, fr, hi.linked, hs⟩

theorem bulletState_run :
    CG_ImpactMark 4 0 flatEngine ⟨1000, 1, 10000, 1000, 0⟩ bulletArgs freshState2 =
      .ok (bulletState, []) := by
  with_unfolding_all rfl

theorem twoMarkState_run :
    CG_ImpactMark 4 0 flatEngine ⟨5000, 1, 10000, 1000, 0⟩ bulletArgs bulletState =
      .ok (twoMarkState, []) := by
  with_unfolding_all rfl

theorem twoMarkState_reachable : Reachable 2 4 twoMarkState :=
  Reachable.impact 0 flatEngine ⟨5000, 1, 10000, 1000, 0⟩ bulletArgs
    (Reachable.impact 0 flatEngine ⟨1000, 1, 10000, 1000, 0⟩ bulletArgs Reachable.init
      bulletState_run) twoMarkState_run

theorem twoMarkState_mono : ReachableMono 2 4 5000 twoMarkState :=
  ReachableMono.impact 0 flatEngine ⟨5000, 1, 10000, 1000, 0⟩ bulletArgs
    (ReachableMono.impact 0 flatEngine ⟨1000, 1, 10000, 1000, 0⟩ bulletArgs
      (ReachableMono.init 0) (by decide) bulletState_run) (by decide) twoMarkState_run

/-- C4 at `twoMarkState`, the full pool of two slots whose marks were stored at times
1000 and 5000: the active list is slot 1, slot 0 with the times 5000, 1000; the call of
`CG_AllocMark` returns slot 0, the older mark, and leaves it at the head of the active
list in front of slot 1. -/
theorem C4_lifo_order_witness :
    0 < 2 ∧ Reachable 2 4 twoMarkState ∧ ReachableMono 2 4 5000 twoMarkState ∧
    Linked twoMarkState.pool [1, 0] [] ∧ timesOf twoMarkState.pool [1, 0] = [5000, 1000] ∧
    CG_AllocMark 4 3 twoMarkState.pool = .ok twoMarkAlloc ∧
    twoMarkAlloc.1 = .slot 0 ∧ Linked twoMarkAlloc.2 [0, 1] [] ∧
    (twoMarkAlloc.2.cg_activeMarkPolys.nextMark = twoMarkAlloc.1 ∧
      ∃ k act' fr', twoMarkAlloc.1 = .slot k ∧ Linked twoMarkAlloc.2 (k :: act') fr') ∧
    (∃ act fr, Linked twoMarkState.pool act fr ∧
      ((fr ≠ [] ∨ ∃ i ∈ act, timeOf twoMarkState.pool (.slot i) ≠ 0) →
        ∃ k p', (∀ fuel, 2 < fuel → CG_AllocMark 4 fuel twoMarkState.pool = .ok (.slot k, p')) ∧
          p'.cg_activeMarkPolys.nextMark = .slot k ∧
          ∃ act' fr', Linked p' (k :: act') fr') ∧
      (¬ (fr ≠ [] ∨ ∃ i ∈ act, timeOf twoMarkState.pool (.slot i) ≠ 0) →
        ∀ fuel, CG_AllocMark 4 fuel twoMarkState.pool = .error .outOfFuel)) ∧
    ∃ act fr, Linked twoMarkState.pool act fr ∧
      (timesOf twoMarkState.pool act).Pairwise (· ≥ ·) :=
  ⟨by decide, twoMarkState_reachable, twoMarkState_mono, by with_unfolding_all decide,
    by with_unfolding_all rfl, by with_unfolding_all rfl, by with_unfolding_all rfl,
    by with_unfolding_all decide,
    (@C4_lifo_order 2 4 (by decide)).1 twoMarkState 3 twoMarkAlloc.1 twoMarkAlloc.2
      twoMarkState_reachable (by with_unfolding_all rfl),
    (@C4_lifo_order 2 4 (by decide)).2.1 twoMarkState twoMarkState_reachable,
    (@C4_lifo_order 2 4 (by decide)).2.2 5000 twoMarkState twoMarkState_mono⟩

/-- As long as the free list lasts, calls of `CG_AllocMark` in a row return, each moving
the head of the free list to the head of the active list, with `time` zero. -/
theorem allocSeq_of_free {V fuel : Nat} : ∀ (n : Nat) {p : Pool} {act fr : List Nat},
    Linked p act fr → n ≤ fr.length → (∀ i ∈ act, timeOf p (.slot i) = 0) →
    ∃ p', allocSeq V fuel n p = .ok p' ∧ Linked p' ((fr.take n).reverse ++ act) (fr.drop n) ∧
      (∀ i ∈ (fr.take n).reverse ++ act, timeOf p' (.slot i) = 0) ∧
      p'.cg_activeMarkPolys.time = p.cg_activeMarkPolys.time
  | 0, p, act, fr, h, _, ht => ⟨p, rfl, by simpa using h, by simpa using ht, rfl⟩
  | n + 1, p, act, fr, h, hn, ht => by
    cases fr with
    | nil => simp at hn
    | cons k fr =>
      obtain ⟨p1, hal, hl1, -, hdk, hdo⟩ := link_linked (V := V) h
      have hk : ∀ i ∈ act, Ptr.slot i ≠ Ptr.slot k := by
        intro i hi e
        cases e
        have := h.nodup
        simp [List.nodup_append, List.nodup_cons] at this
        tauto
      have ht1 : ∀ i ∈ k :: act, timeOf p1 (.slot i) = 0 := by
        intro i hi
        rcases List.mem_cons.1 hi with rfl | hi
        · rw [timeOf_of_dataOf hdk]; rfl
        · rw [timeOf_congr (hdo _ (hk i hi))]; exact ht i hi
      obtain ⟨p', hseq, hl', ht', hh'⟩ :=
        @allocSeq_of_free V fuel n p1 (k :: act) fr hl1 (by simpa using hn) ht1
      refine ⟨p', ?_, by simpa using hl', by simpa using ht', ?_⟩
      · simp [allocSeq, alloc_of_free h, hal, bind, Except.bind, hseq]
      · rw [hh']
        exact timeOf_congr (hdo .active (by simp))

/-- C2 (allocation always succeeds) fails on the code. From a freshly initialised pool
of any capacity `MAX_MARK_POLYS ≥ 1`, the first `MAX_MARK_POLYS` calls of `CG_AllocMark`
return, and the next call never does, whatever the fuel: all marks still carry the
`time` 0 of the `memset`, which is also the `time` of the list head, so the eviction loop
frees every mark and then the list head, forever. -/
theorem C2_alloc_never_returns {N V : Nat} (hN : 0 < N) (fuel : Nat) :
    ∃ p, allocSeq V fuel N (CG_InitMarkPolys N V (bootPool N V)) = .ok p ∧
      ∀ fuel', CG_AllocMark V fuel' p = .error .outOfFuel := by
  obtain ⟨p, hseq, hl, ht, hh⟩ :=
    @allocSeq_of_free V fuel N _ [] (List.range N) (init_linked hN (bootPool N V))
      (by simp) (by simp)
  refine ⟨p, hseq, fun fuel' => ?_⟩
  simp only [List.length_range, List.take_of_length_le, le_refl, List.append_nil,
    List.drop_of_length_le] at hl ht
  refine alloc_diverges hl ?_ ?_ fuel'
  · intro e
    have := congrArg List.length e
    simp at this
    omega
  · intro i hi
    rw [ht i hi, hh]
    rfl

/-- C2 at capacity 2: two calls return, the third never does. -/
theorem C2_alloc_never_returns_witness :
    0 < 2 ∧ ∃ p, allocSeq 1 0 2 (CG_InitMarkPolys 2 1 (bootPool 2 1)) = .ok p ∧
      ∀ fuel', CG_AllocMark 1 fuel' p = .error .outOfFuel :=
  ⟨by decide, C2_alloc_never_returns (by decide) 0⟩

/-- C3 (batch eviction), on the code. The free list is empty and the `k` oldest active
marks `k0 :: rest` share the `time` `t`. When the mark before them (or, when they are
the whole list, the list head) carries another `time`, one call of `CG_AllocMark` with
enough fuel removes exactly those marks, returns `k0`, the newest of them, as the new
head of the active list and leaves the `k - 1` others on the free list. When
they are the whole list and `t` is 0, the `time` of the list head, the call never
returns. -/
theorem C3_batch_eviction {V : Nat} {t : Int} {p : Pool} {pre rest : List Nat} {k0 : Nat}
    (h : Linked p (pre ++ k0 :: rest) [])
    (hs : ∀ i ∈ k0 :: rest, timeOf p (.slot i) = t) :
    (timeOf p (tailPtr pre) ≠ t →
      ∃ p', (∀ fuel, (k0 :: rest).length < fuel → CG_AllocMark V fuel p = .ok (.slot k0, p')) ∧
        Linked p' (k0 :: pre) rest ∧
        (∀ r, r ≠ .slot k0 → dataOf p' r = dataOf p r)) ∧
    (pre = [] → p.cg_activeMarkPolys.time = t →
      ∀ fuel, CG_AllocMark V fuel p = .error .outOfFuel) := by
  constructor
  · intro hstop
    obtain ⟨p', hal, hl, -, -, hdo⟩ := alloc_evict (V := V) h hs hstop
    exact ⟨p', fun fuel hf => by rw [hal, if_pos hf], hl, hdo⟩
  · rintro rfl ht fuel
    exact alloc_diverges h (by simp) (fun i hi => by rw [ht]; exact hs i hi) fuel

/-- C3 at a full pool of two slots whose marks were both stored at time 0: the call of
`CG_AllocMark` that should evict the batch never returns. -/
theorem C3_batch_eviction_witness :
    allocSeq 1 0 2 (CG_InitMarkPolys 2 1 (bootPool 2 1)) = .ok fullPool2 ∧
    Linked fullPool2 ([] ++ 1 :: [0]) [] ∧
    (∀ i ∈ 1 :: [0], timeOf fullPool2 (.slot i) = 0) ∧
    ∀ fuel, CG_AllocMark 1 fuel fullPool2 = .error .outOfFuel :=
  ⟨rfl, by decide, by decide,
    (@C3_batch_eviction 1 0 fullPool2 [] [0] 1 (by decide) (by decide)).2 rfl rfl⟩

theorem read_error {p : Pool} {q : Ptr} {e : Fault} (h : p.read q = .error e) :
    e = .nullDeref := by
  cases q with
  | null => simp [Pool.read] at h; exact h.symm
  | active => simp [Pool.read] at h
  | slot i =>
    simp only [Pool.read] at h
    split at h <;> simp at h
    exact h.symm

theorem update_error {p : Pool} {q : Ptr} {f : markPoly_t → markPoly_t} {e : Fault}
    (h : p.update q f = .error e) : e = .nullDeref := by
  cases q with
  | null => simp [Pool.update] at h; exact h.symm
  | active => simp [Pool.update] at h
  | slot i =>
    simp only [Pool.update] at h
    split at h <;> simp at h
    exact h.symm

/-- The function `CG_FreeMarkPoly` raises "not active" exactly when one of the two links is
`NULL`. -/
theorem free_error_iff {p : Pool} {le : Ptr} {m : markPoly_t} (hm : p.read le = .ok m) :
    CG_FreeMarkPoly p le = .error .notActive ↔ m.prevMark = .null ∨ m.nextMark = .null := by
  constructor
  · intro h
    by_contra hn
    simp only [CG_FreeMarkPoly, hm, bind, Except.bind, hn, if_false] at h
    cases h1 : p.update m.prevMark fun x => { x with nextMark := m.nextMark } with
    | error e => rw [h1] at h; have := update_error h1; subst this; cases h
    | ok p1 =>
      rw [h1] at h
      simp only at h
      cases h2 : p1.read le with
      | error e => rw [h2] at h; have := read_error h2; subst this; cases h
      | ok m1 =>
        rw [h2] at h
        simp only at h
        cases h3 : p1.update m1.nextMark fun x => { x with prevMark := m1.prevMark } with
        | error e => rw [h3] at h; have := update_error h3; subst this; cases h
        | ok p2 =>
          rw [h3] at h
          simp only at h
          cases h4 : p2.update le fun x => { x with nextMark := p2.cg_freeMarkPolys } with
          | error e => rw [h4] at h; have := update_error h4; subst this; cases h
          | ok p3 => rw [h4] at h; cases h
  · intro h
    simp [CG_FreeMarkPoly, hm, bind, Except.bind, h, throw, throwThe, MonadExceptOf.throw]

/-- C5 fails on the code: slot 0 of `usedPool3` is on the free list, not on the active
list, yet `CG_FreeMarkPoly` raises no error for it; it rewrites the links instead, and
the free list then runs from slot 0 to slot 0. -/
theorem C5_freed_slot_not_detected :
    (do
      let (_, p1) ← CG_AllocMark 1 0 (CG_InitMarkPolys 3 1 (bootPool 3 1))
      let (_, p2) ← CG_AllocMark 1 0 p1
      CG_FreeMarkPoly p2 (.slot 0)) = .ok usedPool3 ∧
    Linked usedPool3 [1] [0, 2] ∧
    CG_FreeMarkPoly usedPool3 (.slot 0) = .ok usedPool3After ∧
    usedPool3After ≠ usedPool3 ∧
    nextOf usedPool3After (.slot 0) = .slot 0 :=
  ⟨rfl, by decide, rfl, by decide, rfl⟩

/-- C5, as the code has it. `CG_FreeMarkPoly` raises the fatal "not active" error, before
any write, exactly when the mark's `prevMark` or `nextMark` is `NULL`; and for a mark on
the active list of a well-linked pool it returns, the mark is gone from the active list,
the other active marks keep their order, the mark is the new head of the free list with
the old free list behind it, and no data field has changed. -/
theorem C5_free_mark {p : Pool} {le : Ptr} {m : markPoly_t} (hm : p.read le = .ok m) :
    (CG_FreeMarkPoly p le = .error .notActive ↔ m.prevMark = .null ∨ m.nextMark = .null) ∧
    ∀ l1 i l2 fr, le = .slot i → Linked p (l1 ++ i :: l2) fr →
      ∃ p', CG_FreeMarkPoly p le = .ok p' ∧ Linked p' (l1 ++ l2) (i :: fr) ∧
        SameData p p' := by
  refine ⟨free_error_iff hm, ?_⟩
  rintro l1 i l2 fr rfl h
  obtain ⟨p', hf, hl, hd, -⟩ := free_linked h
  exact ⟨p', hf, hl, hd⟩

/-- C5 at slot 1 of `usedPool3`, the one active mark. -/
theorem C5_free_mark_witness :
    usedPool3.read (.slot 1) =
      .ok { zeroMark 1 with nextMark := .active, prevMark := .active } ∧
    ((CG_FreeMarkPoly usedPool3 (.slot 1) = .error .notActive ↔
        (Ptr.active = Ptr.null ∨ Ptr.active = Ptr.null)) ∧
      ∀ l1 i l2 fr, Ptr.slot 1 = .slot i → Linked usedPool3 (l1 ++ i :: l2) fr →
        ∃ p', CG_FreeMarkPoly usedPool3 (.slot 1) = .ok p' ∧ Linked p' (l1 ++ l2) (i :: fr) ∧
          SameData usedPool3 p') :=
  ⟨rfl, @C5_free_mark usedPool3 (.slot 1) _ rfl⟩

theorem setLinks_eq_of_data {a b : markPoly_t} (h : a.data = b.data) (x y : Ptr) :
    ({ a with nextMark := x, prevMark := y } : markPoly_t) =
      { b with nextMark := x, prevMark := y } := by
  cases a
  cases b
  simp only [markPoly_t.data, markPoly_t.mk.injEq, true_and] at h
  simp only [markPoly_t.mk.injEq, true_and]
  exact h

theorem init_slots_data {N V : Nat} {m : markPoly_t} (hm : m ∈ initSlots N V) :
    m.data = (zeroMark V).data := by
  simp only [initSlots, List.mem_map, List.mem_range] at hm
  obtain ⟨i, -, rfl⟩ := hm
  split <;> rfl

/-- C6 (`CG_InitMarkPolys` is a full reset and idempotent). From every pool `p`, all
`MAX_MARK_POLYS` slots have zeroed data afterwards, the list head's `nextMark` and
`prevMark` both point to the list head, so the active list is empty, and the free list is
the chain slot 0, slot 1, ..., slot `MAX_MARK_POLYS - 1`, every slot exactly once; a
second call changes nothing; and from every reachable state the call produces one and
the same pool, the one produced at startup. -/
theorem C6_init_reset {N V : Nat} (hN : 0 < N) :
    (∀ p : Pool,
      (CG_InitMarkPolys N V p).cg_markPolys.length = N ∧
      (∀ m ∈ (CG_InitMarkPolys N V p).cg_markPolys, m.data = (zeroMark V).data) ∧
      (CG_InitMarkPolys N V p).cg_activeMarkPolys.nextMark = .active ∧
      (CG_InitMarkPolys N V p).cg_activeMarkPolys.prevMark = .active ∧
      (CG_InitMarkPolys N V p).cg_freeMarkPolys = .slot 0 ∧
      Linked (CG_InitMarkPolys N V p) [] (List.range N) ∧
      CG_InitMarkPolys N V (CG_InitMarkPolys N V p) = CG_InitMarkPolys N V p) ∧
    ∀ s, Reachable N V s →
      CG_InitMarkPolys N V s.pool = CG_InitMarkPolys N V (bootPool N V) := by
  constructor
  · intro p
    exact ⟨by simp [CG_InitMarkPolys, initSlots], fun m hm => init_slots_data hm, rfl, rfl, rfl,
      init_linked hN p, rfl⟩
  · intro s h
    obtain ⟨act, fr, hi⟩ := reachable_inv hN h
    have hd : s.pool.cg_activeMarkPolys.data = (bootPool N V).cg_activeMarkPolys.data :=
      hi.headData
    simp only [CG_InitMarkPolys, Pool.mk.injEq, and_true, true_and]
    exact setLinks_eq_of_data hd .active .active

/-- C6 for pools of two slots. -/
theorem C6_init_reset_witness :
    0 < 2 ∧
    ((∀ p : Pool,
      (CG_InitMarkPolys 2 1 p).cg_markPolys.length = 2 ∧
      (∀ m ∈ (CG_InitMarkPolys 2 1 p).cg_markPolys, m.data = (zeroMark 1).data) ∧
      (CG_InitMarkPolys 2 1 p).cg_activeMarkPolys.nextMark = .active ∧
      (CG_InitMarkPolys 2 1 p).cg_activeMarkPolys.prevMark = .active ∧
      (CG_InitMarkPolys 2 1 p).cg_freeMarkPolys = .slot 0 ∧
      Linked (CG_InitMarkPolys 2 1 p) [] (List.range 2) ∧
      CG_InitMarkPolys 2 1 (CG_InitMarkPolys 2 1 p) = CG_InitMarkPolys 2 1 p) ∧
    ∀ s, Reachable 2 1 s →
      CG_InitMarkPolys 2 1 s.pool = CG_InitMarkPolys 2 1 (bootPool 2 1)) :=
  ⟨by decide, C6_init_reset (by decide)⟩

theorem wrap32_of_fits {x : Int} (h : fitsInt32 x) : wrap32 x = x := by
  obtain ⟨h1, h2⟩ := h
  unfold wrap32
  omega

theorem wrap32_fits (x : Int) : fitsInt32 (wrap32 x) := by
  unfold wrap32 fitsInt32
  omega

/-- C7 fails on the code as stated: with `cg_markTime` 2147483647 the sum
`mp->time + MARK_TOTAL_TIME` does not fit an `int`. The mark stored at time 1000 is freed
and not submitted by the pass at time 2000, although 2000 ≤ 1000 + 2147483647. -/
theorem C7_long_lifetime_expires_early :
    Linked bulletPool [0] [1] ∧ timeOf bulletPool (.slot 0) = 1000 ∧
    (2000 : Int) ≤ timeOf bulletPool (.slot 0) + 2147483647 ∧
    (CG_AddMarks 2 ⟨2000, 1, 2147483647, 1000, 0⟩ bulletPool).map (fun r => r.2) = .ok [] ∧
    (CG_AddMarks 2 ⟨2000, 1, 2147483647, 1000, 0⟩ bulletPool).map
      (fun r => decide (Linked r.1 [] [0, 1])) = .ok true := by
  refine ⟨?_, ?_, ?_, ?_, ?_⟩
  · with_unfolding_all decide
  · with_unfolding_all decide
  · with_unfolding_all decide
  · with_unfolding_all rfl
  · with_unfolding_all rfl

/-- C7 (expiry removes exactly once), for lifetimes that fit. One call of `CG_AddMarks`
with marks enabled, on a well-linked pool with active list `act` in which every
`time + cg_markTime` fits a 32-bit `int`, with more fuel than `act` is long, returns.
Every active mark with `cg.time > time + cg_markTime` has moved to the free list (in
front of the old free list) and is not submitted; the marks with
`cg.time ≤ time + cg_markTime` are the new active list, in their old order, hold their
faded data and are submitted once each, in that order. So a mark created at `T0` is on
the active list after a pass at `T0 + cg_markTime - 1` and is not after a pass at
`T0 + cg_markTime + 1`. -/
theorem C7_expiry {cg : Globals} {p : Pool} {act fr : List Nat} {fuel : Nat}
    (h : Linked p act fr) (hon : cg.cg_marks ≠ 0) (hf : act.length < fuel)
    (hfit : ∀ i ∈ act, fitsInt32 (timeOf p (.slot i) + cg.cg_markTime)) :
    ∃ p' out act' fr', CG_AddMarks fuel cg p = .ok (p', out) ∧ Linked p' act' fr' ∧
      act' = act.filter (fun i => decide (cg.cg_time ≤ timeOf p (.slot i) + cg.cg_markTime)) ∧
      fr' = (act.filter fun i =>
        decide (cg.cg_time > timeOf p (.slot i) + cg.cg_markTime)).reverse ++ fr ∧
      out = act'.map (fun i =>
        markPoly (fadedData cg.cg_time cg.cg_markTime cg.cg_markFadeTime p i)) ∧
      (∀ i ∈ act', dataOf p' (.slot i) =
        .ok (fadedData cg.cg_time cg.cg_markTime cg.cg_markFadeTime p i)) ∧
      ∀ i ∈ act, (cg.cg_time = timeOf p (.slot i) + cg.cg_markTime - 1 → i ∈ act') ∧
        (cg.cg_time = timeOf p (.slot i) + cg.cg_markTime + 1 → i ∉ act' ∧ i ∈ fr') := by
  obtain ⟨p', hrun, hl, hda, -, -⟩ := addMarks_spec h hon
  have e1 : act.filter (aliveIn cg.cg_time cg.cg_markTime p) =
      act.filter (fun i => decide (cg.cg_time ≤ timeOf p (.slot i) + cg.cg_markTime)) :=
    List.filter_congr fun i hi => by
      unfold aliveIn
      rw [wrap32_of_fits (hfit i hi)]
      by_cases hc : cg.cg_time > timeOf p (.slot i) + cg.cg_markTime
      · simp [hc]
      · simp [hc, not_lt.1 hc]
  have e2 : (act.filter fun i => !aliveIn cg.cg_time cg.cg_markTime p i) =
      act.filter (fun i => decide (cg.cg_time > timeOf p (.slot i) + cg.cg_markTime)) :=
    List.filter_congr fun i hi => by
      unfold aliveIn
      rw [wrap32_of_fits (hfit i hi)]
      by_cases hc : cg.cg_time > timeOf p (.slot i) + cg.cg_markTime
      · simp [hc]
      · simp [hc, not_lt.1 hc]
  rw [e1, e2] at hl
  refine ⟨p', _, _, _, ?_, hl, rfl, rfl, rfl, ?_, ?_⟩
  · rw [hrun fuel, if_pos hf, e1]
  · intro i hi
    rw [← e1] at hi
    obtain ⟨hia, hal⟩ := List.mem_filter.1 hi
    exact hda i hia hal
  · intro i hi
    constructor
    · intro ht
      exact List.mem_filter.2 ⟨hi, by simp; omega⟩
    · intro ht
      constructor
      · intro hm
        have := (List.mem_filter.1 hm).2
        simp at this
        omega
      · exact List.mem_append_left _ (List.mem_reverse.2 (List.mem_filter.2 ⟨hi, by simp; omega⟩))

/-- C7 at `twoMarkState`, whose active marks were stored at time 5000 (slot 1) and at
time 1000 (slot 0): a pass at time 14500 with `cg_markTime` 10000 frees the older mark
and submits the newer one, 500 before the end of its life, as one polygon of four
vertices with R, G, B bytes 127. -/
theorem C7_expiry_witness :
    Linked twoMarkState.pool [1, 0] [] ∧ (1 : Int) ≠ 0 ∧ [1, 0].length < 3 ∧
    (∀ i ∈ [1, 0], fitsInt32 (timeOf twoMarkState.pool (.slot i) + 10000)) ∧
    timesOf twoMarkState.pool [1, 0] = [5000, 1000] ∧
    (CG_AddMarks 3 ⟨14500, 1, 10000, 1000, 0⟩ twoMarkState.pool).map
        (fun r => (decide (Linked r.1 [1] [0]),
          r.2.map fun q => q.verts.map fun v => v.modulate)) =
      .ok (true, [[⟨127, 127, 127, 255⟩, ⟨127, 127, 127, 255⟩, ⟨127, 127, 127, 255⟩,
        ⟨127, 127, 127, 255⟩]]) ∧
    ∃ p' out act' fr',
      CG_AddMarks 3 ⟨14500, 1, 10000, 1000, 0⟩ twoMarkState.pool = .ok (p', out) ∧
      Linked p' act' fr' ∧
      act' = [1, 0].filter (fun i =>
        decide ((14500 : Int) ≤ timeOf twoMarkState.pool (.slot i) + 10000)) ∧
      fr' = ([1, 0].filter fun i =>
        decide ((14500 : Int) > timeOf twoMarkState.pool (.slot i) + 10000)).reverse ++ [] ∧
      out = act'.map (fun i => markPoly (fadedData 14500 10000 1000 twoMarkState.pool i)) ∧
      (∀ i ∈ act', dataOf p' (.slot i) =
        .ok (fadedData 14500 10000 1000 twoMarkState.pool i)) ∧
      ∀ i ∈ [1, 0],
        ((14500 : Int) = timeOf twoMarkState.pool (.slot i) + 10000 - 1 → i ∈ act') ∧
        ((14500 : Int) = timeOf twoMarkState.pool (.slot i) + 10000 + 1 →
          i ∉ act' ∧ i ∈ fr') :=
  ⟨by with_unfolding_all decide, by decide, by decide, by with_unfolding_all decide,
    by with_unfolding_all rfl, by with_unfolding_all rfl,
    @C7_expiry ⟨14500, 1, 10000, 1000, 0⟩ twoMarkState.pool [1, 0] [] 3
      (by with_unfolding_all decide) (by decide) (by decide) (by with_unfolding_all decide)⟩

/-! ## Fade arithmetic -/

theorem forVerts_take (n : Nat) (f : polyVert_t → polyVert_t) (vs : List polyVert_t) :
    (forVerts n f vs).take n = (vs.take n).map f := by
  unfold forVerts
  rcases Nat.lt_or_ge vs.length n with h | h
  · rw [List.drop_of_length_le (Nat.le_of_lt h), List.append_nil]
    apply List.take_of_length_le
    simp
  · rw [List.take_append_of_le_length (by simp; omega)]
    apply List.take_of_length_le
    simp

/-- A product in byte range converts to its integer part. -/
theorem floatToByte_of_range {q : ℚ} (h0 : 0 ≤ q) (h1 : q < 256) :
    floatToByte q = ⌊q⌋.toNat := by
  unfold floatToByte truncQ toByte
  rw [if_pos h0]
  have hf0 : 0 ≤ ⌊q⌋ := Int.floor_nonneg.2 h0
  have hf1 : ⌊q⌋ < 256 := Int.floor_lt.2 (by exact_mod_cast h1)
  rw [Int.emod_eq_of_lt hf0 hf1]

theorem floatToByte_mono {q1 q2 : ℚ} (h0 : 0 ≤ q1) (h : q1 ≤ q2) (h2 : q2 < 256) :
    floatToByte q1 ≤ floatToByte q2 := by
  rw [floatToByte_of_range h0 (lt_of_le_of_lt h h2), floatToByte_of_range (h0.trans h) h2]
  exact Int.toNat_le_toNat (Int.floor_mono h)

/-- The fade factor `255 * t / MARK_FADE_TIME` for `0 ≤ t < MARK_FADE_TIME`. -/
theorem fadeFactor_range {t F : Int} (h0 : 0 ≤ t) (h1 : t < F) :
    0 ≤ Int.tdiv (255 * t) F ∧ Int.tdiv (255 * t) F ≤ 254 := by
  have hF : 0 < F := lt_of_le_of_lt h0 h1
  rw [Int.tdiv_eq_ediv (by omega) hF.le]
  constructor
  · exact Int.ediv_nonneg (by omega) hF.le
  · have : 255 * t / F < 255 := Int.ediv_lt_of_lt_mul hF (by nlinarith)
    omega

theorem fadeFactor_mono {t1 t2 F : Int} (h0 : 0 ≤ t1) (h : t1 ≤ t2) (h1 : t2 < F) :
    Int.tdiv (255 * t1) F ≤ Int.tdiv (255 * t2) F := by
  have hF : 0 < F := by omega
  rw [Int.tdiv_eq_ediv (by omega) hF.le, Int.tdiv_eq_ediv (by omega) hF.le]
  exact Int.ediv_le_ediv hF (by omega)

theorem forVerts_forVerts (n : Nat) (f g : polyVert_t → polyVert_t) (hfg : ∀ v, f (g v) = f v)
    (vs : List polyVert_t) : forVerts n f (forVerts n g vs) = forVerts n f vs := by
  have hd : (forVerts n g vs).drop n = vs.drop n := by
    unfold forVerts
    rcases Nat.lt_or_ge vs.length n with h | h
    · rw [List.drop_of_length_le (Nat.le_of_lt h), List.append_nil]
      rw [List.drop_of_length_le (by simp)]
    · rw [List.drop_append_of_le_length (by simp; omega)]
      rw [List.drop_of_length_le (l := List.map g (List.take n vs)) (by simp)]
      rfl
  have ht := forVerts_take n g vs
  have hc : f ∘ g = f := funext hfg
  show List.map f ((forVerts n g vs).take n) ++ (forVerts n g vs).drop n = forVerts n f vs
  rw [ht, hd, List.map_map, hc]
  rfl

theorem toFloat_fade {k : Int} (h0 : 0 ≤ k) (h1 : k ≤ 254) : toFloat (k : ℚ) = k :=
  toFloat_intCast k (by rw [abs_of_nonneg h0]; omega)

/-- The byte written for a colour channel in [0,1] and a factor in [0,254] grows with
the factor. -/
theorem fadeByte_mono {c : ℚ} {k1 k2 : Int} (hc : 0 ≤ c) (hc' : c ≤ 1) (h0 : 0 ≤ k1)
    (h12 : k1 ≤ k2) (h2 : k2 ≤ 254) :
    floatToByte (fmul c (toFloat k1)) ≤ floatToByte (fmul c (toFloat k2)) := by
  rw [toFloat_fade h0 (h12.trans h2), toFloat_fade (h0.trans h12) h2]
  have q1 : (0 : ℚ) ≤ k1 := by exact_mod_cast h0
  have q2 : (k2 : ℚ) ≤ 254 := by exact_mod_cast h2
  have q12 : (k1 : ℚ) ≤ k2 := by exact_mod_cast h12
  unfold fmul
  refine floatToByte_mono (toFloat_nonneg (mul_nonneg hc q1))
    (toFloat_mono (mul_le_mul_of_nonneg_left q12 hc)) ?_
  have h254 : toFloat (254 : ℚ) = 254 := by
    have := toFloat_intCast 254 (by norm_num)
    exact_mod_cast this
  have : c * (k2 : ℚ) ≤ 254 := by
    have : c * (k2 : ℚ) ≤ 1 * 254 := mul_le_mul hc' q2 (q1.trans q12) (by norm_num)
    linarith
  have := toFloat_mono this
  rw [h254] at this
  linarith

theorem fadeByte_zero (c : ℚ) : floatToByte (fmul c (toFloat ((0 : Int) : ℚ))) = 0 := by
  have : toFloat ((0 : Int) : ℚ) = 0 := by
    rw [Int.cast_zero, toFloat_zero]
  rw [this]
  unfold fmul
  rw [mul_zero, toFloat_zero]
  simp [floatToByte, truncQ, toByte]

/-- The pass at `remaining = r` on a mark that is neither an energy mark nor an
alpha-fade mark, inside the fade window, when neither `time + MARK_TOTAL_TIME` nor
`255 * r` overflows. -/
theorem fadeMark_plain {m : markPoly_t} {L F r : Int} (he : m.energy = false)
    (ha : m.alphaFade = false) (h0 : 0 ≤ r) (h1 : r < F)
    (hfit : fitsInt32 (m.time + L)) (hmul : 255 * r ≤ 2147483647) :
    fadeMark (m.time + L - r) L F m = .ok (plainFade m (Int.tdiv (255 * r) F)) := by
  have hF : F ≠ 0 := by omega
  have ht : wrap32 (m.time + L) - (m.time + L - r) = r := by
    rw [wrap32_of_fits hfit]
    ring
  have hw : wrap32 (255 * r) = 255 * r := wrap32_of_fits ⟨by omega, hmul⟩
  simp [fadeMark, energyStep, timeFadeStep, he, ha, ht, h1, hF, hw, plainFade]

theorem plainFade_plainFade (m : markPoly_t) (k1 k2 : Int) :
    plainFade (plainFade m k2) k1 = plainFade m k1 := by
  unfold plainFade
  simp only [markPoly_t.mk.injEq, true_and]
  refine forVerts_forVerts m.numVerts _ _ ?_ m.verts
  intro v
  rfl

/-- C8 fails on the code as stated: with a fade window of 20000000 the product
`255 * t` overflows a 32-bit `int`. The white mark stored at time 1000 is submitted with
R, G, B bytes 102 at remaining time 8000000 and with bytes 0 at the larger remaining
time 16843010. -/
theorem C8_long_fade_window_not_monotone :
    (0 : Int) ≤ 8000000 ∧ (8000000 : Int) ≤ 16843010 ∧ (16843010 : Int) < 20000000 ∧
    (CG_AddMarks 2 ⟨1000 + 20000000 - 8000000, 1, 20000000, 20000000, 0⟩ bulletPool).map
        (fun r => r.2.map fun q => q.verts.map fun v => v.modulate) =
      .ok [[⟨102, 102, 102, 255⟩, ⟨102, 102, 102, 255⟩, ⟨102, 102, 102, 255⟩,
        ⟨102, 102, 102, 255⟩]] ∧
    (CG_AddMarks 2 ⟨1000 + 20000000 - 16843010, 1, 20000000, 20000000, 0⟩ bulletPool).map
        (fun r => r.2.map fun q => q.verts.map fun v => v.modulate) =
      .ok [[⟨0, 0, 0, 255⟩, ⟨0, 0, 0, 255⟩, ⟨0, 0, 0, 255⟩, ⟨0, 0, 0, 255⟩]] := by
  refine ⟨by decide, by decide, by decide, ?_, ?_⟩
  · with_unfolding_all rfl
  · with_unfolding_all rfl

/-- C8 (fade monotonicity), where the arithmetic fits 32 bits. For a mark that is neither
an energy mark nor an alpha-fade mark, with base colour channels in [0,1], with
`time + cg_markTime` in `int` range, and remaining times `0 ≤ r1 ≤ r2 < fadeWindow` with
`255 * r2` in `int` range: the passes at those remaining times both return, and each R,
G, B byte of each vertex submitted at `r1` is at most the byte submitted at `r2`; at
remaining time 0 every submitted R, G, B byte is 0; and the pass at `r1` gives the same
mark whether it runs on the stored mark or on what the pass at `r2` has left. -/
theorem C8_fade_monotone {m : markPoly_t} {L F r1 r2 : Int}
    (he : m.energy = false) (ha : m.alphaFade = false)
    (hc0 : 0 ≤ m.color.c0 ∧ m.color.c0 ≤ 1) (hc1 : 0 ≤ m.color.c1 ∧ m.color.c1 ≤ 1)
    (hc2 : 0 ≤ m.color.c2 ∧ m.color.c2 ≤ 1)
    (h0 : 0 ≤ r1) (h12 : r1 ≤ r2) (h2 : r2 < F)
    (hfit : fitsInt32 (m.time + L)) (hmul : 255 * r2 ≤ 2147483647) :
    ∃ m1 m2, fadeMark (m.time + L - r1) L F m = .ok m1 ∧
      fadeMark (m.time + L - r2) L F m = .ok m2 ∧
      fadeMark (m.time + L - r1) L F m2 = .ok m1 ∧
      List.Forall₂ (fun v1 v2 => v1.modulate.c0 ≤ v2.modulate.c0 ∧
          v1.modulate.c1 ≤ v2.modulate.c1 ∧ v1.modulate.c2 ≤ v2.modulate.c2)
        (markPoly m1).verts (markPoly m2).verts ∧
      (r1 = 0 → ∀ v ∈ (markPoly m1).verts,
        v.modulate.c0 = 0 ∧ v.modulate.c1 = 0 ∧ v.modulate.c2 = 0) := by
  have hr1 := fadeFactor_range h0 (lt_of_le_of_lt h12 h2)
  have hr2 := fadeFactor_range (h0.trans h12) h2
  have hm := fadeFactor_mono h0 h12 h2
  have hmul1 : 255 * r1 ≤ 2147483647 := by omega
  have key : ∀ c : ℚ, 0 ≤ c → c ≤ 1 →
      floatToByte (fmul c (toFloat (Int.tdiv (255 * r1) F))) ≤
        floatToByte (fmul c (toFloat (Int.tdiv (255 * r2) F))) :=
    fun c hc hc' => fadeByte_mono hc hc' hr1.1 hm hr2.2
  refine ⟨_, _, fadeMark_plain he ha h0 (lt_of_le_of_lt h12 h2) hfit hmul1,
    fadeMark_plain he ha (h0.trans h12) h2 hfit hmul, ?_, ?_, ?_⟩
  · have := @fadeMark_plain (plainFade m (Int.tdiv (255 * r2) F)) L F r1 he ha h0
      (lt_of_le_of_lt h12 h2) hfit hmul1
    rw [plainFade_plainFade] at this
    exact this
  · simp only [markPoly, plainFade, forVerts_take]
    rw [List.forall₂_map_left_iff, List.forall₂_map_right_iff, List.forall₂_same]
    intro v _
    exact ⟨key _ hc0.1 hc0.2, key _ hc1.1 hc1.2, key _ hc2.1 hc2.2⟩
  · rintro rfl v hv
    simp only [markPoly, plainFade, forVerts_take, List.mem_map] at hv
    obtain ⟨w, -, rfl⟩ := hv
    have hz : Int.tdiv (255 * 0) F = 0 := by simp
    simp only [hz]
    exact ⟨fadeByte_zero _, fadeByte_zero _, fadeByte_zero _⟩

/-- C9 fails on the code as stated: a white mark with both `alphaFade` and `energy` set,
stored at time 1000 with packed bytes 255, is submitted with R, G, B bytes 225 by the
pass at time 2500. -/
theorem C9_energy_alpha_mark_changes_colour :
    packColors 1 1 1 1 = ⟨255, 255, 255, 255⟩ ∧
    energyAlphaRun = .ok [[⟨225, 225, 225, 255⟩, ⟨225, 225, 225, 255⟩,
      ⟨225, 225, 225, 255⟩, ⟨225, 225, 225, 255⟩]] := by
  constructor
  · with_unfolding_all rfl
  · with_unfolding_all rfl

/-! ## Alpha-fade marks keep their colour -/

theorem stamped_fields {V : Nat} {cg : Globals} {a : ImpactArgs} {colors : Chan4 Nat}
    {d : markPoly_t} (h : Stamped V cg a colors d) :
    d.time = cg.cg_time ∧ d.alphaFade = a.alphaFade ∧ d.energy = a.energy ∧
      d.markShader = a.markShader ∧ d.color = ⟨a.red, a.green, a.blue, a.alpha⟩ ∧
      ∀ v ∈ (markPoly d).verts, v.modulate = colors := by
  obtain ⟨n, verts, hlen, hmod, rfl⟩ := h
  refine ⟨rfl, rfl, rfl, rfl, rfl, ?_⟩
  intro v hv
  have : (markPoly (stampMark cg a n verts (zeroMark V)).data).verts = verts := by
    simp only [markPoly, markPoly_t.data, stampMark]
    rw [List.take_append_of_le_length (by omega)]
    exact List.take_of_length_le (by omega)
  rw [this] at hv
  exact hmod v hv

theorem stamped_keeps {V : Nat} {cg : Globals} {a : ImpactArgs} {d : markPoly_t}
    (h : Stamped V cg a (packColors a.red a.green a.blue a.alpha) d) : KeepsColour d := by
  obtain ⟨-, -, -, -, hc, hv⟩ := stamped_fields h
  intro v hm
  rw [hv v hm, hc]
  exact ⟨rfl, rfl, rfl⟩

theorem forVerts_map_of_comp {n : Nat} {f : polyVert_t → polyVert_t} {β : Type}
    (g : polyVert_t → β) (hg : ∀ v, g (f v) = g v) (vs : List polyVert_t) :
    (forVerts n f vs).map g = vs.map g := by
  unfold forVerts
  rw [List.map_append, List.map_map]
  have : g ∘ f = g := funext hg
  rw [this, ← List.map_append, List.take_append_drop]

theorem energyStep_of_not_energy {T : Int} {d : markPoly_t} (he : d.energy = false) :
    energyStep T d = d := by
  unfold energyStep
  rw [if_neg (by simp [he])]

/-- One pass over an alpha-fade mark that is not an energy mark changes alpha bytes only. -/
theorem fadeMark_alpha {T L F : Int} {d d' : markPoly_t} (ha : d.alphaFade = true)
    (he : d.energy = false) (hf : fadeMark T L F d = .ok d') :
    d'.verts.map eraseAlpha = d.verts.map eraseAlpha := by
  unfold fadeMark at hf
  rw [energyStep_of_not_energy he] at hf
  unfold timeFadeStep at hf
  simp only [ha, if_true] at hf
  split at hf
  · split at hf
    · simp at hf
    · simp only [Except.ok.injEq] at hf
      subst hf
      refine forVerts_map_of_comp eraseAlpha ?_ _
      intro v
      rfl
  · simp only [Except.ok.injEq] at hf
    subst hf
    rfl

theorem keeps_of_eraseAlpha {d d' : markPoly_t} (h : KeepsColour d)
    (hv : d'.verts.map eraseAlpha = d.verts.map eraseAlpha) (hn : d'.numVerts = d.numVerts)
    (hc : d'.color = d.color) : KeepsColour d' := by
  intro v hm
  simp only [markPoly] at hm
  have h1 : eraseAlpha v ∈ (d'.verts.take d'.numVerts).map eraseAlpha :=
    List.mem_map_of_mem _ hm
  rw [List.map_take, hv, hn, ← List.map_take] at h1
  obtain ⟨w, hw, hwv⟩ := List.mem_map.1 h1
  have hk := h w hw
  have e : w.modulate.c0 = v.modulate.c0 ∧ w.modulate.c1 = v.modulate.c1 ∧
      w.modulate.c2 = v.modulate.c2 := by
    have := congrArg polyVert_t.modulate hwv
    simp only [eraseAlpha, Chan4.mk.injEq] at this
    exact ⟨this.1, this.2.1, this.2.2.1⟩
  rw [hc, ← e.1, ← e.2.1, ← e.2.2]
  exact hk

theorem fadedData_spec {T L F : Int} {p : Pool} {i : Nat} (hi : i < p.cg_markPolys.length)
    (hal : aliveIn T L p i = true) :
    ∃ d0 d', dataOf p (.slot i) = .ok d0 ∧ fadeMark T L F d0 = .ok d' ∧
      fadedData T L F p i = d' := by
  obtain ⟨m, hm⟩ := read_of_valid (show Valid p (.slot i) from hi)
  have hnx : ¬ T > wrap32 (m.data.time + L) := by
    have : m.data.time = m.time := rfl
    rw [this, ← timeOf_of_read hm]
    simpa [aliveIn] using hal
  obtain ⟨d', hf⟩ := fadeMark_ok (F := F) m.data hnx
  refine ⟨m.data, d', by simp [dataOf, hm, Except.map], hf, ?_⟩
  simp [fadedData, dataOf, hm, Except.map, hf]

/-- One returning call of `CG_AddMarks` with marks enabled from a pool that satisfies the
invariant: what is submitted and what the surviving marks hold. -/
theorem addMarks_step {N V fuel : Nat} {cg : Globals} {p p' : Pool} {out : List Poly}
    {act fr : List Nat} (h : PoolInv N V p act fr) (hon : cg.cg_marks ≠ 0)
    (hrun : CG_AddMarks fuel cg p = .ok (p', out)) :
    ∃ act' fr', PoolInv N V p' act' fr' ∧ act'.Sublist act ∧
      out = act'.map (fun i =>
        markPoly (fadedData cg.cg_time cg.cg_markTime cg.cg_markFadeTime p i)) ∧
      ∀ i ∈ act', ∃ d0 d', dataOf p (.slot i) = .ok d0 ∧
        fadeMark cg.cg_time cg.cg_markTime cg.cg_markFadeTime d0 = .ok d' ∧
        dataOf p' (.slot i) = .ok d' ∧
        fadedData cg.cg_time cg.cg_markTime cg.cg_markFadeTime p i = d' := by
  obtain ⟨q, hq, hl, hda, hdo, hlen⟩ := addMarks_spec h.linked hon
  rw [hq] at hrun
  split at hrun <;> [skip; cases hrun]
  simp only [Except.ok.injEq, Prod.mk.injEq] at hrun
  obtain ⟨rfl, rfl⟩ := hrun
  refine ⟨_, _, ⟨hl, hlen.trans h.size, ?_, ?_⟩, List.filter_sublist _, rfl, ?_⟩
  · refine List.Perm.trans ?_ h.perm
    rw [← List.append_assoc]
    refine List.Perm.append_right fr ?_
    refine (List.Perm.append_left _ (List.reverse_perm _)).trans ?_
    exact List.filter_append_perm _ _
  · exact (data_eq_of_dataOf_active (hdo .active fun _ _ _ => by simp)).trans h.headData
  · intro i hi
    obtain ⟨hia, hal⟩ := List.mem_filter.1 hi
    obtain ⟨d0, d', h0, hf, he⟩ :=
      fadedData_spec (F := cg.cg_markFadeTime) (h.linked.bound i (by simp [hia])) hal
    exact ⟨d0, d', h0, hf, by rw [hda i hia hal, he], he⟩

theorem reachable_colour {N V : Nat} (hN : 0 < N) {s : State} (h : Reachable N V s) :
    ∃ act fr, PoolInv N V s.pool act fr ∧ ColourInv s.pool act := by
  induction h with
  | init => exact ⟨[], List.range N, inv_init hN _ rfl, by simp [ColourInv]⟩
  | reinit _ ih =>
    obtain ⟨act, fr, hi, -⟩ := ih
    exact ⟨[], List.range N, inv_init hN _ hi.headData, by simp [ColourInv]⟩
  | @impact s s' out fuel E cg a _ hrun ih =>
    obtain ⟨act, fr, hi, hc⟩ := ih
    obtain ⟨new', act', fr', hl, hpre, hperm, -, hdata, hhead, hlen, hst⟩ :=
      impact_spec hi.linked (perm_range_ne_nil hN hi.perm) hrun
    refine ⟨_, _, ⟨hl, hlen.trans hi.size, hperm.trans hi.perm,
      (data_eq_of_dataOf_active hhead).trans hi.headData⟩, ?_⟩
    intro i him d hd ha he
    rcases List.mem_append.1 him with hn | ho
    · obtain ⟨d1, hd1, hs1⟩ := hst i hn
      rw [hd] at hd1
      cases hd1
      exact stamped_keeps hs1
    · rw [hdata i ho] at hd
      exact hc i (hpre.subset ho) d hd ha he
  | @addMarks s p' out fuel cg _ hrun ih =>
    obtain ⟨act, fr, hi, hc⟩ := ih
    by_cases hon : cg.cg_marks = 0
    · simp only [CG_AddMarks, hon, if_true, Except.ok.injEq, Prod.mk.injEq] at hrun
      obtain ⟨rfl, -⟩ := hrun
      exact ⟨act, fr, hi, hc⟩
    · obtain ⟨act', fr', hi', hsub, -, hstep⟩ := addMarks_step hi hon hrun
      refine ⟨act', fr', hi', ?_⟩
      intro i him d hd ha he
      obtain ⟨d0, d', h0, hf, h1, -⟩ := hstep i him
      have e : d = d' := by
        have := hd.symm.trans h1
        exact Except.ok.inj this
      subst e
      have hfl := fadeMark_fields hf
      have ha0 : d0.alphaFade = true := by rw [hfl] at ha; exact ha
      have he0 : d0.energy = false := by rw [hfl] at he; exact he
      refine keeps_of_eraseAlpha (hc i (hsub.subset him) d0 h0 ha0 he0)
        (fadeMark_alpha ha0 he0 hf) ?_ ?_
      · rw [hfl]
      · rw [hfl]

/-- C9 (alpha-only fade preserves colour), as the code has it: for marks that are not
energy marks. From every reachable state: a mark stored by `CG_ImpactMark` holds the base
colour `red, green, blue, alpha`, the two flags, and on every vertex the bytes packed from
those four channels times 255; a pass of `CG_AddMarks` with marks enabled and more fuel
than there are slots returns; and in every pass, for every mark that is rendered and has
`alphaFade` set and `energy` clear, the R, G, B bytes of every submitted vertex are the
bytes packed from the mark's base colour, and the vertices differ from those before the
pass in their alpha byte only. -/
theorem C9_alpha_fade_keeps_colour {N V : Nat} (hN : 0 < N) {s : State}
    (h : Reachable N V s) :
    (∀ fuel E cg a s' out, CG_ImpactMark V fuel E cg a s = .ok (s', out) →
      ∃ new' act' fr', Linked s'.pool (new' ++ act') fr' ∧
        ∀ i ∈ new', ∃ d, dataOf s'.pool (.slot i) = .ok d ∧
          d.color = ⟨a.red, a.green, a.blue, a.alpha⟩ ∧ d.alphaFade = a.alphaFade ∧
          d.energy = a.energy ∧
          ∀ v ∈ (markPoly d).verts, v.modulate = packColors a.red a.green a.blue a.alpha) ∧
    (∀ fuel cg, cg.cg_marks ≠ 0 → N < fuel →
      ∃ p' out, CG_AddMarks fuel cg s.pool = .ok (p', out)) ∧
    ∀ fuel cg p' out, cg.cg_marks ≠ 0 → CG_AddMarks fuel cg s.pool = .ok (p', out) →
      ∃ act' : List Nat, out = act'.map (fun i =>
          markPoly (fadedData cg.cg_time cg.cg_markTime cg.cg_markFadeTime s.pool i)) ∧
        ∀ i ∈ act', ∃ d0 d', dataOf s.pool (.slot i) = .ok d0 ∧
          dataOf p' (.slot i) = .ok d' ∧
          fadedData cg.cg_time cg.cg_markTime cg.cg_markFadeTime s.pool i = d' ∧
          (d0.alphaFade = true → d0.energy = false →
            (∀ v ∈ (markPoly d').verts,
              v.modulate.c0 = floatToByte (fmul d0.color.c0 255) ∧
              v.modulate.c1 = floatToByte (fmul d0.color.c1 255) ∧
              v.modulate.c2 = floatToByte (fmul d0.color.c2 255)) ∧
            d'.verts.map eraseAlpha = d0.verts.map eraseAlpha) := by
  obtain ⟨act, fr, hi, hc⟩ := reachable_colour hN h
  refine ⟨?_, ?_, ?_⟩
  · intro fuel E cg a s' out hrun
    obtain ⟨new', act', fr', hl, -, -, -, -, -, -, hst⟩ :=
      impact_spec hi.linked (perm_range_ne_nil hN hi.perm) hrun
    refine ⟨new', act', fr', hl, fun i hin => ?_⟩
    obtain ⟨d, hd, hs⟩ := hst i hin
    obtain ⟨-, ha, he, -, hcol, hv⟩ := stamped_fields hs
    exact ⟨d, hd, hcol, ha, he, hv⟩
  · intro fuel cg hon hfuel
    obtain ⟨p', hrun, -⟩ := addMarks_spec hi.linked hon
    have hlen : act.length ≤ N := by
      have := hi.perm.length_eq
      simp at this
      omega
    exact ⟨p', _, by rw [hrun fuel, if_pos (by omega)]⟩
  · intro fuel cg p' out hon hrun
    obtain ⟨act', fr', -, hsub, hout, hstep⟩ := addMarks_step hi hon hrun
    refine ⟨act', hout, fun i him => ?_⟩
    obtain ⟨d0, d', h0, hf, h1, he⟩ := hstep i him
    refine ⟨d0, d', h0, h1, he, fun ha hen => ?_⟩
    have hfl := fadeMark_fields hf
    have hk : KeepsColour d' :=
      keeps_of_eraseAlpha (hc i (hsub.subset him) d0 h0 ha hen) (fadeMark_alpha ha hen hf)
        (by rw [hfl]) (by rw [hfl])
    have hcol : d'.color = d0.color := by rw [hfl]
    refine ⟨fun v hv => ?_, fadeMark_alpha ha hen hf⟩
    rw [← hcol]
    exact hk v hv

theorem alphaState_reachable : Reachable 2 4 alphaState :=
  Reachable.impact 0 flatEngine ⟨1000, 1, 10000, 1000, 0⟩ alphaArgs Reachable.init
    (show CG_ImpactMark 4 0 flatEngine ⟨1000, 1, 10000, 1000, 0⟩ alphaArgs freshState2 =
      .ok (alphaState, []) by with_unfolding_all rfl)

/-- C9 at `alphaState`, the pool of two slots that holds one orange alpha-fade mark
stored at time 1000. The pass at time 10500, half way through the fade window, submits
the mark with its packed R, G, B bytes 255, 127, 0 and the alpha byte 127. -/
theorem C9_alpha_fade_keeps_colour_witness :
    0 < 2 ∧ Reachable 2 4 alphaState ∧
    packColors alphaArgs.red alphaArgs.green alphaArgs.blue alphaArgs.alpha =
      ⟨255, 127, 0, 255⟩ ∧
    (CG_AddMarks 3 ⟨10500, 1, 10000, 1000, 0⟩ alphaState.pool).map
        (fun r => r.2.map fun q => q.verts.map fun v => v.modulate) =
      .ok [[⟨255, 127, 0, 127⟩, ⟨255, 127, 0, 127⟩, ⟨255, 127, 0, 127⟩,
        ⟨255, 127, 0, 127⟩]] ∧
    ((∀ fuel E cg a s' out, CG_ImpactMark 4 fuel E cg a alphaState = .ok (s', out) →
      ∃ new' act' fr', Linked s'.pool (new' ++ act') fr' ∧
        ∀ i ∈ new', ∃ d, dataOf s'.pool (.slot i) = .ok d ∧
          d.color = ⟨a.red, a.green, a.blue, a.alpha⟩ ∧ d.alphaFade = a.alphaFade ∧
          d.energy = a.energy ∧
          ∀ v ∈ (markPoly d).verts, v.modulate = packColors a.red a.green a.blue a.alpha) ∧
    (∀ fuel cg, cg.cg_marks ≠ 0 → 2 < fuel →
      ∃ p' out, CG_AddMarks fuel cg alphaState.pool = .ok (p', out)) ∧
    ∀ fuel cg p' out, cg.cg_marks ≠ 0 → CG_AddMarks fuel cg alphaState.pool = .ok (p', out) →
      ∃ act' : List Nat, out = act'.map (fun i =>
          markPoly (fadedData cg.cg_time cg.cg_markTime cg.cg_markFadeTime alphaState.pool i)) ∧
        ∀ i ∈ act', ∃ d0 d', dataOf alphaState.pool (.slot i) = .ok d0 ∧
          dataOf p' (.slot i) = .ok d' ∧
          fadedData cg.cg_time cg.cg_markTime cg.cg_markFadeTime alphaState.pool i = d' ∧
          (d0.alphaFade = true → d0.energy = false →
            (∀ v ∈ (markPoly d').verts,
              v.modulate.c0 = floatToByte (fmul d0.color.c0 255) ∧
              v.modulate.c1 = floatToByte (fmul d0.color.c1 255) ∧
              v.modulate.c2 = floatToByte (fmul d0.color.c2 255)) ∧
            d'.verts.map eraseAlpha = d0.verts.map eraseAlpha)) :=
  ⟨by decide, alphaState_reachable, by with_unfolding_all rfl, by with_unfolding_all rfl,
    C9_alpha_fade_keeps_colour (by decide) alphaState_reachable⟩

/-! ## Temporary marks -/

theorem impactLoop_temporary {V fuel : Nat} {cg : Globals} {a : ImpactArgs}
    {axis1 axis2 : Vec3} {tcs : ℚ} {colors : Chan4 Nat} {mpts : List Vec3}
    (ht : a.temporary = true) : ∀ (frags : List markFragment_t) (s : State) (out : List Poly),
    impactLoop V fuel cg a axis1 axis2 tcs colors mpts frags s out =
      .ok (s, out ++ frags.map (fragmentPoly V a axis1 axis2 tcs colors mpts))
  | [], s, out => by simp [impactLoop]
  | mf :: rest, s, out => by
    rw [impactLoop]
    simp only [ht, if_true]
    rw [impactLoop_temporary ht rest]
    simp [fragmentPoly]

/-- C10 (temporary marks never persist). A call of `CG_ImpactMark` with `temporary` set,
marks enabled and `radius > 0` returns, whatever fragments the clipper hands back; the
pool (both lists and every slot) and `markTotal` are as before, and exactly one polygon
per fragment has been submitted, in fragment order. -/
theorem C10_temporary {V fuel : Nat} {E : Engine} {cg : Globals} {a : ImpactArgs} {s : State}
    (ht : a.temporary = true) (hon : cg.cg_marks ≠ 0) (hr : 0 < a.radius) :
    ∃ s' out, CG_ImpactMark V fuel E cg a s = .ok (s', out) ∧ s'.pool = s.pool ∧
      s'.markTotal = s.markTotal ∧
      out = (E.trap_CM_MarkFragments
          (originalPoints a.origin (textureAxes E a.dir a.orientation).1
            (textureAxes E a.dir a.orientation).2 a.radius)
          (VectorScale a.dir (-20)) MAX_MARK_POINTS MAX_MARK_FRAGMENTS).2.map
        (fragmentPoly V a (textureAxes E a.dir a.orientation).1
          (textureAxes E a.dir a.orientation).2
          (toFloat (toDouble (toDouble (1 / 2 * 1) / a.radius)))
          (packColors a.red a.green a.blue a.alpha)
          (E.trap_CM_MarkFragments
            (originalPoints a.origin (textureAxes E a.dir a.orientation).1
              (textureAxes E a.dir a.orientation).2 a.radius)
            (VectorScale a.dir (-20)) MAX_MARK_POINTS MAX_MARK_FRAGMENTS).1) ∧
      out.length = (E.trap_CM_MarkFragments
          (originalPoints a.origin (textureAxes E a.dir a.orientation).1
            (textureAxes E a.dir a.orientation).2 a.radius)
          (VectorScale a.dir (-20)) MAX_MARK_POINTS MAX_MARK_FRAGMENTS).2.length := by
  unfold CG_ImpactMark
  simp only [hon, if_false, not_le.2 hr]
  rw [impactLoop_temporary ht]
  refine ⟨_, _, rfl, ?_, ?_, by simp, by simp⟩
  · split <;> rfl
  · split <;> rfl

/-- C10 for one shadow mark on a fresh pool of two slots. -/
theorem C10_temporary_witness :
    shadowArgs.temporary = true ∧ (1 : Int) ≠ 0 ∧ 0 < shadowArgs.radius ∧
    ∃ s' out, CG_ImpactMark 4 0 flatEngine ⟨1000, 1, 10000, 1000, 0⟩ shadowArgs
        { bootState 2 4 with pool := CG_InitMarkPolys 2 4 (bootPool 2 4) } = .ok (s', out) ∧
      s'.pool = CG_InitMarkPolys 2 4 (bootPool 2 4) ∧
      s'.markTotal = 0 ∧
      out = (flatEngine.trap_CM_MarkFragments
          (originalPoints shadowArgs.origin
            (textureAxes flatEngine shadowArgs.dir shadowArgs.orientation).1
            (textureAxes flatEngine shadowArgs.dir shadowArgs.orientation).2 shadowArgs.radius)
          (VectorScale shadowArgs.dir (-20)) MAX_MARK_POINTS MAX_MARK_FRAGMENTS).2.map
        (fragmentPoly 4 shadowArgs (textureAxes flatEngine shadowArgs.dir shadowArgs.orientation).1
          (textureAxes flatEngine shadowArgs.dir shadowArgs.orientation).2
          (toFloat (toDouble (toDouble (1 / 2 * 1) / shadowArgs.radius)))
          (packColors shadowArgs.red shadowArgs.green shadowArgs.blue shadowArgs.alpha)
          (flatEngine.trap_CM_MarkFragments
            (originalPoints shadowArgs.origin
              (textureAxes flatEngine shadowArgs.dir shadowArgs.orientation).1
              (textureAxes flatEngine shadowArgs.dir shadowArgs.orientation).2 shadowArgs.radius)
            (VectorScale shadowArgs.dir (-20)) MAX_MARK_POINTS MAX_MARK_FRAGMENTS).1) ∧
      out.length = (flatEngine.trap_CM_MarkFragments
          (originalPoints shadowArgs.origin
            (textureAxes flatEngine shadowArgs.dir shadowArgs.orientation).1
            (textureAxes flatEngine shadowArgs.dir shadowArgs.orientation).2 shadowArgs.radius)
          (VectorScale shadowArgs.dir (-20)) MAX_MARK_POINTS MAX_MARK_FRAGMENTS).2.length :=
  ⟨rfl, by decide, by norm_num [shadowArgs],
    @C10_temporary 4 0 flatEngine ⟨1000, 1, 10000, 1000, 0⟩ shadowArgs
      { bootState 2 4 with pool := CG_InitMarkPolys 2 4 (bootPool 2 4) }
      rfl (by decide) (by norm_num [shadowArgs])⟩

/-- C8 for `plainMark` with total lifetime 10000 and fade window 1000, at remaining
times 0 and 500. -/
theorem C8_fade_monotone_witness :
    plainMark.energy = false ∧ plainMark.alphaFade = false ∧
    (0 ≤ plainMark.color.c0 ∧ plainMark.color.c0 ≤ 1) ∧
    (0 ≤ plainMark.color.c1 ∧ plainMark.color.c1 ≤ 1) ∧
    (0 ≤ plainMark.color.c2 ∧ plainMark.color.c2 ≤ 1) ∧
    (0 : Int) ≤ 0 ∧ (0 : Int) ≤ 500 ∧ (500 : Int) < 1000 ∧
    fitsInt32 (plainMark.time + 10000) ∧ (255 * 500 : Int) ≤ 2147483647 ∧
    ∃ m1 m2, fadeMark (plainMark.time + 10000 - 0) 10000 1000 plainMark = .ok m1 ∧
      fadeMark (plainMark.time + 10000 - 500) 10000 1000 plainMark = .ok m2 ∧
      fadeMark (plainMark.time + 10000 - 0) 10000 1000 m2 = .ok m1 ∧
      List.Forall₂ (fun v1 v2 => v1.modulate.c0 ≤ v2.modulate.c0 ∧
          v1.modulate.c1 ≤ v2.modulate.c1 ∧ v1.modulate.c2 ≤ v2.modulate.c2)
        (markPoly m1).verts (markPoly m2).verts ∧
      ((0 : Int) = 0 → ∀ v ∈ (markPoly m1).verts,
        v.modulate.c0 = 0 ∧ v.modulate.c1 = 0 ∧ v.modulate.c2 = 0) :=
  ⟨rfl, rfl, by norm_num [plainMark], by norm_num [plainMark], by norm_num [plainMark],
    by decide, by decide, by decide, by decide, by decide,
    @C8_fade_monotone plainMark 10000 1000 0 500
      rfl rfl (by norm_num [plainMark]) (by norm_num [plainMark]) (by norm_num [plainMark])
      (by decide) (by decide) (by decide) (by decide) (by decide)⟩

/-! ## The failing allocation, through `CG_ImpactMark` -/

/-- A persistent call of `CG_ImpactMark` never returns when the free list is empty and
every active mark carries the `time` of the list head: the first fragment's
`CG_AllocMark` runs forever. -/
theorem impact_never_returns {V fuel : Nat} {E : Engine} {cg : Globals} {a : ImpactArgs}
    {s : State} {act : List Nat} (h : Linked s.pool act []) (hne : act ≠ [])
    (hs : ∀ i ∈ act, timeOf s.pool (.slot i) = s.pool.cg_activeMarkPolys.time)
    (hon : cg.cg_marks ≠ 0) (hr : 0 < a.radius) (ht : a.temporary = false)
    (hfr : (E.trap_CM_MarkFragments
      (originalPoints a.origin (textureAxes E a.dir a.orientation).1
        (textureAxes E a.dir a.orientation).2 a.radius)
      (VectorScale a.dir (-20)) MAX_MARK_POINTS MAX_MARK_FRAGMENTS).2 ≠ []) :
    CG_ImpactMark V fuel E cg a s = .error .outOfFuel := by
  unfold CG_ImpactMark
  simp only [hon, if_false, not_le.2 hr]
  generalize (E.trap_CM_MarkFragments
      (originalPoints a.origin (textureAxes E a.dir a.orientation).1
        (textureAxes E a.dir a.orientation).2 a.radius)
      (VectorScale a.dir (-20)) MAX_MARK_POINTS MAX_MARK_FRAGMENTS) = r at hfr ⊢
  obtain ⟨mpts, frags⟩ := r
  cases frags with
  | nil => exact absurd rfl hfr
  | cons mf rest =>
    have hpool : (if a.debug = true then { s with lastImpactOrigin := a.origin } else s).pool =
        s.pool := by split <;> rfl
    rw [impactLoop]
    simp only [ht, storeMark, hpool, alloc_diverges h hne hs, bind, Except.bind]
    rfl

theorem stateAtTimeZero_reachable : Reachable 2 4 stateAtTimeZero := by
  have h1 : ∃ s1 out1, CG_ImpactMark 4 0 flatEngine ⟨0, 1, 10000, 1000, 0⟩ bulletArgs
      { bootState 2 4 with pool := CG_InitMarkPolys 2 4 (bootPool 2 4) } = .ok (s1, out1) ∧
      ∃ out2, CG_ImpactMark 4 0 flatEngine ⟨0, 1, 10000, 1000, 0⟩ bulletArgs s1 =
        .ok (stateAtTimeZero, out2) := ⟨_, _, rfl, _, rfl⟩
  obtain ⟨s1, out1, e1, out2, e2⟩ := h1
  exact Reachable.impact _ _ _ _ (Reachable.impact _ _ _ _ Reachable.init e1) e2

/-- The hanging allocation reached through the interface: after `CG_InitMarkPolys` and
two stored marks at `cg.time = 0` the pool of two slots is full, and the next persistent
`CG_ImpactMark` never returns, whatever the fuel and whatever the clock then shows. -/
theorem impact_at_time_zero_never_returns (fuel : Nat) (t : Int) :
    Reachable 2 4 stateAtTimeZero ∧
    CG_ImpactMark 4 fuel flatEngine ⟨t, 1, 10000, 1000, 0⟩ bulletArgs stateAtTimeZero =
      .error .outOfFuel :=
  ⟨stateAtTimeZero_reachable,
    @impact_never_returns 4 fuel flatEngine ⟨t, 1, 10000, 1000, 0⟩ bulletArgs stateAtTimeZero
      [1, 0] (by with_unfolding_all decide) (by decide)
      (by with_unfolding_all decide) (by simp) (by norm_num [bulletArgs]) rfl
      (by simp [flatEngine])⟩

/-! ## The radius check and the enable switch -/

theorem free_error {p : Pool} {le : Ptr} {e : Fault} (h : CG_FreeMarkPoly p le = .error e) :
    e ≠ .badRadius := by
  rintro rfl
  simp only [CG_FreeMarkPoly, bind, Except.bind] at h
  cases h0 : p.read le with
  | error e => rw [h0] at h; have := read_error h0; subst this; cases h
  | ok m =>
    rw [h0] at h
    simp only at h
    split at h
    · simp [throw, throwThe, MonadExceptOf.throw] at h
    · simp only [pure, Except.pure] at h
      cases h1 : p.update m.prevMark fun x => { x with nextMark := m.nextMark } with
      | error e => rw [h1] at h; have := update_error h1; subst this; cases h
      | ok p1 =>
        rw [h1] at h
        simp only at h
        cases h2 : p1.read le with
        | error e => rw [h2] at h; have := read_error h2; subst this; cases h
        | ok m1 =>
          rw [h2] at h
          simp only at h
          cases h3 : p1.update m1.nextMark fun x => { x with prevMark := m1.prevMark } with
          | error e => rw [h3] at h; have := update_error h3; subst this; cases h
          | ok p2 =>
            rw [h3] at h
            simp only at h
            cases h4 : p2.update le fun x => { x with nextMark := p2.cg_freeMarkPolys } with
            | error e => rw [h4] at h; have := update_error h4; subst this; cases h
            | ok p3 => rw [h4] at h; cases h

theorem evictLoop_error {t : Int} : ∀ (fuel : Nat) {p : Pool} {e : Fault},
    evictLoop t fuel p = .error e → e ≠ .badRadius
  | 0, p, e, h => by simp [evictLoop] at h; subst h; simp
  | n + 1, p, e, h => by
    rintro rfl
    simp only [evictLoop, bind, Except.bind, pure, Except.pure] at h
    split at h
    · cases h
    · cases h0 : p.read p.cg_activeMarkPolys.prevMark with
      | error e => rw [h0] at h; have := read_error h0; subst this; cases h
      | ok m =>
        rw [h0] at h
        simp only at h
        split at h
        · cases h1 : CG_FreeMarkPoly p p.cg_activeMarkPolys.prevMark with
          | error e => rw [h1] at h; cases h; exact free_error h1 rfl
          | ok p1 => rw [h1] at h; exact evictLoop_error n h rfl
        · cases h

theorem bind_error {α β : Type} {x : Except Fault α} {f : α → Except Fault β} {e : Fault}
    (h : (x >>= f) = .error e) : x = .error e ∨ ∃ a, x = .ok a ∧ f a = .error e := by
  cases x with
  | error e' => exact Or.inl (by simpa [bind, Except.bind] using h)
  | ok a => exact Or.inr ⟨a, rfl, h⟩

theorem alloc_error {V fuel : Nat} {p : Pool} {e : Fault}
    (h : CG_AllocMark V fuel p = .error e) : e ≠ .badRadius := by
  rintro rfl
  unfold CG_AllocMark at h
  rcases bind_error h with h | ⟨p0, -, h⟩
  · unfold evictOldest at h
    split at h
    · rcases bind_error h with h | ⟨m, -, h⟩
      · cases read_error h
      · exact evictLoop_error _ h rfl
    · cases h
  · unfold allocLink at h
    rcases bind_error h with h | ⟨m, -, h⟩
    · cases read_error h
    rcases bind_error h with h | ⟨p2, -, h⟩
    · cases update_error h
    rcases bind_error h with h | ⟨p3, -, h⟩
    · cases update_error h
    rcases bind_error h with h | ⟨p4, -, h⟩
    · cases update_error h
    rcases bind_error h with h | ⟨p5, -, h⟩
    · cases update_error h
    cases h

theorem storeMark_error {V fuel : Nat} {cg : Globals} {a : ImpactArgs} {n : Nat}
    {verts : List polyVert_t} {p : Pool} {e : Fault}
    (h : storeMark V fuel cg a n verts p = .error e) : e ≠ .badRadius := by
  rintro rfl
  unfold storeMark at h
  rcases bind_error h with h | ⟨r, -, h⟩
  · exact alloc_error h rfl
  · cases update_error h

theorem impactLoop_error {V fuel : Nat} {cg : Globals} {a : ImpactArgs} {axis1 axis2 : Vec3}
    {tcs : ℚ} {colors : Chan4 Nat} {mpts : List Vec3} :
    ∀ (frags : List markFragment_t) {s : State} {out : List Poly} {e : Fault},
      impactLoop V fuel cg a axis1 axis2 tcs colors mpts frags s out = .error e →
      e ≠ .badRadius
  | [], s, out, e, h => by simp [impactLoop] at h
  | mf :: rest, s, out, e, h => by
    rw [impactLoop] at h
    split at h
    · exact impactLoop_error rest h
    · rcases bind_error h with h | ⟨p2, -, h⟩
      · exact storeMark_error h
      · exact impactLoop_error rest h

/-- C11 fails on the code as stated: with marks disabled a call with radius 0 returns
without any error. -/
theorem C11_no_radius_error_when_disabled :
    zeroRadiusArgs.radius ≤ 0 ∧
    CG_ImpactMark 4 0 flatEngine ⟨1000, 0, 10000, 1000, 0⟩ zeroRadiusArgs
        { bootState 2 4 with pool := CG_InitMarkPolys 2 4 (bootPool 2 4) } =
      .ok ({ bootState 2 4 with pool := CG_InitMarkPolys 2 4 (bootPool 2 4) }, []) :=
  ⟨le_refl _, rfl⟩

/-- C11, as the code has it. `CG_ImpactMark` raises its radius error exactly for the
calls with marks enabled and `radius ≤ 0`: for no call with `radius > 0` and for no call
with marks disabled. The test comes before the clipper is called and before the fragment
loop, so nothing has been allocated or submitted when it is raised. -/
theorem C11_radius_error (V fuel : Nat) (E : Engine) (cg : Globals) (a : ImpactArgs)
    (s : State) :
    CG_ImpactMark V fuel E cg a s = .error .badRadius ↔ cg.cg_marks ≠ 0 ∧ a.radius ≤ 0 := by
  unfold CG_ImpactMark
  simp only
  constructor
  · intro h
    split at h
    · cases h
    · rename_i hon
      split at h
      · rename_i hr
        exact ⟨hon, hr⟩
      · exact absurd rfl (impactLoop_error _ h)
  · rintro ⟨hon, hr⟩
    rw [if_neg hon, if_pos hr]

/-- C12 (marks disabled means no-op). With `cg_marks` off, `CG_ImpactMark` returns
without reading the engine or the pool: nothing is submitted, the pool and `markTotal`
are as before, and `lastImpactOrigin` is the impact origin when `debug` is set and is
unchanged when it is not; and `CG_AddMarks` returns the pool as it was and submits
nothing. -/
theorem C12_disabled_noop {cg : Globals} (hoff : cg.cg_marks = 0) (V fuel : Nat) (E : Engine)
    (a : ImpactArgs) (s : State) :
    CG_ImpactMark V fuel E cg a s =
      .ok ({ pool := s.pool, markTotal := s.markTotal,
             lastImpactOrigin := if a.debug = true then a.origin else s.lastImpactOrigin }, []) ∧
    CG_AddMarks fuel cg s.pool = .ok (s.pool, []) := by
  constructor
  · unfold CG_ImpactMark
    simp only [hoff, if_true]
    split <;> rfl
  · unfold CG_AddMarks
    rw [if_pos hoff]

/-- C12 for two calls on the pool `usedPool3`, with and without `debug`. -/
theorem C12_disabled_noop_witness :
    (0 : Int) = 0 ∧
    (CG_ImpactMark 4 0 flatEngine ⟨1000, 0, 10000, 1000, 0⟩ zeroRadiusArgs ⟨usedPool3, 7, zeroVec⟩ =
      .ok ({ pool := usedPool3, markTotal := 7,
             lastImpactOrigin :=
               if zeroRadiusArgs.debug = true then zeroRadiusArgs.origin else zeroVec }, []) ∧
    CG_AddMarks 0 ⟨1000, 0, 10000, 1000, 0⟩ usedPool3 = .ok (usedPool3, [])) :=
  ⟨rfl, @C12_disabled_noop ⟨1000, 0, 10000, 1000, 0⟩ rfl 4 0 flatEngine zeroRadiusArgs
    ⟨usedPool3, 7, zeroVec⟩⟩

/-! ## Allocation from the free list and the stored marks -/

/-- C13 (allocation with a non-empty free list evicts nothing). On a well-linked pool
whose free list is `k :: fr`, `CG_AllocMark` returns, whatever the fuel, the slot `k`
that was the head of the free list, with all its data fields zeroed; the free list
afterwards is `fr`; the active list afterwards is `k` followed by the old active list in
the same order; and no other slot's data, nor the list head's, has changed. -/
theorem C13_alloc_from_free {V : Nat} {p : Pool} {act fr : List Nat} {k : Nat}
    (h : Linked p act (k :: fr)) :
    p.cg_freeMarkPolys = .slot k ∧
    ∃ p', (∀ fuel, CG_AllocMark V fuel p = .ok (.slot k, p')) ∧ Linked p' (k :: act) fr ∧
      dataOf p' (.slot k) = .ok (zeroMark V).data ∧
      ∀ r, r ≠ .slot k → dataOf p' r = dataOf p r := by
  refine ⟨by simpa using h.free_head, ?_⟩
  obtain ⟨p', hal, hl, -, hdk, hdo⟩ := link_linked (V := V) h
  exact ⟨p', fun fuel => by rw [alloc_of_free h, hal], hl, hdk, hdo⟩

/-- C13 at `usedPool3`, whose free list is slot 0, slot 2 and whose active list is slot 1. -/
theorem C13_alloc_from_free_witness :
    Linked usedPool3 [1] (0 :: [2]) ∧
    (usedPool3.cg_freeMarkPolys = .slot 0 ∧
    ∃ p', (∀ fuel, CG_AllocMark 1 fuel usedPool3 = .ok (.slot 0, p')) ∧
      Linked p' (0 :: [1]) [2] ∧
      dataOf p' (.slot 0) = .ok (zeroMark 1).data ∧
      ∀ r, r ≠ .slot 0 → dataOf p' r = dataOf usedPool3 r) :=
  ⟨by decide, @C13_alloc_from_free 1 usedPool3 [1] [2] 0 (by decide)⟩

/-- Storing one fragment when the free list is not empty. -/
theorem storeMark_of_free {V fuel : Nat} {cg : Globals} {a : ImpactArgs} {n : Nat}
    {verts : List polyVert_t} {p : Pool} {act fr : List Nat} {i : Nat}
    (h : Linked p act (i :: fr)) :
    ∃ p2, storeMark V fuel cg a n verts p = .ok p2 ∧ Linked p2 (i :: act) fr ∧
      dataOf p2 (.slot i) = .ok (stampMark cg a n verts (zeroMark V)).data ∧
      ∀ r, r ≠ .slot i → dataOf p2 r = dataOf p r := by
  obtain ⟨p1, hal, hl1, -, hdk, hdo⟩ := link_linked (V := V) h
  obtain ⟨m, hm⟩ := read_of_valid (show Valid p1 (.slot i) from hl1.bound i (by simp))
  obtain ⟨p2, hu, hl2, -, hr2, ho2, -⟩ :=
    update_data_linked hl1 hm (stampMark cg a n verts) rfl rfl
  refine ⟨p2, ?_, hl2, ?_, ?_⟩
  · simp [storeMark, alloc_of_free h, hal, bind, Except.bind, hu]
  · rw [hm] at hdk
    simp only [Except.map, Except.ok.injEq] at hdk
    have hv : m.verts = (zeroMark V).verts := by
      have := congrArg markPoly_t.verts hdk
      simpa [markPoly_t.data] using this
    simp [dataOf, hr2, Except.map, markPoly_t.data, stampMark, hv]
  · intro r hr
    unfold dataOf
    rw [ho2 r hr]
    exact hdo r hr

/-- The fragment loop when the free list is long enough: nothing is evicted, fragment
number `j` goes to the `j`-th slot of the free list, and the slots end up in front of
the active list in reverse order. -/
theorem impactLoop_of_free {V fuel : Nat} {cg : Globals} {a : ImpactArgs} {axis1 axis2 : Vec3}
    {tcs : ℚ} {colors : Chan4 Nat} {mpts : List Vec3} (ht : a.temporary = false) :
    ∀ (frags : List markFragment_t) {s : State} {out : List Poly} {act fr : List Nat},
      Linked s.pool act fr → frags.length ≤ fr.length →
      ∃ s', impactLoop V fuel cg a axis1 axis2 tcs colors mpts frags s out = .ok (s', out) ∧
        Linked s'.pool ((fr.take frags.length).reverse ++ act) (fr.drop frags.length) ∧
        s'.markTotal = s.markTotal + frags.length ∧
        s'.lastImpactOrigin = s.lastImpactOrigin ∧
        List.Forall₂ (fun mf i => dataOf s'.pool (.slot i) =
            .ok (storedData V cg a axis1 axis2 tcs colors mpts mf))
          frags (fr.take frags.length) ∧
        ∀ r, (∀ i ∈ fr.take frags.length, r ≠ .slot i) → dataOf s'.pool r = dataOf s.pool r
  | [], s, out, act, fr, h, _ =>
    ⟨s, by simp [impactLoop], by simpa using h, by simp, rfl, by simp, fun _ _ => rfl⟩
  | mf :: rest, s, out, act, fr, h, hlen => by
    cases fr with
    | nil => simp at hlen
    | cons i fr =>
      obtain ⟨p2, hst, hl2, hdi, hdo⟩ := @storeMark_of_free V fuel cg a
        (if mf.numPoints > V then V else mf.numPoints)
        (fragmentVerts a.origin axis1 axis2 tcs colors mpts mf
          (if mf.numPoints > V then V else mf.numPoints)) s.pool act fr i h
      obtain ⟨s', hrun, hl', hmt, hlo, hfa, hoth⟩ :=
        @impactLoop_of_free V fuel cg a axis1 axis2 tcs colors mpts ht rest
          { s with pool := p2, markTotal := s.markTotal + 1 } out (i :: act) fr hl2
          (by simpa using hlen)
      have hnd := h.nodup
      simp [List.nodup_append, List.nodup_cons] at hnd
      have hi : ∀ j ∈ fr.take rest.length, Ptr.slot i ≠ Ptr.slot j := by
        intro j hj e
        cases e
        exact hnd.2.1.1 (List.mem_of_mem_take hj)
      refine ⟨s', ?_, ?_, ?_, hlo, ?_, ?_⟩
      · rw [impactLoop]
        simp only [ht, hst, bind, Except.bind]
        exact hrun
      · simpa using hl'
      · rw [hmt]; simp; ring
      · simp only [List.length_cons, List.take_succ_cons]
        refine List.Forall₂.cons ?_ hfa
        rw [hoth _ hi]
        exact hdi
      · intro r hr
        simp only [List.length_cons, List.take_succ_cons, List.mem_cons] at hr
        rw [hoth r fun j hj => hr j (Or.inr hj)]
        exact hdo r (hr i (Or.inl rfl))

/-- C14 (persistent impact postcondition). A call with `temporary` clear, marks enabled
and `radius > 0`, on a well-linked pool whose free list `fr` is at least as long as the
list of `k` fragments the clipper returns: the call returns and submits nothing; the
active list afterwards is the first `k` slots of the old free list in reverse order,
followed by the old active list with its data untouched; fragment number `j` is stored in
the `j`-th of those slots, stamped with `cg.time`, the two flags, the shader and the base
colour, with `numVerts = min numPoints MAX_VERTS_ON_POLY`, the positions of the first
`numVerts` points of the fragment and on every vertex the four channels times 255
converted to bytes; so no stored mark has more than `MAX_VERTS_ON_POLY` vertices. -/
theorem C14_persistent_impact {V fuel : Nat} {E : Engine} {cg : Globals} {a : ImpactArgs}
    {s : State} {act fr : List Nat} (ht : a.temporary = false) (hon : cg.cg_marks ≠ 0)
    (hr : 0 < a.radius) (h : Linked s.pool act fr)
    (hk : (E.trap_CM_MarkFragments
      (originalPoints a.origin (textureAxes E a.dir a.orientation).1
        (textureAxes E a.dir a.orientation).2 a.radius)
      (VectorScale a.dir (-20)) MAX_MARK_POINTS MAX_MARK_FRAGMENTS).2.length ≤ fr.length) :
    ∃ s' mpts frags,
      E.trap_CM_MarkFragments
        (originalPoints a.origin (textureAxes E a.dir a.orientation).1
          (textureAxes E a.dir a.orientation).2 a.radius)
        (VectorScale a.dir (-20)) MAX_MARK_POINTS MAX_MARK_FRAGMENTS = (mpts, frags) ∧
      CG_ImpactMark V fuel E cg a s = .ok (s', []) ∧
      Linked s'.pool ((fr.take frags.length).reverse ++ act) (fr.drop frags.length) ∧
      (∀ i ∈ act, dataOf s'.pool (.slot i) = dataOf s.pool (.slot i)) ∧
      List.Forall₂ (fun mf i => ∃ d, dataOf s'.pool (.slot i) = .ok d ∧
          d.time = cg.cg_time ∧ d.alphaFade = a.alphaFade ∧ d.energy = a.energy ∧
          d.markShader = a.markShader ∧ d.color = ⟨a.red, a.green, a.blue, a.alpha⟩ ∧
          d.numVerts = min mf.numPoints V ∧ d.numVerts ≤ V ∧
          (markPoly d).verts.map (fun v => v.xyz) =
            (List.range (min mf.numPoints V)).map (fun j =>
              mpts.getD (mf.firstPoint + j) zeroVec) ∧
          ∀ v ∈ (markPoly d).verts,
            v.modulate = ⟨floatToByte (fmul a.red 255), floatToByte (fmul a.green 255),
              floatToByte (fmul a.blue 255), floatToByte (fmul a.alpha 255)⟩)
        frags (fr.take frags.length) := by
  generalize hcl : (E.trap_CM_MarkFragments
      (originalPoints a.origin (textureAxes E a.dir a.orientation).1
        (textureAxes E a.dir a.orientation).2 a.radius)
      (VectorScale a.dir (-20)) MAX_MARK_POINTS MAX_MARK_FRAGMENTS) = cl at hk
  obtain ⟨mpts, frags⟩ := cl
  have hpool : (if a.debug = true then { s with lastImpactOrigin := a.origin } else s).pool =
      s.pool := by split <;> rfl
  obtain ⟨s', hrun, hl', -, -, hfa, hoth⟩ :=
    @impactLoop_of_free V fuel cg a (textureAxes E a.dir a.orientation).1
      (textureAxes E a.dir a.orientation).2
      (toFloat (toDouble (toDouble (1 / 2 * 1) / a.radius)))
      (packColors a.red a.green a.blue a.alpha) mpts ht frags
      (if a.debug = true then { s with lastImpactOrigin := a.origin } else s) [] act fr
      (by rw [hpool]; exact h) hk
  rw [hpool] at hoth
  refine ⟨s', mpts, frags, rfl, ?_, hl', ?_, ?_⟩
  · unfold CG_ImpactMark
    simp only [hon, if_false, not_le.2 hr, hcl]
    exact hrun
  · intro i hi
    refine hoth _ fun j hj e => ?_
    cases e
    have hnd := h.nodup
    rw [List.nodup_append] at hnd
    exact hnd.2.2 hi (List.mem_of_mem_take hj)
  · refine hfa.imp ?_
    intro mf i hd
    refine ⟨_, hd, rfl, rfl, rfl, rfl, rfl, ?_, ?_, ?_, ?_⟩
    · show (if mf.numPoints > V then V else mf.numPoints) = min mf.numPoints V
      split <;> omega
    · show (if mf.numPoints > V then V else mf.numPoints) ≤ V
      split <;> omega
    · have hn : (if mf.numPoints > V then V else mf.numPoints) = min mf.numPoints V := by
        split <;> omega
      have hv : (markPoly (storedData V cg a (textureAxes E a.dir a.orientation).1
          (textureAxes E a.dir a.orientation).2
          (toFloat (toDouble (toDouble (1 / 2 * 1) / a.radius)))
          (packColors a.red a.green a.blue a.alpha) mpts mf)).verts =
          fragmentVerts a.origin (textureAxes E a.dir a.orientation).1
            (textureAxes E a.dir a.orientation).2
            (toFloat (toDouble (toDouble (1 / 2 * 1) / a.radius)))
            (packColors a.red a.green a.blue a.alpha) mpts mf
            (if mf.numPoints > V then V else mf.numPoints) := by
        simp only [markPoly, storedData, markPoly_t.data, stampMark]
        rw [List.take_append_of_le_length (by rw [fragmentVerts_length])]
        exact List.take_of_length_le (by rw [fragmentVerts_length])
      rw [hv, hn]
      simp [fragmentVerts, markVert]
    · intro v hv
      have hs : Stamped V cg a (packColors a.red a.green a.blue a.alpha)
          (storedData V cg a (textureAxes E a.dir a.orientation).1
            (textureAxes E a.dir a.orientation).2
            (toFloat (toDouble (toDouble (1 / 2 * 1) / a.radius)))
            (packColors a.red a.green a.blue a.alpha) mpts mf) :=
        ⟨_, _, fragmentVerts_length _ _ _ _ _ _ _ _, fun v hv => fragmentVerts_modulate hv, rfl⟩
      exact (stamped_fields hs).2.2.2.2.2 v hv

/-- C14 for one bullet mark stored at time 1000 in a fresh pool of two slots. -/
theorem C14_persistent_impact_witness :
    bulletArgs.temporary = false ∧ (1 : Int) ≠ 0 ∧ 0 < bulletArgs.radius ∧
    Linked freshState2.pool [] [0, 1] ∧
    (flatEngine.trap_CM_MarkFragments
      (originalPoints bulletArgs.origin
        (textureAxes flatEngine bulletArgs.dir bulletArgs.orientation).1
        (textureAxes flatEngine bulletArgs.dir bulletArgs.orientation).2 bulletArgs.radius)
      (VectorScale bulletArgs.dir (-20)) MAX_MARK_POINTS MAX_MARK_FRAGMENTS).2.length ≤
        [0, 1].length ∧
    ∃ s' mpts frags,
      flatEngine.trap_CM_MarkFragments
        (originalPoints bulletArgs.origin
          (textureAxes flatEngine bulletArgs.dir bulletArgs.orientation).1
          (textureAxes flatEngine bulletArgs.dir bulletArgs.orientation).2 bulletArgs.radius)
        (VectorScale bulletArgs.dir (-20)) MAX_MARK_POINTS MAX_MARK_FRAGMENTS = (mpts, frags) ∧
      CG_ImpactMark 4 0 flatEngine ⟨1000, 1, 10000, 1000, 0⟩ bulletArgs freshState2 =
        .ok (s', []) ∧
      Linked s'.pool (([0, 1].take frags.length).reverse ++ []) ([0, 1].drop frags.length) ∧
      (∀ i ∈ ([] : List Nat), dataOf s'.pool (.slot i) = dataOf freshState2.pool (.slot i)) ∧
      List.Forall₂ (fun mf i => ∃ d, dataOf s'.pool (.slot i) = .ok d ∧
          d.time = 1000 ∧ d.alphaFade = bulletArgs.alphaFade ∧ d.energy = bulletArgs.energy ∧
          d.markShader = bulletArgs.markShader ∧
          d.color = ⟨bulletArgs.red, bulletArgs.green, bulletArgs.blue, bulletArgs.alpha⟩ ∧
          d.numVerts = min mf.numPoints 4 ∧ d.numVerts ≤ 4 ∧
          (markPoly d).verts.map (fun v => v.xyz) =
            (List.range (min mf.numPoints 4)).map (fun j =>
              mpts.getD (mf.firstPoint + j) zeroVec) ∧
          ∀ v ∈ (markPoly d).verts,
            v.modulate = ⟨floatToByte (fmul bulletArgs.red 255),
              floatToByte (fmul bulletArgs.green 255), floatToByte (fmul bulletArgs.blue 255),
              floatToByte (fmul bulletArgs.alpha 255)⟩)
        frags ([0, 1].take frags.length) :=
  ⟨rfl, by decide, by norm_num [bulletArgs], by decide, by simp [flatEngine],
    @C14_persistent_impact 4 0 flatEngine ⟨1000, 1, 10000, 1000, 0⟩ bulletArgs freshState2
      [] [0, 1] rfl (by decide) (by norm_num [bulletArgs]) (by decide) (by simp [flatEngine])⟩

/-! ## Ranges of the two fade factors -/

theorem truncQ_ge {q : ℚ} {z : Int} (hz : 0 ≤ z) (h : (z : ℚ) ≤ q) : z ≤ truncQ q := by
  unfold truncQ
  have h0 : (0 : ℚ) ≤ q := le_trans (by exact_mod_cast hz) h
  rw [if_pos h0]
  exact Int.le_floor.2 h

theorem truncQ_nonpos {q : ℚ} (h : q ≤ 0) : truncQ q ≤ 0 := by
  unfold truncQ
  split
  · rename_i h0
    have : q = 0 := le_antisymm h h0
    subst this
    simp
  · exact Int.ceil_le.2 (by exact_mod_cast h)

/-- The energy intensity is at least 255 up to age 1300. -/
theorem energyFade_young {T : Int} {m : markPoly_t} (h : T - m.time ≤ 1300) :
    255 ≤ energyFade T m := by
  unfold energyFade
  refine truncQ_ge (by norm_num) ?_
  have h0 : ((T - m.time : Int) : ℚ) ≤ 1300 := by exact_mod_cast h
  have h1 : toDouble (((T - m.time : Int) : ℚ) / 3000) ≤ toDouble (1300 / 3000) :=
    toDouble_mono (by linarith)
  have h2 : toDouble (450 * toDouble (((T - m.time : Int) : ℚ) / 3000)) ≤
      toDouble (450 * toDouble (1300 / 3000)) := toDouble_mono (by linarith)
  have h3 : toDouble (450 - toDouble (450 * toDouble (1300 / 3000))) ≤
      toDouble (450 - toDouble (450 * toDouble (((T - m.time : Int) : ℚ) / 3000))) :=
    toDouble_mono (by linarith)
  have hc : (255 : ℚ) ≤ toDouble (450 - toDouble (450 * toDouble (1300 / 3000))) := by
    with_unfolding_all decide
  exact_mod_cast hc.trans h3

/-- The energy intensity is at most 0 from age 3000 on. -/
theorem energyFade_old {T : Int} {m : markPoly_t} (h : 3000 ≤ T - m.time) :
    energyFade T m ≤ 0 := by
  unfold energyFade
  refine truncQ_nonpos ?_
  have h0 : (3000 : ℚ) ≤ ((T - m.time : Int) : ℚ) := by exact_mod_cast h
  have h1 : toDouble (3000 / 3000) ≤ toDouble (((T - m.time : Int) : ℚ) / 3000) :=
    toDouble_mono (by linarith)
  have h2 : toDouble (450 * toDouble (3000 / 3000)) ≤
      toDouble (450 * toDouble (((T - m.time : Int) : ℚ) / 3000)) :=
    toDouble_mono (by linarith)
  have h3 : toDouble (450 - toDouble (450 * toDouble (((T - m.time : Int) : ℚ) / 3000))) ≤
      toDouble (450 - toDouble (450 * toDouble (3000 / 3000))) :=
    toDouble_mono (by linarith)
  have hc : toDouble (450 - toDouble (450 * toDouble (3000 / 3000))) ≤ (0 : ℚ) := by
    with_unfolding_all decide
  exact h3.trans hc

/-- The energy intensity in `double` arithmetic at four ages: one below the exact value
450 - 450 * age / 3000 at ages 1520, 1620 and 1680, equal to it at age 1500. -/
theorem energyFade_samples :
    energyFade 2520 energyMark = 221 ∧ energyFade 2620 energyMark = 206 ∧
    energyFade 2680 energyMark = 197 ∧ energyFade 2500 energyMark = 225 := by
  refine ⟨?_, ?_, ?_, ?_⟩ <;> with_unfolding_all decide

theorem energyStep_apply {T : Int} {m : markPoly_t} (he : m.energy = true)
    (hf : energyFade T m < 255) (hg : (m.verts.headD zeroVert).modulate.c0 ≠ 0) :
    energyStep T m = energyRewrite m (clampFade (energyFade T m)) := by
  unfold energyStep
  rw [if_pos he]
  simp only
  rw [if_pos hf, if_pos hg]
  rfl

theorem energyStep_skip_guard {T : Int} {m : markPoly_t}
    (hg : (m.verts.headD zeroVert).modulate.c0 = 0) : energyStep T m = m := by
  unfold energyStep
  split <;> [skip; rfl]
  simp only
  split <;> [skip; rfl]
  rw [if_neg (not_not.2 hg)]

theorem energyStep_skip_fade {T : Int} {m : markPoly_t} (hf : ¬ energyFade T m < 255) :
    energyStep T m = m := by
  unfold energyStep
  split <;> [skip; rfl]
  simp only
  rw [if_neg hf]

theorem clampFade_range {k : Int} (h : k < 255) : 0 ≤ clampFade k ∧ clampFade k ≤ 254 := by
  unfold clampFade
  split <;> omega

theorem timeFadeStep_apply {T L F : Int} {m : markPoly_t}
    (ht : wrap32 (m.time + L) - T < F) (hF : F ≠ 0) :
    timeFadeStep T L F m =
      .ok (generalFade (Int.tdiv (wrap32 (255 * (wrap32 (m.time + L) - T))) F) m) := by
  unfold timeFadeStep generalFade
  simp only
  rw [if_pos ht, if_neg hF]
  split
  · rfl
  · split <;> rfl

theorem timeFadeStep_skip {T L F : Int} {m : markPoly_t}
    (ht : ¬ wrap32 (m.time + L) - T < F) : timeFadeStep T L F m = .ok m := by
  unfold timeFadeStep
  simp only
  rw [if_neg ht]

/-- C15 fails on the code as stated: with `cg_markTime` and `cg_markFadeTime` 20000000
the product `255 * t` overflows a 32-bit `int`. For the alpha-fade mark stored at time
1000, at remaining time 10000000, half of the fade window, the factor the code computes
is -87, and the alpha byte submitted is 169. -/
theorem C15_long_fade_window_negative_factor :
    timeOf alphaState.pool (.slot 0) = 1000 ∧
    wrap32 (1000 + 20000000) - 10001000 = 10000000 ∧
    Int.tdiv (wrap32 (255 * (wrap32 (1000 + 20000000) - 10001000))) 20000000 = -87 ∧
    (CG_AddMarks 3 ⟨10001000, 1, 20000000, 20000000, 0⟩ alphaState.pool).map
        (fun r => r.2.map fun q => q.verts.map fun v => v.modulate) =
      .ok [[⟨255, 127, 0, 169⟩, ⟨255, 127, 0, 169⟩, ⟨255, 127, 0, 169⟩,
        ⟨255, 127, 0, 169⟩]] := by
  refine ⟨?_, ?_, ?_, ?_⟩
  · with_unfolding_all decide
  · decide
  · decide
  · with_unfolding_all rfl

/-- C15 (fade factors are in byte range and the division is safe), where `255 * t` fits
32 bits. For every `cg_markTime` and `cg_markFadeTime`, also zero or negative, and every
mark that passes the expiry test: the pass over the mark returns, so it never divides by
zero; the general fade is skipped when `remaining < cg_markFadeTime` fails and is entered
only with `0 ≤ remaining < cg_markFadeTime`, where it is `generalFade` with the factor
`255 * remaining / cg_markFadeTime`, which lies in [0, 254] when `255 * remaining` fits a
32-bit `int`; the energy block leaves the mark as it is when the intensity is 255 or
more, and in every case either leaves the mark as it is or is `energyRewrite` with the
intensity clamped at 0, which lies in [0, 254]. -/
theorem C15_fade_factor_range {T L F : Int} (m : markPoly_t)
    (hlive : ¬ T > wrap32 (m.time + L)) :
    (∃ m', fadeMark T L F m = .ok m') ∧
    (¬ wrap32 (m.time + L) - T < F → timeFadeStep T L F m = .ok m) ∧
    (wrap32 (m.time + L) - T < F →
      0 ≤ wrap32 (m.time + L) - T ∧ F ≠ 0 ∧
      timeFadeStep T L F m =
        .ok (generalFade (Int.tdiv (wrap32 (255 * (wrap32 (m.time + L) - T))) F) m) ∧
      (255 * (wrap32 (m.time + L) - T) ≤ 2147483647 →
        0 ≤ Int.tdiv (wrap32 (255 * (wrap32 (m.time + L) - T))) F ∧
        Int.tdiv (wrap32 (255 * (wrap32 (m.time + L) - T))) F ≤ 254)) ∧
    (255 ≤ energyFade T m → energyStep T m = m) ∧
    (energyStep T m = m ∨
      (0 ≤ clampFade (energyFade T m) ∧ clampFade (energyFade T m) ≤ 254 ∧
        energyStep T m = energyRewrite m (clampFade (energyFade T m)))) := by
  refine ⟨fadeMark_ok m hlive, timeFadeStep_skip, ?_,
    fun h => energyStep_skip_fade (not_lt.2 h), ?_⟩
  · intro ht
    have h0 : 0 ≤ wrap32 (m.time + L) - T := by omega
    have hF : F ≠ 0 := by omega
    refine ⟨h0, hF, timeFadeStep_apply ht hF, fun hmul => ?_⟩
    rw [wrap32_of_fits ⟨by omega, hmul⟩]
    exact fadeFactor_range h0 ht
  · by_cases he : m.energy = true
    · by_cases hf : energyFade T m < 255
      · by_cases hg : (m.verts.headD zeroVert).modulate.c0 = 0
        · exact Or.inl (energyStep_skip_guard hg)
        · obtain ⟨h1, h2⟩ := clampFade_range hf
          exact Or.inr ⟨h1, h2, energyStep_apply he hf hg⟩
      · exact Or.inl (energyStep_skip_fade hf)
    · exact Or.inl (energyStep_of_not_energy (by simpa using he))

/-- C15 for `whiteEnergyMark`, the white energy mark stored at time 1000, in the pass at
time 3975 with lifetime 2985 and fade window 1000: the energy intensity applied is 3 and
the factor of the general fade is 2. -/
theorem C15_fade_factor_range_witness :
    (¬ (3975 : Int) > wrap32 (whiteEnergyMark.time + 2985)) ∧
    clampFade (energyFade 3975 whiteEnergyMark) = 3 ∧
    Int.tdiv (wrap32 (255 * (wrap32 (whiteEnergyMark.time + 2985) - 3975))) 1000 = 2 ∧
    ((∃ m', fadeMark 3975 2985 1000 whiteEnergyMark = .ok m') ∧
    (¬ wrap32 (whiteEnergyMark.time + 2985) - 3975 < 1000 →
      timeFadeStep 3975 2985 1000 whiteEnergyMark = .ok whiteEnergyMark) ∧
    (wrap32 (whiteEnergyMark.time + 2985) - 3975 < 1000 →
      0 ≤ wrap32 (whiteEnergyMark.time + 2985) - 3975 ∧ (1000 : Int) ≠ 0 ∧
      timeFadeStep 3975 2985 1000 whiteEnergyMark =
        .ok (generalFade
          (Int.tdiv (wrap32 (255 * (wrap32 (whiteEnergyMark.time + 2985) - 3975))) 1000)
          whiteEnergyMark) ∧
      (255 * (wrap32 (whiteEnergyMark.time + 2985) - 3975) ≤ 2147483647 →
        0 ≤ Int.tdiv (wrap32 (255 * (wrap32 (whiteEnergyMark.time + 2985) - 3975))) 1000 ∧
        Int.tdiv (wrap32 (255 * (wrap32 (whiteEnergyMark.time + 2985) - 3975))) 1000 ≤ 254)) ∧
    (255 ≤ energyFade 3975 whiteEnergyMark →
      energyStep 3975 whiteEnergyMark = whiteEnergyMark) ∧
    (energyStep 3975 whiteEnergyMark = whiteEnergyMark ∨
      (0 ≤ clampFade (energyFade 3975 whiteEnergyMark) ∧
        clampFade (energyFade 3975 whiteEnergyMark) ≤ 254 ∧
        energyStep 3975 whiteEnergyMark =
          energyRewrite whiteEnergyMark (clampFade (energyFade 3975 whiteEnergyMark))))) :=
  ⟨by with_unfolding_all decide, by with_unfolding_all decide, by with_unfolding_all decide,
    @C15_fade_factor_range 3975 2985 1000 whiteEnergyMark (by with_unfolding_all decide)⟩

/-! ## The energy fade -/

/-- C16 fails on the code as stated: an energy mark whose first red byte is 0 is never
touched by the energy fade, and at age 3000 its G and B bytes are still 255. -/
theorem C16_energy_mark_without_red_stays_bright :
    cyanEnergyRun = .ok [[⟨0, 255, 255, 255⟩, ⟨0, 255, 255, 255⟩,
      ⟨0, 255, 255, 255⟩, ⟨0, 255, 255, 255⟩]] := by
  with_unfolding_all rfl

/-- The energy step from age 3000 on, when the guard lets it run: all R, G, B bytes of
the first `numVerts` vertices become 0. -/
theorem energyStep_old {T : Int} {m : markPoly_t} (he : m.energy = true)
    (h : 3000 ≤ T - m.time) (hg : (m.verts.headD zeroVert).modulate.c0 ≠ 0) :
    energyStep T m = { m with verts := forVerts m.numVerts (fun v =>
      { v with modulate := ⟨0, 0, 0, v.modulate.c3⟩ }) m.verts } := by
  have h0 := energyFade_old h
  have h1 : energyFade T m < 255 := by omega
  have h2 : (if energyFade T m < 0 then 0 else energyFade T m) = 0 := by
    split <;> omega
  unfold energyStep
  simp only [he, if_true, h1, h2, hg, ne_eq, not_false_eq_true, fadeByte_zero]

/-- C16, as the code has it. For an energy mark at age `a = cg.time - time`: up to age
1300 the energy step changes nothing; from age 3000 on, in a pass that finds the first
vertex's red byte nonzero, the R, G and B bytes of every submitted vertex are 0; and a
mark whose first red byte is 0 is left as it is by the energy step, at any age. -/
theorem C16_energy_window {T L F : Int} {m : markPoly_t} (he : m.energy = true) :
    (T - m.time ≤ 1300 → energyStep T m = m) ∧
    (3000 ≤ T - m.time → (m.verts.headD zeroVert).modulate.c0 ≠ 0 →
      ¬ T > wrap32 (m.time + L) →
      ∃ m', fadeMark T L F m = .ok m' ∧ ∀ v ∈ (markPoly m').verts,
        v.modulate.c0 = 0 ∧ v.modulate.c1 = 0 ∧ v.modulate.c2 = 0) ∧
    ((m.verts.headD zeroVert).modulate.c0 = 0 → energyStep T m = m) := by
  refine ⟨?_, ?_, ?_⟩
  · intro h
    have := energyFade_young h
    unfold energyStep
    rw [if_pos he]
    simp only
    rw [if_neg (by omega)]
  · intro h hg hlive
    obtain ⟨m', hf⟩ := fadeMark_ok (F := F) m hlive
    refine ⟨m', hf, ?_⟩
    unfold fadeMark at hf
    rw [energyStep_old he h hg] at hf
    unfold timeFadeStep at hf
    simp only [he, if_true] at hf
    intro v hv
    split at hf
    · split at hf
      · cases hf
      · split at hf
        · simp only [Except.ok.injEq] at hf
          subst hf
          simp only [markPoly, forVerts_take, List.mem_map] at hv
          obtain ⟨w, hw, rfl⟩ := hv
          obtain ⟨u, -, rfl⟩ := hw
          exact ⟨rfl, rfl, rfl⟩
        · simp only [Except.ok.injEq] at hf
          subst hf
          simp only [markPoly, forVerts_take, List.mem_map] at hv
          obtain ⟨w, hw, rfl⟩ := hv
          obtain ⟨u, -, rfl⟩ := hw
          simp [toByte]
    · simp only [Except.ok.injEq] at hf
      subst hf
      simp only [markPoly, forVerts_take, List.mem_map] at hv
      obtain ⟨w, -, rfl⟩ := hv
      exact ⟨rfl, rfl, rfl⟩
  · intro hg
    unfold energyStep
    rw [if_pos he]
    simp only [hg, ne_eq, not_true_eq_false, if_false]
    split <;> rfl

/-- C16 for `energyMark` in a pass at time 4000. -/
theorem C16_energy_window_witness :
    energyMark.energy = true ∧
    ((4000 - energyMark.time ≤ 1300 → energyStep 4000 energyMark = energyMark) ∧
    (3000 ≤ 4000 - energyMark.time → (energyMark.verts.headD zeroVert).modulate.c0 ≠ 0 →
      ¬ (4000 : Int) > wrap32 (energyMark.time + 10000) →
      ∃ m', fadeMark 4000 10000 1000 energyMark = .ok m' ∧ ∀ v ∈ (markPoly m').verts,
        v.modulate.c0 = 0 ∧ v.modulate.c1 = 0 ∧ v.modulate.c2 = 0) ∧
    ((energyMark.verts.headD zeroVert).modulate.c0 = 0 →
      energyStep 4000 energyMark = energyMark)) :=
  ⟨rfl, @C16_energy_window 4000 10000 1000 energyMark rfl⟩

/-! ## The guard of the energy fade against an explicit flag -/

/-- C17 fails on the code as stated: for an energy mark without red the guard never lets
the energy fade run, while the flag variant dims the mark. At age 1500 `CG_AddMarks`
submits G and B bytes 255 for the stored mark, which is what `runGuard` gives for that
mark, and the variant submits 225. -/
theorem C17_guard_differs_from_flag :
    cyanGuardRun.map (fun out => out.map fun q => q.verts.map fun v => v.modulate) =
      .ok [[⟨0, 255, 255, 255⟩, ⟨0, 255, 255, 255⟩, ⟨0, 255, 255, 255⟩, ⟨0, 255, 255, 255⟩]] ∧
    runGuard [⟨2500, 1, 10000, 1000, 0⟩] cyanMark = cyanGuardRun ∧
    (runFlag [⟨2500, 1, 10000, 1000, 0⟩] cyanMark false).map
        (fun out => out.map fun q => q.verts.map fun v => v.modulate) =
      .ok [[⟨0, 225, 225, 255⟩, ⟨0, 225, 225, 255⟩, ⟨0, 225, 225, 255⟩, ⟨0, 225, 225, 255⟩]] := by
  refine ⟨?_, ?_, ?_⟩ <;> with_unfolding_all rfl

theorem forVerts_zero (f : polyVert_t → polyVert_t) (vs : List polyVert_t) :
    forVerts 0 f vs = vs := by
  simp [forVerts]

theorem forVerts_ne_nil {n : Nat} {f : polyVert_t → polyVert_t} {vs : List polyVert_t}
    (h : vs ≠ []) : forVerts n f vs ≠ [] := by
  intro e
  have := congrArg List.length e
  rw [forVerts_length] at this
  exact h (List.length_eq_zero.1 this)

theorem forVerts_headD {n : Nat} (f : polyVert_t → polyVert_t) {vs : List polyVert_t}
    (hn : 0 < n) (h : vs ≠ []) (d : polyVert_t) :
    (forVerts n f vs).headD d = f (vs.headD d) := by
  cases vs with
  | nil => exact absurd rfl h
  | cons v vs =>
    obtain ⟨k, rfl⟩ : ∃ k, n = k + 1 := ⟨n - 1, by omega⟩
    simp [forVerts]

theorem floatToByte_one_mul {k : Int} (h0 : 0 ≤ k) (h1 : k ≤ 254) :
    floatToByte (fmul 1 (toFloat (k : ℚ))) = k.toNat := by
  rw [toFloat_fade h0 h1]
  unfold fmul
  rw [one_mul, toFloat_fade h0 h1, floatToByte_of_range (by exact_mod_cast h0) (by
    have : (k : ℚ) ≤ 254 := by exact_mod_cast h1
    linarith), Int.floor_intCast]

theorem energyStepFlag_apply {T : Int} {m : markPoly_t} (he : m.energy = true)
    (hf : energyFade T m < 255) :
    energyStepFlag T m false =
      (energyRewrite m (clampFade (energyFade T m)),
        decide (clampFade (energyFade T m) = 0)) := by
  unfold energyStepFlag
  rw [if_pos he]
  simp only
  rw [if_pos hf, if_pos trivial]
  rfl

theorem energyStepFlag_skip_set {T : Int} {m : markPoly_t} :
    energyStepFlag T m true = (m, true) := by
  unfold energyStepFlag
  split <;> [skip; rfl]
  simp only
  split <;> [skip; rfl]
  simp

theorem energyStepFlag_skip_fade {T : Int} {m : markPoly_t} {z : Bool}
    (hf : ¬ energyFade T m < 255) : energyStepFlag T m z = (m, z) := by
  unfold energyStepFlag
  split <;> [skip; rfl]
  simp only
  rw [if_neg hf]

theorem energyStepFlag_not_energy {T : Int} {m : markPoly_t} {z : Bool}
    (he : m.energy = false) : energyStepFlag T m z = (m, z) := by
  unfold energyStepFlag
  rw [if_neg (by simp [he])]

theorem energyRewrite_of_no_verts {m : markPoly_t} (h0 : m.numVerts = 0) (k : Int) :
    energyRewrite m k = m := by
  cases m
  simp only at h0
  subst h0
  simp [energyRewrite, forVerts_zero]

/-- On a mark in lockstep the energy block of the flag variant does what the energy
block of the code does, and the mark stays in lockstep. -/
theorem energyStepFlag_eq {T : Int} {m : markPoly_t} {z : Bool} (h : Lockstep m z) :
    ∃ z', energyStepFlag T m z = (energyStep T m, z') ∧ Lockstep (energyStep T m) z' := by
  rcases h with he | ⟨he, ha, h0 | ⟨hc, hn, hv, hz⟩⟩
  · rw [energyStep_of_not_energy he]
    exact ⟨z, energyStepFlag_not_energy he, Or.inl he⟩
  · have hstep : energyStep T m = m := by
      by_cases hf : energyFade T m < 255
      · by_cases hg : (m.verts.headD zeroVert).modulate.c0 = 0
        · exact energyStep_skip_guard hg
        · rw [energyStep_apply he hf hg, energyRewrite_of_no_verts h0]
      · exact energyStep_skip_fade hf
    rw [hstep]
    have hl : ∀ z', Lockstep m z' := fun _ => Or.inr ⟨he, ha, Or.inl h0⟩
    by_cases hf : energyFade T m < 255
    · cases z with
      | false =>
        exact ⟨_, by rw [energyStepFlag_apply he hf, energyRewrite_of_no_verts h0], hl _⟩
      | true => exact ⟨true, energyStepFlag_skip_set, hl _⟩
    · exact ⟨z, energyStepFlag_skip_fade hf, hl _⟩
  · by_cases hf : energyFade T m < 255
    · cases z with
      | true =>
        have hr : (m.verts.headD zeroVert).modulate.c0 = 0 := hz.1 rfl
        rw [energyStep_skip_guard hr]
        exact ⟨true, energyStepFlag_skip_set, Or.inr ⟨he, ha, Or.inr ⟨hc, hn, hv, hz⟩⟩⟩
      | false =>
        have hr : (m.verts.headD zeroVert).modulate.c0 ≠ 0 := fun e => by
          have := hz.2 e
          cases this
        obtain ⟨hk0, hk1⟩ := clampFade_range hf
        rw [energyStep_apply he hf hr]
        refine ⟨_, energyStepFlag_apply he hf,
          Or.inr ⟨he, ha, Or.inr ⟨hc, hn, forVerts_ne_nil hv, ?_⟩⟩⟩
        show decide (clampFade (energyFade T m) = 0) = true ↔
          ((forVerts m.numVerts _ m.verts).headD zeroVert).modulate.c0 = 0
        rw [forVerts_headD _ hn hv]
        simp only [hc, floatToByte_one_mul hk0 hk1, decide_eq_true_eq]
        omega
    · rw [energyStep_skip_fade hf]
      exact ⟨z, energyStepFlag_skip_fade hf, Or.inr ⟨he, ha, Or.inr ⟨hc, hn, hv, hz⟩⟩⟩

/-- The general fade keeps a mark in lockstep: on an alpha-fade mark it rewrites alpha
only. -/
theorem timeFadeStep_lockstep {T L F : Int} {m m1 : markPoly_t} {z : Bool}
    (h : Lockstep m z) (hs : timeFadeStep T L F m = .ok m1) : Lockstep m1 z := by
  have hf := timeFadeStep_fields hs
  rcases h with he | ⟨he, ha, h0 | ⟨hc, hn, hv, hz⟩⟩
  · left
    rw [hf]
    exact he
  · right
    exact ⟨by rw [hf]; exact he, by rw [hf]; exact ha, Or.inl (by rw [hf]; exact h0)⟩
  · have hverts : m1.verts ≠ [] ∧
        (m1.verts.headD zeroVert).modulate.c0 = (m.verts.headD zeroVert).modulate.c0 := by
      unfold timeFadeStep at hs
      simp only at hs
      split at hs
      · split at hs
        · cases hs
        · cases hs
          refine ⟨forVerts_ne_nil hv, ?_⟩
          show ((forVerts m.numVerts _ m.verts).headD zeroVert).modulate.c0 = _
          rw [forVerts_headD _ hn hv]
      · cases hs
        exact ⟨hv, rfl⟩
    right
    refine ⟨by rw [hf]; exact he, by rw [hf]; exact ha, Or.inr ⟨by rw [hf]; exact hc,
      by rw [hf]; exact hn, hverts.1, ?_⟩⟩
    rw [hverts.2]
    exact hz

/-- One iteration of the flag variant on a mark in lockstep is one iteration of the
code, and the result is in lockstep. -/
theorem fadeMarkFlag_eq {T L F : Int} {m : markPoly_t} {z : Bool} (h : Lockstep m z) :
    ∃ z', fadeMarkFlag T L F m z = (fadeMark T L F m).map (fun m1 => (m1, z')) ∧
      ∀ m1, fadeMark T L F m = .ok m1 → Lockstep m1 z' := by
  obtain ⟨z', hz', hl⟩ := energyStepFlag_eq (T := T) h
  refine ⟨z', ?_, fun m1 h1 => timeFadeStep_lockstep hl h1⟩
  unfold fadeMarkFlag fadeMark
  rw [hz']

/-- On a mark in lockstep the flag variant submits what the code submits, over every
sequence of frames. -/
theorem runFlag_eq (ps : List Globals) :
    ∀ (m : markPoly_t) (z : Bool), Lockstep m z → runFlag ps m z = runGuard ps m := by
  induction ps with
  | nil => intro m z _; rfl
  | cons cg rest ih =>
    intro m z h
    obtain ⟨z', hz', hl⟩ :=
      fadeMarkFlag_eq (T := cg.cg_time) (L := cg.cg_markTime) (F := cg.cg_markFadeTime) h
    unfold runFlag runGuard
    split
    · exact ih m z h
    · split
      · rfl
      · rw [hz']
        cases hfm : fadeMark cg.cg_time cg.cg_markTime cg.cg_markFadeTime m with
        | error e => rfl
        | ok m1 =>
          have := ih m1 z' (hl m1 hfm)
          simp only [Except.map, bind, Except.bind]
          rw [this]

/-- A mark as `CG_ImpactMark` stores it is in lockstep with a cleared flag when it is not
an energy mark, or fades alpha and has full red. -/
theorem stamped_lockstep (V : Nat) (cg : Globals) (a : ImpactArgs) (verts : List polyVert_t)
    (h : a.energy = false ∨ (a.alphaFade = true ∧ a.red = 1))
    (hcol : ∀ v ∈ verts, v.modulate = packColors a.red a.green a.blue a.alpha) :
    Lockstep (stampMark cg a verts.length verts (zeroMark V)) false := by
  cases he : a.energy with
  | false => exact Or.inl he
  | true =>
    rcases h with h | ⟨ha, hr⟩
    · rw [he] at h
      cases h
    · refine Or.inr ⟨he, ha, ?_⟩
      cases verts with
      | nil => exact Or.inl rfl
      | cons v vs =>
        refine Or.inr ⟨hr, Nat.succ_pos _, by simp [stampMark], ?_⟩
        have hv := hcol v (List.mem_cons_self _ _)
        have h255 : floatToByte (fmul 1 255) = 255 := by
          have hf : fmul 1 255 = 255 := by
            unfold fmul
            rw [one_mul]
            exact_mod_cast toFloat_intCast 255 (by norm_num)
          rw [hf, floatToByte_of_range (by norm_num) (by norm_num)]
          have : ⌊(255 : ℚ)⌋ = 255 := by
            exact_mod_cast (Int.floor_intCast (255 : ℤ) : ⌊((255 : ℤ) : ℚ)⌋ = 255)
          rw [this]
          rfl
        simp [stampMark, hv, packColors, hr, h255]

/-- C17, amended. For a mark as `CG_ImpactMark` stores it (time, flags, shader and colour
from the call, every vertex carrying the packed colour bytes) that is not an energy mark,
or is an energy mark that fades alpha and has red = 1, the code with its guard on the
first vertex's red byte and the variant with an explicit flag, started cleared, submit the
same polygons in every pass of every sequence of frames. -/
theorem C17_guard_matches_flag (V : Nat) (cg : Globals) (a : ImpactArgs)
    (verts : List polyVert_t) (ps : List Globals)
    (h : a.energy = false ∨ (a.alphaFade = true ∧ a.red = 1))
    (hcol : ∀ v ∈ verts, v.modulate = packColors a.red a.green a.blue a.alpha) :
    runFlag ps (stampMark cg a verts.length verts (zeroMark V)) false =
      runGuard ps (stampMark cg a verts.length verts (zeroMark V)) :=
  runFlag_eq ps _ _ (stamped_lockstep V cg a verts h hcol)

/-- C17 for a white energy alpha-fade mark over two frames, the second with
intensity 0. -/
theorem C17_guard_matches_flag_witness :
    (energyAlphaArgs.energy = false ∨
        (energyAlphaArgs.alphaFade = true ∧ energyAlphaArgs.red = 1)) ∧
      (∀ v ∈ [whiteVert], v.modulate = packColors energyAlphaArgs.red energyAlphaArgs.green
        energyAlphaArgs.blue energyAlphaArgs.alpha) ∧
      runFlag [⟨2500, 1, 10000, 1000, 0⟩, ⟨4000, 1, 10000, 1000, 0⟩]
          (stampMark ⟨1000, 1, 10000, 1000, 0⟩ energyAlphaArgs [whiteVert].length [whiteVert]
            (zeroMark 4)) false =
        runGuard [⟨2500, 1, 10000, 1000, 0⟩, ⟨4000, 1, 10000, 1000, 0⟩]
          (stampMark ⟨1000, 1, 10000, 1000, 0⟩ energyAlphaArgs [whiteVert].length [whiteVert]
            (zeroMark 4)) :=
  ⟨Or.inr ⟨rfl, rfl⟩, by intro v hv; rw [List.mem_singleton.1 hv]; rfl,
    C17_guard_matches_flag 4 ⟨1000, 1, 10000, 1000, 0⟩ energyAlphaArgs [whiteVert]
      [⟨2500, 1, 10000, 1000, 0⟩, ⟨4000, 1, 10000, 1000, 0⟩] (Or.inr ⟨rfl, rfl⟩)
      (by intro v hv; rw [List.mem_singleton.1 hv]; rfl)⟩

/-! ## The general fade on energy marks -/

/-- The general fade of an energy mark that does not fade alpha, inside the fade window:
each R, G, B byte of the first `numVerts` vertices is multiplied by the fade factor and
stored back into its byte, that is, reduced modulo 256. -/
theorem timeFadeStep_energy {T L F : Int} {m : markPoly_t} (he : m.energy = true)
    (ha : m.alphaFade = false) (ht : wrap32 (m.time + L) - T < F) (hF : F ≠ 0) :
    timeFadeStep T L F m =
      .ok { m with verts := forVerts m.numVerts (fun v =>
        { v with modulate :=
            ⟨(v.modulate.c0 * Int.tdiv (wrap32 (255 * (wrap32 (m.time + L) - T))) F
                % 256).toNat,
              (v.modulate.c1 * Int.tdiv (wrap32 (255 * (wrap32 (m.time + L) - T))) F
                % 256).toNat,
              (v.modulate.c2 * Int.tdiv (wrap32 (255 * (wrap32 (m.time + L) - T))) F
                % 256).toNat,
              v.modulate.c3⟩ }) m.verts } := by
  unfold timeFadeStep
  simp only
  rw [if_pos ht, if_neg hF, if_neg (by simp [ha]), if_pos he]
  rfl

/-- C18: the general fade of an energy mark can enlarge a byte. In the pass at time 3975
over the white energy mark stored at time 1000 (`cg_markTime` 2985, `cg_markFadeTime`
1000) the energy block leaves R, G, B bytes 3, the fade factor is 2, and the bytes
submitted are 6. -/
theorem C18_general_fade_enlarges_energy_bytes :
    whiteEnergyDimmed = .ok [⟨3, 3, 3, 255⟩, ⟨3, 3, 3, 255⟩, ⟨3, 3, 3, 255⟩, ⟨3, 3, 3, 255⟩] ∧
    whiteEnergyRun =
      .ok [[⟨6, 6, 6, 255⟩, ⟨6, 6, 6, 255⟩, ⟨6, 6, 6, 255⟩, ⟨6, 6, 6, 255⟩]] := by
  constructor <;> with_unfolding_all rfl

/-! ## Texture coordinates of the quad -/

theorem grid_mono {k : Int} {B1 B2 : Nat} {x : ℚ} (hx : Grid k B1 x) (h : B1 ≤ B2) :
    Grid k B2 x := by
  obtain ⟨m, hm, rfl⟩ := hx
  exact ⟨m, by omega, rfl⟩

theorem update_self {p : Pool} {q : Ptr} {m : markPoly_t} (h : p.read q = .ok m) :
    p.update q (fun _ => m) = .ok p := by
  cases q with
  | null => simp [Pool.read] at h
  | active =>
    simp only [Pool.read, Except.ok.injEq] at h
    subst h
    rfl
  | slot i =>
    simp only [Pool.read] at h
    simp only [Pool.update]
    split at h
    · rename_i m0 hm0
      simp only [Except.ok.injEq] at h
      subst h
      have hset : p.cg_markPolys.set i m0 = p.cg_markPolys := by
        apply List.ext_getElem?
        intro j
        by_cases hj : i = j
        · subst hj
          have hi : i < p.cg_markPolys.length := by
            by_contra hc
            rw [List.getElem?_eq_none (not_lt.1 hc)] at hm0
            cases hm0
          rw [hm0, List.getElem?_eq_getElem (by simpa using hi)]
          simp
        · rw [List.getElem?_set_ne hj]
      rw [hset]
    · cases h

/-- The general fade of a mark that is not an energy mark is idempotent at a fixed time. -/
theorem timeFadeStep_idem {T L F : Int} {m m1 : markPoly_t} (he : m.energy = false)
    (h : timeFadeStep T L F m = .ok m1) : timeFadeStep T L F m1 = .ok m1 := by
  unfold timeFadeStep at h ⊢
  simp only at h ⊢
  split at h
  · rename_i ht
    split at h
    · cases h
    · rename_i hF
      split at h
      · rename_i ha
        cases h
        simp only
        rw [if_pos ht, if_neg hF, if_pos ha]
        congr 2
        refine forVerts_forVerts _ _ _ ?_ _
        intro v
        rfl
      · rename_i ha
        rw [if_neg (by simp [he])] at h
        cases h
        simp only
        rw [if_pos ht, if_neg hF, if_neg ha, if_neg (by simp [he])]
        congr 2
        refine forVerts_forVerts _ _ _ ?_ _
        intro v
        rfl
  · rename_i ht
    cases h
    rw [if_neg ht]

/-- One loop iteration on a mark that is not an energy mark is idempotent at a fixed
time. -/
theorem fadeMark_idem {T L F : Int} {m m1 : markPoly_t} (he : m.energy = false)
    (h : fadeMark T L F m = .ok m1) : fadeMark T L F m1 = .ok m1 := by
  have he1 : m1.energy = false := by
    rw [fadeMark_fields h]
    exact he
  unfold fadeMark at h ⊢
  rw [energyStep_of_not_energy he] at h
  rw [energyStep_of_not_energy he1]
  exact timeFadeStep_idem he h

/-- The loop of `CG_AddMarks` over marks that are all alive and all fixed by the fade:
the pool is left as it is and each mark is submitted as it stands. -/
theorem addLoop_fixed {T L F : Int} (g : Nat → Poly) : ∀ (todo : List Nat) {p : Pool}
    {done fr : List Nat} (out : List Poly), Linked p (done ++ todo) fr →
    (∀ i ∈ todo, ∃ m, p.read (.slot i) = .ok m ∧ ¬ T > wrap32 (m.time + L) ∧
      fadeMark T L F m = .ok m ∧ markPoly m = g i) →
    ∀ fuel, todo.length < fuel →
      addLoop T L F fuel ((todo.map Ptr.slot).headD .active) p out =
        .ok (p, out ++ todo.map g) := by
  intro todo
  induction todo with
  | nil =>
    intro p done fr out _ _ fuel hf
    obtain ⟨n, rfl⟩ : ∃ n, fuel = n + 1 := ⟨fuel - 1, by simp at hf; omega⟩
    simp [addLoop]
  | cons i rest ih =>
    intro p done fr out h hall fuel hf
    obtain ⟨n, rfl⟩ : ∃ n, fuel = n + 1 := ⟨fuel - 1, by simp at hf; omega⟩
    obtain ⟨m, hm, hal, hfix, hg⟩ := hall i (List.mem_cons_self _ _)
    have hnext : m.nextMark = (rest.map Ptr.slot).headD .active := by
      rw [← nextOf_of_read hm]
      exact h.next_at
    have h' : Linked p ((done ++ [i]) ++ rest) fr := by simpa using h
    have hrest := ih (out ++ [g i]) h' (fun j hj => hall j (List.mem_cons_of_mem _ hj)) n
      (by simp at hf; omega)
    rw [List.map_cons, List.headD_cons, addLoop]
    simp only [reduceCtorEq, if_false, hm, bind, Except.bind, if_neg hal, hfix, update_self hm,
      hnext, hg]
    rw [hrest]
    simp

theorem dataOf_of_read {p : Pool} {q : Ptr} {m : markPoly_t} (h : p.read q = .ok m) :
    dataOf p q = .ok m.data := by
  simp [dataOf, h, Except.map]

theorem energyOf_of_read {p : Pool} {q : Ptr} {m : markPoly_t} (h : p.read q = .ok m) :
    energyOf p q = m.energy := by
  simp [energyOf, h]

/-- A mark whose data the fade leaves as it is, is itself left as it is. -/
theorem fadeMark_fixed_of_data {T L F : Int} {m : markPoly_t}
    (h : fadeMark T L F m.data = .ok m.data) : fadeMark T L F m = .ok m := by
  rw [fadeMark_data] at h
  cases hx : fadeMark T L F m with
  | error e =>
    rw [hx] at h
    cases h
  | ok x =>
    rw [hx] at h
    simp only [Except.map, Except.ok.injEq] at h
    have hv0 : x.data.verts = m.data.verts := congrArg markPoly_t.verts h
    have hv : x.verts = m.verts := hv0
    have hf := fadeMark_fields hx
    rw [hv] at hf
    rw [hf]

/-- C20 (frame-rate independence for marks that are not energy marks). On a well-linked
pool whose active marks are all non-energy, a call of `CG_AddMarks` with more fuel than
the active list is long returns, and a second call with the same clock and configuration
on the pool it left returns the same pool and submits the same polygons (shader, vertex
count and vertices with position, texture coordinates and colour bytes). -/
theorem C20_second_pass_same {cg : Globals} {p : Pool} {act fr : List Nat} {fuel : Nat}
    (h : Linked p act fr) (hne : ∀ i ∈ act, energyOf p (.slot i) = false)
    (hf : act.length < fuel) :
    ∃ p1 out1, CG_AddMarks fuel cg p = .ok (p1, out1) ∧
      CG_AddMarks fuel cg p1 = .ok (p1, out1) := by
  by_cases hon : cg.cg_marks = 0
  · exact ⟨p, [], by simp [CG_AddMarks, hon], by simp [CG_AddMarks, hon]⟩
  · obtain ⟨p1, hrun, hl, hda, -, hlen⟩ := addMarks_spec h hon
    refine ⟨p1, _, by rw [hrun, if_pos hf], ?_⟩
    have hl' : Linked p1 ([] ++ act.filter (aliveIn cg.cg_time cg.cg_markTime p))
        ((act.filter fun i => !aliveIn cg.cg_time cg.cg_markTime p i).reverse ++ fr) := by
      simpa using hl
    unfold CG_AddMarks
    rw [if_neg hon, hl.next_head]
    have := addLoop_fixed (T := cg.cg_time) (L := cg.cg_markTime) (F := cg.cg_markFadeTime)
      (fun i => markPoly (fadedData cg.cg_time cg.cg_markTime cg.cg_markFadeTime p i))
      (act.filter (aliveIn cg.cg_time cg.cg_markTime p)) [] hl' ?_ fuel
      (lt_of_le_of_lt (List.length_filter_le _ _) hf)
    · simpa using this
    · intro i hi
      obtain ⟨hia, hal⟩ := List.mem_filter.1 hi
      obtain ⟨d0, d', h0, hfd, hfe⟩ :=
        fadedData_spec (F := cg.cg_markFadeTime) (h.bound i (by simp [hia])) hal
      obtain ⟨m0, hm0⟩ := read_of_valid (show Valid p (.slot i) from h.bound i (by simp [hia]))
      obtain ⟨m1, hm1⟩ := read_of_valid (show Valid p1 (.slot i) from
        hl.bound i (by simp [hia, hal]))
      have hd0 : d0 = m0.data := by
        rw [dataOf_of_read hm0] at h0
        exact (Except.ok.inj h0).symm
      have he0 : d0.energy = false := by
        have := hne i hia
        rw [energyOf_of_read hm0] at this
        rw [hd0]
        exact this
      have hd1 : m1.data = d' := by
        have := hda i hia hal
        rw [dataOf_of_read hm1, hfe] at this
        exact Except.ok.inj this
      have hidem := fadeMark_idem he0 hfd
      rw [← hd1] at hidem
      refine ⟨m1, hm1, ?_, fadeMark_fixed_of_data hidem, ?_⟩
      · have ht1 : m1.time = d0.time := by
          have e1 : m1.time = m1.data.time := rfl
          rw [e1, hd1, fadeMark_fields hfd]
        have ht0 : timeOf p (.slot i) = d0.time := timeOf_of_dataOf h0
        rw [ht1, ← ht0]
        simpa [aliveIn] using hal
      · show markPoly m1 =
          markPoly (fadedData cg.cg_time cg.cg_markTime cg.cg_markFadeTime p i)
        rw [← markPoly_data, hd1, hfe]

/-- C20 for two passes at time 10900 over the bullet mark stored at time 1000. -/
theorem C20_second_pass_same_witness :
    Linked bulletPool [0] [1] ∧ (∀ i ∈ [0], energyOf bulletPool (.slot i) = false) ∧
      [0].length < 2 ∧
      ∃ p1 out1, CG_AddMarks 2 ⟨10900, 1, 10000, 1000, 0⟩ bulletPool = .ok (p1, out1) ∧
        CG_AddMarks 2 ⟨10900, 1, 10000, 1000, 0⟩ p1 = .ok (p1, out1) :=
  ⟨by with_unfolding_all decide, by with_unfolding_all decide, by decide,
    @C20_second_pass_same ⟨10900, 1, 10000, 1000, 0⟩ bulletPool [0] [1] 2
      (by with_unfolding_all decide) (by with_unfolding_all decide) (by decide)⟩

end CgMarks
